import Mathlib

/-!
Verification of the template compiler and segment-visibility engine of the
`prompt` repository (a shell-prompt renderer).

The development shallowly embeds:
* `src/component.rs` — the rendered-fragment data model (`Component`), the
  grouping pass (`into_groups`), the retention test (`should_keep_group`) and
  the squash pass (`squash`), plus the leftover-option check of
  `components_from_tokens`;
* `src/parser.rs` — the nom-based template parser (`parse` and its grammar),
  with nom combinators embedded as functions over `List Char`.

`token.rs` is absent from the snapshot; the token data model and its `FromStr`
instances are modelled from the specification where needed (each such
definition is marked `Modelled from the spec:`).
-/

set_option maxHeartbeats 1000000

/-- `component.rs`: `enum Component` — a rendered fragment: literal text
(`Static`), a color-start marker (`Color`), a color-reset marker
(`ColorReset`), or a computed component value (`Computed`). -/
inductive Component where
  | Static (s : String)
  | Color (s : String)
  | ColorReset (s : String)
  | Computed (s : String)
deriving DecidableEq

/-- The state of the `Groups` accumulator in `into_groups`
(`component.rs` lines 105–144): a map from group index to group contents
(the Rust `HashMap<usize, Vec<Option<Component>>>`, modelled as a function
to `Option`), and the current group index. -/
structure GroupsState where
  map : Nat → Option (List (Option Component))
  current_group_index : Nat

/-- `Groups::new()`: the map initially holds `0 ↦ []`. -/
def GroupsState.new : GroupsState :=
  { map := fun i => if i = 0 then some [] else none
    current_group_index := 0 }

/-- `Groups::current_group_empty`: the entry for the current index is absent
or empty. -/
def GroupsState.current_group_empty (g : GroupsState) : Bool :=
  match g.map g.current_group_index with
  | some grp => grp.isEmpty
  | none => true

/-- `Groups::add_to_current_group`: push onto the current group's vector,
creating it if absent (`entry(..).or_insert_with(Vec::new).push(..)`). -/
def GroupsState.add_to_current_group (g : GroupsState) (component : Option Component) :
    GroupsState :=
  { g with
    map := fun i =>
      if i = g.current_group_index then
        some ((g.map g.current_group_index).getD [] ++ [component])
      else g.map i }

/-- `Groups::start_new_group`: bump the current index (no entry is created). -/
def GroupsState.start_new_group (g : GroupsState) : GroupsState :=
  { g with current_group_index := g.current_group_index + 1 }

/-- `Groups::groups`: collect the entries for indices `0 ..= current_group_index`
in index order, skipping indices with no entry. -/
def GroupsState.groups (g : GroupsState) : List (List (Option Component)) :=
  (List.range (g.current_group_index + 1)).filterMap g.map

/-- The loop body of `into_groups` (`component.rs` lines 148–169). -/
def intoGroupsStep (g : GroupsState) (component : Option Component) : GroupsState :=
  match component with
  | some (Component.Color _) =>
      if g.current_group_empty then
        g.add_to_current_group component
      else
        (g.start_new_group).add_to_current_group component
  | some (Component.ColorReset _) =>
      (g.add_to_current_group component).start_new_group
  | _ => g.add_to_current_group component

/-- `component.rs` `into_groups`: partition a fragment sequence into segments. -/
def into_groups (components : List (Option Component)) : List (List (Option Component)) :=
  (components.foldl intoGroupsStep GroupsState.new).groups

/-- `component.rs` `should_keep_group`: keep a group when every slot is a
present `Static`/`Color`/`ColorReset`, or when some slot is a present
`Computed`. -/
def should_keep_group (group : List (Option Component)) : Bool :=
  let group_contains_only_static_or_color_or_color_reset := group.all fun c =>
    match c with
    | some (Component.Color _) | some (Component.ColorReset _)
    | some (Component.Static _) => true
    | _ => false
  let group_contains_a_computed_value := group.any fun c =>
    match c with
    | some (Component.Computed _) => true
    | _ => false
  group_contains_only_static_or_color_or_color_reset || group_contains_a_computed_value

/-- `component.rs` `squash`: group, filter by `should_keep_group`, flatten,
drop the absent slots. -/
def squash (components : List (Option Component)) : List Component :=
  ((into_groups components).filter (fun g => should_keep_group g)).flatten.filterMap id

/-- A direct accumulator form of the `into_groups` loop, used to reason about
it: `done` holds the finalized groups, `cur` the current group.  The final
current group is emitted when it is nonempty, or when no group was ever
finalized (`done = []`, matching the pre-created entry `0 ↦ []` of
`Groups::new`, which survives even when nothing was added to it). -/
def intoGroupsGo (done : List (List (Option Component))) (cur : List (Option Component)) :
    List (Option Component) → List (List (Option Component))
  | [] => done ++ (if cur.isEmpty && !done.isEmpty then [] else [cur])
  | c :: rest =>
    match c with
    | some (Component.Color _) =>
        if cur.isEmpty then intoGroupsGo done (cur ++ [c]) rest
        else intoGroupsGo (done ++ [cur]) [c] rest
    | some (Component.ColorReset _) =>
        intoGroupsGo (done ++ [cur ++ [c]]) [] rest
    | _ => intoGroupsGo done (cur ++ [c]) rest

/-- The grouping step exactly as the specification words it (claim C2):
a present `ColorStart` is appended to an empty current segment, otherwise
closes it and starts a new one holding the marker; a present `ColorReset` is
appended and then closes the segment; everything else is appended; at the
end, a segment opened but never populated is dropped rather than emitted as
an empty segment. -/
def intoGroupsSpecGo (done : List (List (Option Component))) (cur : List (Option Component)) :
    List (Option Component) → List (List (Option Component))
  | [] => done ++ (if cur.isEmpty then [] else [cur])
  | c :: rest =>
    match c with
    | some (Component.Color _) =>
        if cur.isEmpty then intoGroupsSpecGo done (cur ++ [c]) rest
        else intoGroupsSpecGo (done ++ [cur]) [c] rest
    | some (Component.ColorReset _) =>
        intoGroupsSpecGo (done ++ [cur ++ [c]]) [] rest
    | _ => intoGroupsSpecGo done (cur ++ [c]) rest

/-- The grouping pass as described by the specification (claim C2). -/
def intoGroupsSpec (components : List (Option Component)) : List (List (Option Component)) :=
  intoGroupsSpecGo [] [] components

/-- Retention condition (a) of the squash pass, as the specification words it:
every slot in the segment is present and is a literal (`Static`), `ColorStart`
(`Color`) or `ColorReset` fragment. -/
def SpecAllDecorative (group : List (Option Component)) : Prop :=
  ∀ c ∈ group, (∃ s, c = some (Component.Static s)) ∨
    (∃ s, c = some (Component.Color s)) ∨ (∃ s, c = some (Component.ColorReset s))

/-- Retention condition (b) of the squash pass, as the specification words it:
the segment contains at least one present computed `Value` fragment. -/
def SpecHasValue (group : List (Option Component)) : Prop :=
  ∃ s, some (Component.Computed s) ∈ group

/-- `component/jobs.rs` `display`: a job-count string renders as a `Computed`
fragment; no job count renders as an absent fragment.  The handler consumes no
options. -/
def jobs_display (jobs : Option String) : Option Component :=
  match jobs with
  | some j => some (Component.Computed j)
  | none => none

/-- The error message built by `components_from_tokens` (`component.rs`
lines 67–74) from the options left over after a component handler ran:
each entry formatted as `key=value` and joined with `", "`, prefixed with
`error: invalid options: `. -/
def invalid_options_message (options : List (String × String)) : String :=
  "error: invalid options: " ++
    String.intercalate ", " (options.map fun kv => kv.1 ++ "=" ++ kv.2)

/-- `components_from_tokens` (`component.rs` lines 53–77) specialized to a
single `Token::Component` whose name is `jobs` (whose handler `jobs::display`
consumes no options): dispatch the handler, then fail with the
`invalid options` error when the options map still contains entries.
`options` lists the leftover `HashMap`'s `(key, value)` entries in its
iteration order, which the Rust `HashMap` leaves unspecified and
run-dependent. -/
def evalJobsComponentToken (jobs : Option String) (options : List (String × String)) :
    Except String (List (Option Component)) :=
  let c := jobs_display jobs
  if options.isEmpty then Except.ok [c]
  else Except.error (invalid_options_message options)

/-- A nom parser over `&str`, embedded as a function from the input character
list to `none` (the `Err` case, whose error value the grammar never inspects)
or the unconsumed rest together with the parsed value. -/
abbrev Parser (α : Type) : Type := List Char → Option (List Char × α)

/-- nom `tag`: match a literal prefix and return it. -/
def tag (s : List Char) : Parser (List Char) := fun input =>
  if s.isPrefixOf input then some (input.drop s.length, s) else none

/-- nom `none_of`: consume one character not in the given set. -/
def none_of (bad : List Char) : Parser Char := fun input =>
  match input with
  | [] => none
  | c :: rest => if c ∈ bad then none else some (rest, c)

/-- nom `alpha1` (complete): the maximal nonempty alphabetic prefix. -/
def alpha1 : Parser (List Char) := fun input =>
  let pre := input.takeWhile Char.isAlpha
  if pre.isEmpty then none else some (input.dropWhile Char.isAlpha, pre)

/-- The whitespace characters of nom `multispace0`. -/
def isMultispace (c : Char) : Bool :=
  c = ' ' || c = '\t' || c = '\r' || c = '\n'

/-- nom `multispace0` (complete): the maximal (possibly empty) whitespace
prefix. -/
def multispace0 : Parser (List Char) := fun input =>
  some (input.dropWhile isMultispace, input.takeWhile isMultispace)

/-- nom `map`. -/
def pMap {α β : Type} (p : Parser α) (f : α → β) : Parser β := fun input =>
  match p input with
  | some (rest, a) => some (rest, f a)
  | none => none

/-- nom `map_res`: apply a fallible function to the output. -/
def pMapRes {α β : Type} (p : Parser α) (f : α → Option β) : Parser β := fun input =>
  match p input with
  | some (rest, a) =>
    match f a with
    | some b => some (rest, b)
    | none => none
  | none => none

/-- nom `verify`: fail unless the output satisfies the predicate. -/
def pVerify {α : Type} (p : Parser α) (f : α → Bool) : Parser α := fun input =>
  match p input with
  | some (rest, a) => if f a then some (rest, a) else none
  | none => none

/-- nom `opt`: turn failure into `none` without consuming input. -/
def pOpt {α : Type} (p : Parser α) : Parser (Option α) := fun input =>
  match p input with
  | some (rest, a) => some (rest, some a)
  | none => some (input, none)

/-- nom `alt` of two alternatives, tried in order. -/
def alt {α : Type} (p q : Parser α) : Parser α := fun input =>
  match p input with
  | some r => some r
  | none => q input

/-- nom `preceded`. -/
def preceded {α β : Type} (p : Parser α) (q : Parser β) : Parser β := fun input =>
  match p input with
  | some (rest, _) => q rest
  | none => none

/-- nom `terminated`. -/
def terminated {α β : Type} (p : Parser α) (q : Parser β) : Parser α := fun input =>
  match p input with
  | some (rest, a) =>
    match q rest with
    | some (rest2, _) => some (rest2, a)
    | none => none
  | none => none

/-- nom `pair`. -/
def pPair {α β : Type} (p : Parser α) (q : Parser β) : Parser (α × β) := fun input =>
  match p input with
  | some (rest, a) =>
    match q rest with
    | some (rest2, b) => some (rest2, (a, b))
    | none => none
  | none => none

/-- nom `separated_pair`. -/
def separated_pair {α β γ : Type} (p : Parser α) (s : Parser γ) (q : Parser β) :
    Parser (α × β) := fun input =>
  match (pPair p (preceded s q)) input with
  | some (rest, ab) => some (rest, ab)
  | none => none

/-- nom `many0`, with explicit structural fuel: repeat the parser until it
fails, collecting outputs; a successful parse that consumes nothing is nom's
infinite-loop error (`ErrorKind::Many0`), embedded as failure.  Since every
iteration consumes at least one character, `input.length + 1` fuel always
suffices (see `many0F_fuel`). -/
def many0F {α : Type} (fuel : Nat) (p : Parser α) : Parser (List α) := fun input =>
  match fuel with
  | 0 => none
  | fuel + 1 =>
    match p input with
    | none => some (input, [])
    | some (rest, a) =>
      if rest.length < input.length then
        match many0F fuel p rest with
        | some (rest2, as) => some (rest2, a :: as)
        | none => none
      else none

/-- nom `many0`. -/
def many0 {α : Type} (p : Parser α) : Parser (List α) := fun input =>
  many0F (input.length + 1) p input

/-- nom `many1`: the parser must succeed at least once (consuming input),
then behaves as `many0`. -/
def many1 {α : Type} (p : Parser α) : Parser (List α) := fun input =>
  match p input with
  | none => none
  | some (rest, a) =>
    if rest.length < input.length then
      match many0 p rest with
      | some (rest2, as) => some (rest2, a :: as)
      | none => none
    else none

/-- Modelled from the spec: `token.rs` (absent from the snapshot) defines the
closed set of style keywords; per §3/§6 a style identifier resolves to a
color-start marker or the color reset. -/
inductive StyleToken where
  | Black
  | Blue
  | Green
  | Red
  | Cyan
  | Magenta
  | Yellow
  | White
  | Reset
deriving DecidableEq

/-- Modelled from the spec: the canonical keyword of each style token. -/
def StyleToken.str : StyleToken → String
  | StyleToken.Black => "black"
  | StyleToken.Blue => "blue"
  | StyleToken.Green => "green"
  | StyleToken.Red => "red"
  | StyleToken.Cyan => "cyan"
  | StyleToken.Magenta => "magenta"
  | StyleToken.Yellow => "yellow"
  | StyleToken.White => "white"
  | StyleToken.Reset => "reset"

/-- Modelled from the spec: `FromStr for StyleToken` (in the absent
`token.rs`) — resolve a known style keyword, failing on anything else. -/
def StyleToken.fromStr (s : String) : Option StyleToken :=
  if s = "black" then some StyleToken.Black
  else if s = "blue" then some StyleToken.Blue
  else if s = "green" then some StyleToken.Green
  else if s = "red" then some StyleToken.Red
  else if s = "cyan" then some StyleToken.Cyan
  else if s = "magenta" then some StyleToken.Magenta
  else if s = "yellow" then some StyleToken.Yellow
  else if s = "white" then some StyleToken.White
  else if s = "reset" then some StyleToken.Reset
  else none

/-- `Condition` (`token.rs`, absent; variants corroborated by the match in
`component.rs` lines 84–87): the last-command-status test or an
environment-variable-presence test carrying the variable name. -/
inductive Condition where
  | LastCommandStatus
  | EnvironmentVariable (name : String)
deriving DecidableEq

/-- Modelled from the spec: `FromStr for Condition` (in the absent
`token.rs`) — `last_command_status` names the status test; any other
identifier names the environment variable to test (§6: "an
environment-variable-presence test parameterized by a variable name"). -/
def Condition.fromStr (s : String) : Option Condition :=
  if s = "last_command_status" then some Condition.LastCommandStatus
  else some (Condition.EnvironmentVariable s)

/-- `token::Component` (`token.rs`, absent; the eight variants are exactly the
arms of the dispatch in `component.rs` lines 54–63 and §3 of the spec). -/
inductive TComponent where
  | Cwd
  | GitBranch
  | GitCommit
  | GitStash
  | GitStatus
  | Hostname
  | Jobs
  | User
deriving DecidableEq

/-- The canonical name of each component (§6 of the spec). -/
def TComponent.str : TComponent → String
  | TComponent.Cwd => "cwd"
  | TComponent.GitBranch => "git_branch"
  | TComponent.GitCommit => "git_commit"
  | TComponent.GitStash => "git_stash"
  | TComponent.GitStatus => "git_status"
  | TComponent.Hostname => "hostname"
  | TComponent.Jobs => "jobs"
  | TComponent.User => "user"

/-- Modelled from the spec: `FromStr for token::Component` (in the absent
`token.rs`) — resolve one of the eight component names, failing on anything
else (§9: unknown names are rejected at parse time). -/
def TComponent.fromStr (s : String) : Option TComponent :=
  if s = "cwd" then some TComponent.Cwd
  else if s = "git_branch" then some TComponent.GitBranch
  else if s = "git_commit" then some TComponent.GitCommit
  else if s = "git_stash" then some TComponent.GitStash
  else if s = "git_status" then some TComponent.GitStatus
  else if s = "hostname" then some TComponent.Hostname
  else if s = "jobs" then some TComponent.Jobs
  else if s = "user" then some TComponent.User
  else none

/-- Insert a `key ↦ value` binding into an association list kept strictly
sorted by key, overwriting an existing binding for the same key. -/
def insertOption : List (String × String) → String → String → List (String × String)
  | [], k, v => [(k, v)]
  | (k1, v1) :: rest, k, v =>
    if k = k1 then (k, v) :: rest
    else if k < k1 then (k, v) :: (k1, v1) :: rest
    else (k1, v1) :: insertOption rest k v

/-- Collect parsed `key=value` pairs into a map
(`options.into_iter().collect::<HashMap<_, _>>()`, later duplicates
overwriting earlier ones).  The `HashMap` is represented canonically as an
association list strictly sorted by key, so that Lean equality of options
coincides with Rust `HashMap` equality. -/
def collectOptions (pairs : List (String × String)) : List (String × String) :=
  pairs.foldl (fun m kv => insertOption m kv.1 kv.2) []

/-- `token::Token` (`token.rs`, absent; constructors as used by `parser.rs`):
literal text, a style marker, a component reference with its options map, or a
conditional with a condition, a `left` branch and an optional `right`
branch. -/
inductive Token where
  | Static (s : String)
  | Style (s : StyleToken)
  | Component (name : TComponent) (options : List (String × String))
  | Conditional (condition : Condition) (left : List Token) (right : Option (List Token))

/-- `parser.rs` `RESERVED_KEYWORDS`: `end` and `else`. -/
def RESERVED_KEYWORDS : List String := ["end", "else"]

/-- `parser.rs` `any_char_except_opening_brace`: a maximal nonempty run of
characters other than `\x7b`, as one `Static` token. -/
def any_char_except_opening_brace : Parser Token :=
  pMap (many1 (none_of ['\x7b'])) (fun cs => Token.Static (String.mk cs))

/-- `parser.rs` `escaped_opening_brace`: the literal `\x7b\x7b`, as a `Static`
token. -/
def escaped_opening_brace : Parser Token :=
  pMap (tag ['\x7b', '\x7b']) (fun cs => Token.Static (String.mk cs))

/-- `parser.rs` `underscore`. -/
def underscore : Parser (List Char) := tag ['_']

/-- `parser.rs` `identifier`: one or more alphabetic runs or underscores,
concatenated, verified not to be a reserved keyword. -/
def identifier : Parser String :=
  pVerify (pMap (many1 (alt alpha1 underscore)) (fun ss => String.mk ss.flatten))
    (fun s => !RESERVED_KEYWORDS.contains s)

/-- `parser.rs` `start_identifier_end`: `\x7b` + identifier + `\x7d`, with no
whitespace handling. -/
def start_identifier_end : Parser String :=
  terminated (preceded (tag ['\x7b']) identifier) (tag ['\x7d'])

/-- `parser.rs` `style_token`. -/
def style_token : Parser StyleToken :=
  pMapRes start_identifier_end StyleToken.fromStr

/-- `parser.rs` `style`. -/
def style : Parser Token := pMap style_token Token.Style

/-- `parser.rs` `if_start`: `\x7b` + optional whitespace + `if`. -/
def if_start : Parser Unit :=
  pMap (pPair (tag ['\x7b']) (preceded multispace0 (tag "if".toList))) (fun _ => ())

/-- `parser.rs` `if_condition`: optional whitespace + identifier resolving to
a `Condition`, then `\x7d` immediately. -/
def if_condition : Parser Condition :=
  terminated (preceded multispace0 (pMapRes identifier Condition.fromStr))
    (tag ['\x7d'])

/-- `parser.rs` `end` (named `end_tag` here, `end` being a Lean keyword):
the literal `\x7bend\x7d`. -/
def end_tag : Parser Unit :=
  pMap (tag "\x7bend\x7d".toList) (fun _ => ())

/-- `parser.rs` `if_else_tag`: the literal `\x7belse\x7d`. -/
def if_else_tag : Parser Unit :=
  pMap (tag "\x7belse\x7d".toList) (fun _ => ())

/-- `parser.rs` `key`: optional whitespace, then a maximal nonempty run of
characters other than `=`. -/
def key : Parser String :=
  pMap (preceded multispace0 (many1 (none_of ['=']))) (fun cs => String.mk cs)

/-- `parser.rs` `value`: a maximal nonempty run of characters other than
`\x7d` and space. -/
def value : Parser String :=
  pMap (many1 (none_of ['\x7d', ' '])) (fun cs => String.mk cs)

/-- `parser.rs` `key_value`. -/
def key_value : Parser (String × String) :=
  separated_pair key (tag ['=']) value

/-- `parser.rs` `key_values`: zero or more `key=value` pairs collected into
the options map. -/
def key_values : Parser (List (String × String)) :=
  pMap (many0 key_value) collectOptions

/-- `parser.rs` `component`: `\x7b` + optional whitespace + identifier
resolving to a component name + options + optional whitespace + `\x7d`. -/
def component : Parser Token :=
  pMap
    (pPair
      (preceded (tag ['\x7b'])
        (preceded multispace0 (pMapRes identifier TComponent.fromStr)))
      (terminated key_values (preceded multispace0 (tag ['\x7d']))))
    (fun nv => Token.Component nv.1 nv.2)

/-- `parser.rs` `tokens` (and, inside it, `conditional`), with structural fuel
for the mutual recursion between `tokens` and `conditional`: each conditional
consumes at least its `\x7bif` before recursing, so `input.length + 1` fuel
always suffices (see `tokensF_fuel`). -/
def tokensF : Nat → Parser (List Token)
  | 0 => fun _ => none
  | fuel + 1 =>
    many1 (alt any_char_except_opening_brace (alt escaped_opening_brace
      (alt style (alt
        (pMap (pPair (preceded if_start if_condition)
          (pPair (tokensF fuel)
            (terminated (pOpt (preceded if_else_tag (tokensF fuel))) end_tag)))
          (fun x => Token.Conditional x.1 x.2.1 x.2.2))
        component))))

/-- `parser.rs` `conditional`, at a given fuel level for its nested `tokens`
calls: `\x7bif condition\x7d`, a nested token sequence, an optional
`\x7belse\x7d` branch, and `\x7bend\x7d`. -/
def conditionalF (fuel : Nat) : Parser Token :=
  pMap (pPair (preceded if_start if_condition)
    (pPair (tokensF fuel)
      (terminated (pOpt (preceded if_else_tag (tokensF fuel))) end_tag)))
    (fun x => Token.Conditional x.1 x.2.1 x.2.2)

/-- `parser.rs` `tokens`. -/
def tokens : Parser (List Token) := fun input => tokensF (input.length + 1) input

/-- `parser.rs` `parse`: run `tokens`; succeed only when the whole input was
consumed, and otherwise report `parse error: ` followed by the original input
(the `input` in the error message is the function's parameter — the pattern
binding in the `if let` only scopes over its body). -/
def parse (input : String) : Except String (List Token) :=
  match tokens input.toList with
  | some (rest, ts) =>
    if rest.isEmpty then Except.ok ts
    else Except.error ("parse error: " ++ input)
  | none => Except.error ("parse error: " ++ input)

/-- The characters an `identifier` is built from: alphabetic or underscore. -/
def isIdentChar (c : Char) : Bool := c.isAlpha || c = '_'

mutual

/-- No reserved keyword (`end`, `else`) occurs in the token as a parsed
component or condition name. -/
def reservedFreeTok : Token → Bool
  | Token.Static _ => true
  | Token.Style _ => true
  | Token.Component name _ => !(RESERVED_KEYWORDS.contains name.str)
  | Token.Conditional c l r =>
    (match c with
     | Condition.LastCommandStatus => true
     | Condition.EnvironmentVariable n => !(RESERVED_KEYWORDS.contains n)) &&
    reservedFreeList l &&
    (match r with
     | none => true
     | some rr => reservedFreeList rr)

/-- No reserved keyword occurs anywhere in the token list as a parsed
component or condition name. -/
def reservedFreeList : List Token → Bool
  | [] => true
  | t :: ts => reservedFreeTok t && reservedFreeList ts

end

/-- The token alternative tried at each position by `tokens`
(`parser.rs` lines 137–143), at a given fuel level for nested conditionals:
static run, escaped brace, style, conditional, component — in source order. -/
def tokensStepF (fuel : Nat) : Parser Token :=
  alt any_char_except_opening_brace (alt escaped_opening_brace
    (alt style (alt (conditionalF fuel) component)))

/-- Modelled from the spec: the canonical directive text of a condition when
re-serializing (§8 grammar round-trip): `last_command_status` for the status
test, the variable name for the environment test. -/
def condStr : Condition → String
  | Condition.LastCommandStatus => "last_command_status"
  | Condition.EnvironmentVariable n => n

/-- Modelled from the spec: re-serialization of an options map — each pair as
` key=value` (space-separated, `=`-joined, §6). -/
def serOptsL (opts : List (String × String)) : List Char :=
  (opts.map (fun kv => ' ' :: kv.1.toList ++ '=' :: kv.2.toList)).flatten

mutual

/-- Modelled from the spec: re-serialization of one token — `Static` text
verbatim, and reconstructed directive syntax for style markers, components
with their options, and conditionals (§8 grammar round-trip). -/
def serTokL : Token → List Char
  | Token.Static s => s.toList
  | Token.Style st => '\x7b' :: st.str.toList ++ ['\x7d']
  | Token.Component n opts => '\x7b' :: n.str.toList ++ serOptsL opts ++ ['\x7d']
  | Token.Conditional c l none =>
    "\x7bif ".toList ++ (condStr c).toList ++ ['\x7d'] ++ serListL l ++
      "\x7bend\x7d".toList
  | Token.Conditional c l (some rr) =>
    "\x7bif ".toList ++ (condStr c).toList ++ ['\x7d'] ++ serListL l ++
      "\x7belse\x7d".toList ++ serListL rr ++ "\x7bend\x7d".toList

/-- Modelled from the spec: re-serialization of a token sequence by
concatenation. -/
def serListL : List Token → List Char
  | [] => []
  | t :: ts => serTokL t ++ serListL ts

end

/-- Modelled from the spec: re-serialization of a parsed token tree back to a
template string. -/
def ser (ts : List Token) : String := String.mk (serListL ts)

/-- The classification of a character string by its first `=`, which governs
whether a `key_value` scan starting before it can succeed: no `=` at all, a
final `=` (`endEq`), a first `=` followed by `\x7d` or space (`dead`), or a
first `=` followed by anything else (`live`). -/
inductive Sig where
  | noEq
  | live
  | dead
  | endEq
deriving DecidableEq

/-- A character that makes the `value` parser fail immediately after an `=`. -/
def deadChar (c : Char) : Bool := c = '\x7d' || c = ' '

/-- The first-`=` signature of a character list. -/
def eqSig : List Char → Sig
  | [] => Sig.noEq
  | c :: rest =>
    if c = '=' then
      match rest with
      | [] => Sig.endEq
      | d :: _ => if deadChar d then Sig.dead else Sig.live
    else eqSig rest

/-- Two character lists that the grammar cannot tell apart from the left at a
directive boundary: same first-`=` signature and same first character. -/
def ChunkRel (a b : List Char) : Prop :=
  eqSig a = eqSig b ∧ a.head? = b.head?

/-- A brace-free `Static` token (one produced by
`any_char_except_opening_brace` rather than by the escape). -/
def bfStatic : Token → Bool
  | Token.Static s => s.toList.all (fun c => c ≠ '\x7b')
  | _ => false

/-- Whether a token list ends with a brace-free `Static`. -/
def endsBf (ts : List Token) : Bool :=
  match ts.getLast? with
  | some t => bfStatic t
  | none => false

/-- A nonempty string of identifier characters. -/
def identString (s : String) : Bool :=
  !s.toList.isEmpty && s.toList.all isIdentChar

/-- A key the parser can produce: nonempty, free of `=`, not starting with
whitespace (the preceding `multispace0` is maximal). -/
def canonKey (k : String) : Bool :=
  match k.toList with
  | [] => false
  | c :: rest => !isMultispace c && (c :: rest).all (fun d => d ≠ '=')

/-- A value the parser can produce: nonempty, free of `\x7d` and space. -/
def canonVal (v : String) : Bool :=
  !v.toList.isEmpty && v.toList.all (fun c => c ≠ '\x7d' && c ≠ ' ')

/-- An association list strictly sorted by key. -/
def strictSorted : List (String × String) → Bool
  | [] => true
  | [_] => true
  | (k1, v1) :: (k2, v2) :: rest =>
    decide (k1 < k2) && strictSorted ((k2, v2) :: rest)

/-- An options map the parser can produce: canonically sorted with canonical
keys and values. -/
def canonOpts (opts : List (String × String)) : Bool :=
  strictSorted opts && opts.all (fun kv => canonKey kv.1 && canonVal kv.2)

/-- A condition the parser can produce: the status test, or an environment
variable whose name is a non-reserved identifier other than
`last_command_status`. -/
def canonCond : Condition → Bool
  | Condition.LastCommandStatus => true
  | Condition.EnvironmentVariable n =>
    identString n && !(decide (n = "last_command_status")) &&
      !(RESERVED_KEYWORDS.contains n)

/-- A `Static` text the parser can produce: nonempty, and either brace-free or
exactly the escaped `\x7b\x7b`. -/
def canonStatic (s : String) : Bool :=
  !s.toList.isEmpty &&
    (s.toList.all (fun c => c ≠ '\x7b') || decide (s = "\x7b\x7b"))

mutual

/-- A token shape the parser can produce (each constructor's fields satisfy
the invariants its grammar rule guarantees). -/
def canonTok : Token → Bool
  | Token.Static s => canonStatic s
  | Token.Style _ => true
  | Token.Component _ opts => canonOpts opts
  | Token.Conditional c l r =>
    canonCond c && !l.isEmpty && canonList l &&
      (match r with
       | none => true
       | some rr => !rr.isEmpty && canonList rr)

/-- A token list the parser can produce: every token canonical, and no two
adjacent brace-free `Static` tokens (the static run is maximal). -/
def canonList : List Token → Bool
  | [] => true
  | [t] => canonTok t
  | t :: t2 :: rest =>
    canonTok t && !(bfStatic t && bfStatic t2) && canonList (t2 :: rest)

end

/-- What one successful token alternative (`tokensStepF fuel input =
some (rest, t)`) guarantees: the token is canonical, the consumed chunk is
`ChunkRel`-equivalent to its re-serialization, a brace-free static run stops
only at `\x7b` or the end, and on any remainder related to the original one,
re-parsing the re-serialization consumes exactly it and returns the same
token. -/
def StepConc (input rest : List Char) (t : Token) : Prop :=
  canonTok t = true ∧
  (∃ pre, input = pre ++ rest ∧ ChunkRel pre (serTokL t) ∧ pre ≠ []) ∧
  (bfStatic t = true → rest = [] ∨ rest.head? = some '\x7b') ∧
  ∀ (X : List Char) (m : Nat), ChunkRel rest X → (serTokL t ++ X).length ≤ m →
    tokensStepF m (serTokL t ++ X) = some (X, t)

/-- What a successful token-sequence parse (`many0` over `tokensStepF`)
guarantees: the list is canonical with maximal static runs, the consumed
prefix is `ChunkRel`-equivalent to the re-serialization, a trailing brace-free
static stops only at `\x7b` or the end, and re-parsing the re-serialization
before any related remainder on which the step parser fails reproduces the
list. -/
def ListConc (input rest : List Char) (ts : List Token) : Prop :=
  canonList ts = true ∧
  (∃ pre, input = pre ++ rest ∧ ChunkRel pre (serListL ts)) ∧
  (endsBf ts = true → rest = [] ∨ rest.head? = some '\x7b') ∧
  ∀ (X : List Char) (m : Nat), ChunkRel rest X → tokensStepF m X = none →
    (serListL ts ++ X).length ≤ m →
    many0 (tokensStepF m) (serListL ts ++ X) = some (X, ts)

/-- The induction statement for one token alternative (`tokensStepF`), for
inputs up to a given length. -/
def StepP (L : Nat) : Prop :=
  ∀ (input : List Char), input.length ≤ L → ∀ (fuel : Nat), input.length ≤ fuel →
    ∀ (rest : List Char) (t : Token), tokensStepF fuel input = some (rest, t) →
      StepConc input rest t

/-- The induction statement for token sequences (`many0` over
`tokensStepF`), for inputs up to a given length. -/
def ListP (L : Nat) : Prop :=
  ∀ (input : List Char), input.length ≤ L → ∀ (fuel : Nat), input.length ≤ fuel →
    ∀ (rest : List Char) (ts : List Token),
      many0 (tokensStepF fuel) input = some (rest, ts) →
      ListConc input rest ts

/-- The invariant tying a `GroupsState` to the accumulator form: the current
index is the number of finalized groups, finalized groups are the map entries
below it, and the entry at the current index holds the current group (absent
exactly when the current group is empty and is not the pre-created group 0). -/
def GroupsInv (g : GroupsState) (done : List (List (Option Component)))
    (cur : List (Option Component)) : Prop :=
  g.current_group_index = done.length ∧
    ∀ i, g.map i =
      if i = done.length then (if cur = [] ∧ done ≠ [] then none else some cur)
      else done[i]?

-- DEFINITIONS-END

theorem filterMap_range_getElem (l : List (List (Option Component))) :
    (List.range l.length).filterMap (fun i => l[i]?) = l := by
  induction l with
  | nil => simp
  | cons a t ih =>
    rw [List.length_cons, List.range_succ_eq_map, List.filterMap_cons,
      List.filterMap_map]
    simp only [List.getElem?_cons_zero, Option.some.injEq]
    have : (fun i => (a :: t)[i + 1]?) ∘ id = fun i => t[i]? := by
      funext i
      simp
    simp only [Function.comp_def]
    rw [show (fun i => (a :: t)[i + 1]?) = fun i => t[i]? from by funext i; simp]
    rw [ih]

theorem groupsInv_current_group_empty {g : GroupsState}
    {done : List (List (Option Component))} {cur : List (Option Component)}
    (h : GroupsInv g done cur) : g.current_group_empty = cur.isEmpty := by
  obtain ⟨hidx, hmap⟩ := h
  unfold GroupsState.current_group_empty
  rw [hidx, hmap done.length, if_pos rfl]
  by_cases hc : cur = [] ∧ done ≠ []
  · rw [if_pos hc, hc.1]
    rfl
  · rw [if_neg hc]

theorem groupsInv_add {g : GroupsState} {done : List (List (Option Component))}
    {cur : List (Option Component)} (h : GroupsInv g done cur)
    (c : Option Component) :
    GroupsInv (g.add_to_current_group c) done (cur ++ [c]) := by
  obtain ⟨hidx, hmap⟩ := h
  refine ⟨hidx, fun i => ?_⟩
  unfold GroupsState.add_to_current_group
  simp only [hidx]
  by_cases hi : i = done.length
  · rw [if_pos hi, if_pos hi, hmap done.length, if_pos rfl]
    have hne : ¬(cur ++ [c] = [] ∧ done ≠ []) := by
      simp
    rw [if_neg hne]
    by_cases hc : cur = [] ∧ done ≠ []
    · rw [if_pos hc, hc.1]
      rfl
    · rw [if_neg hc]
      rfl
  · rw [if_neg hi, if_neg hi, hmap i, if_neg hi]

theorem getElem?_append_singleton {α : Type} (l : List α) (a : α) (i : Nat) :
    (l ++ [a])[i]? = if i = l.length then some a else l[i]? := by
  by_cases hi : i = l.length
  · subst hi
    rw [if_pos rfl, List.getElem?_append_right (Nat.le_refl _)]
    simp
  · rw [if_neg hi]
    rcases Nat.lt_or_ge i l.length with hlt | hge
    · exact List.getElem?_append_left hlt
    · have hgt : l.length < i := by omega
      rw [List.getElem?_append_right (by omega)]
      rw [List.getElem?_eq_none (by simp; omega), List.getElem?_eq_none (by omega)]

theorem groupsInv_finalize_start {g : GroupsState}
    {done : List (List (Option Component))} {cur : List (Option Component)}
    (h : GroupsInv g done cur) (hcur : cur ≠ []) (c : Option Component) :
    GroupsInv ((g.start_new_group).add_to_current_group c) (done ++ [cur]) [c] := by
  obtain ⟨hidx, hmap⟩ := h
  refine ⟨by simp [GroupsState.add_to_current_group, GroupsState.start_new_group, hidx],
    fun i => ?_⟩
  have hmap' : ((g.start_new_group).add_to_current_group c).map i =
      if i = done.length + 1 then some ((g.map (done.length + 1)).getD [] ++ [c])
      else g.map i := by
    simp [GroupsState.add_to_current_group, GroupsState.start_new_group, hidx]
  rw [hmap', getElem?_append_singleton]
  simp only [List.length_append, List.length_cons, List.length_nil, Nat.add_zero,
    Nat.zero_add]
  by_cases hi : i = done.length + 1
  · have h1 : g.map (done.length + 1) = none := by
      rw [hmap (done.length + 1), if_neg (by omega)]
      exact List.getElem?_eq_none (by omega)
    rw [if_pos hi, if_pos hi, h1, if_neg (by simp)]
    rfl
  · rw [if_neg hi, if_neg hi, hmap i]
    by_cases hi2 : i = done.length
    · rw [if_pos hi2, if_pos hi2, if_neg (by simp [hcur])]
    · rw [if_neg hi2, if_neg hi2]

theorem groupsInv_reset {g : GroupsState}
    {done : List (List (Option Component))} {cur : List (Option Component)}
    (h : GroupsInv g done cur) (c : Option Component) :
    GroupsInv ((g.add_to_current_group c).start_new_group) (done ++ [cur ++ [c]]) [] := by
  have hadd := groupsInv_add h c
  obtain ⟨hidx, hmap⟩ := hadd
  refine ⟨by simp [GroupsState.start_new_group, hidx], fun i => ?_⟩
  show (g.add_to_current_group c).map i = _
  rw [hmap i, getElem?_append_singleton]
  simp only [List.length_append, List.length_cons, List.length_nil, Nat.add_zero,
    Nat.zero_add]
  by_cases hi : i = done.length + 1
  · rw [if_neg (by omega : ¬ i = done.length), if_pos hi]
    rw [List.getElem?_eq_none (by omega)]
    split
    · rfl
    · rename_i hfalse
      exact absurd ⟨trivial, by simp⟩ hfalse
  · by_cases hi2 : i = done.length
    · rw [if_pos hi2, if_pos hi2,
        if_neg (by simp : ¬(cur ++ [c] = [] ∧ done ≠ [])), if_neg hi]
    · rw [if_neg hi2, if_neg hi2, if_neg hi]

theorem groups_of_inv {g : GroupsState} {done : List (List (Option Component))}
    {cur : List (Option Component)} (h : GroupsInv g done cur) :
    g.groups = done ++ (if cur.isEmpty && !done.isEmpty then [] else [cur]) := by
  obtain ⟨hidx, hmap⟩ := h
  unfold GroupsState.groups
  rw [hidx, List.range_succ, List.filterMap_append]
  congr 1
  · rw [List.filterMap_congr (g := fun i => done[i]?) ?hcong]
    · exact filterMap_range_getElem done
    · intro i hi
      rw [List.mem_range] at hi
      rw [hmap i, if_neg (by omega)]
  · simp only [List.filterMap_cons, List.filterMap_nil]
    rw [hmap done.length, if_pos rfl]
    by_cases hc : cur = [] ∧ done ≠ []
    · rw [if_pos hc]
      rw [if_pos (by simp [hc.1, hc.2])]
    · rw [if_neg hc]
      rw [if_neg (by
        simp only [Bool.and_eq_true, Bool.not_eq_true', List.isEmpty_eq_true,
          List.isEmpty_eq_false, ne_eq]
        intro hcontra
        exact hc ⟨hcontra.1, hcontra.2⟩)]

theorem foldl_intoGroupsStep_go {cs : List (Option Component)} :
    ∀ {g : GroupsState} {done : List (List (Option Component))}
      {cur : List (Option Component)}, GroupsInv g done cur →
      (cs.foldl intoGroupsStep g).groups = intoGroupsGo done cur cs := by
  induction cs with
  | nil =>
    intro g done cur h
    simpa [intoGroupsGo] using groups_of_inv h
  | cons c rest ih =>
    intro g done cur h
    rw [List.foldl_cons]
    match c with
    | some (Component.Color s) =>
      show (rest.foldl intoGroupsStep
        (if g.current_group_empty then g.add_to_current_group (some (Component.Color s))
         else (g.start_new_group).add_to_current_group (some (Component.Color s)))).groups =
        intoGroupsGo done cur (some (Component.Color s) :: rest)
      rw [groupsInv_current_group_empty h]
      by_cases hcur : cur.isEmpty
      · rw [if_pos hcur, ih (groupsInv_add h _)]
        simp only [intoGroupsGo, hcur, if_true]
      · rw [if_neg (by simp [hcur]), ih (groupsInv_finalize_start h (by simpa using hcur) _)]
        simp [intoGroupsGo, hcur]
    | some (Component.ColorReset s) =>
      show (rest.foldl intoGroupsStep
        ((g.add_to_current_group (some (Component.ColorReset s))).start_new_group)).groups =
        intoGroupsGo done cur (some (Component.ColorReset s) :: rest)
      rw [ih (groupsInv_reset h _)]
      simp only [intoGroupsGo]
    | some (Component.Static s) =>
      show (rest.foldl intoGroupsStep
        (g.add_to_current_group (some (Component.Static s)))).groups =
        intoGroupsGo done cur (some (Component.Static s) :: rest)
      rw [ih (groupsInv_add h _)]
      simp only [intoGroupsGo]
    | some (Component.Computed s) =>
      show (rest.foldl intoGroupsStep
        (g.add_to_current_group (some (Component.Computed s)))).groups =
        intoGroupsGo done cur (some (Component.Computed s) :: rest)
      rw [ih (groupsInv_add h _)]
      simp only [intoGroupsGo]
    | none =>
      show (rest.foldl intoGroupsStep (g.add_to_current_group none)).groups =
        intoGroupsGo done cur (none :: rest)
      rw [ih (groupsInv_add h _)]
      simp only [intoGroupsGo]

theorem intoGroups_eq_go (components : List (Option Component)) :
    into_groups components = intoGroupsGo [] [] components := by
  unfold into_groups
  refine foldl_intoGroupsStep_go ⟨rfl, fun i => ?_⟩
  show (if i = 0 then some [] else none) = _
  by_cases hi : i = 0
  · simp [hi]
  · simp [hi]

theorem intoGroupsGo_eq_spec {cs : List (Option Component)} :
    ∀ {done : List (List (Option Component))} {cur : List (Option Component)},
      (cur ≠ [] ∨ done ≠ []) → intoGroupsGo done cur cs = intoGroupsSpecGo done cur cs := by
  induction cs with
  | nil =>
    intro done cur h
    simp only [intoGroupsGo, intoGroupsSpecGo]
    by_cases hcur : cur.isEmpty
    · have hdone : done ≠ [] := by
        rcases h with h | h
        · exact absurd (by simpa using hcur) h
        · exact h
      rw [if_pos (by simp [hcur, hdone]), if_pos hcur]
    · rw [if_neg (by simp [hcur]), if_neg hcur]
  | cons c rest ih =>
    intro done cur h
    match c with
    | some (Component.Color s) =>
      simp only [intoGroupsGo, intoGroupsSpecGo]
      by_cases hcur : cur.isEmpty
      · rw [if_pos hcur, if_pos hcur]
        exact ih (Or.inl (by simp))
      · rw [if_neg hcur, if_neg hcur]
        exact ih (Or.inr (by simp))
    | some (Component.ColorReset s) =>
      simp only [intoGroupsGo, intoGroupsSpecGo]
      exact ih (Or.inr (by simp))
    | some (Component.Static s) =>
      simp only [intoGroupsGo, intoGroupsSpecGo]
      exact ih (Or.inl (by simp))
    | some (Component.Computed s) =>
      simp only [intoGroupsGo, intoGroupsSpecGo]
      exact ih (Or.inl (by simp))
    | none =>
      simp only [intoGroupsGo, intoGroupsSpecGo]
      exact ih (Or.inl (by simp))

/-- C2: the grouping step behaves exactly as described — a present `ColorStart`
is appended to an empty current segment and otherwise closes it and opens a new
one holding the marker; a present `ColorReset` is appended and then closes the
segment; every other slot is appended; an opened-but-unpopulated final segment
is dropped — provided the fragment sequence is nonempty.  (On the empty
sequence the code emits one empty segment, see the counterexample.) -/
theorem claim_C2_amended (components : List (Option Component))
    (h : components ≠ []) : into_groups components = intoGroupsSpec components := by
  rw [intoGroups_eq_go]
  match components with
  | [] => exact absurd rfl h
  | c :: rest =>
    unfold intoGroupsSpec
    match c with
    | some (Component.Color s) =>
      simp only [intoGroupsGo, intoGroupsSpecGo, List.isEmpty_nil, if_true]
      exact intoGroupsGo_eq_spec (Or.inl (by simp))
    | some (Component.ColorReset s) =>
      simp only [intoGroupsGo, intoGroupsSpecGo]
      exact intoGroupsGo_eq_spec (Or.inr (by simp))
    | some (Component.Static s) =>
      simp only [intoGroupsGo, intoGroupsSpecGo]
      exact intoGroupsGo_eq_spec (Or.inl (by simp))
    | some (Component.Computed s) =>
      simp only [intoGroupsGo, intoGroupsSpecGo]
      exact intoGroupsGo_eq_spec (Or.inl (by simp))
    | none =>
      simp only [intoGroupsGo, intoGroupsSpecGo]
      exact intoGroupsGo_eq_spec (Or.inl (by simp))

/-- C2, counterexample to the claim as stated: on the empty fragment sequence
the code's grouping step emits one empty segment (the pre-created group `0`),
whereas the described algorithm — which drops a segment opened but never
populated — produces no segment at all. -/
theorem claim_C2_counterexample :
    into_groups ([] : List (Option Component)) = [[]] ∧
      intoGroupsSpec ([] : List (Option Component)) = [] ∧
      into_groups ([] : List (Option Component)) ≠
        intoGroupsSpec ([] : List (Option Component)) := by
  refine ⟨?_, rfl, ?_⟩
  · rw [intoGroups_eq_go]
    rfl
  · rw [intoGroups_eq_go]
    decide

/-- C2, witness: the amended statement applied to a concrete nonempty
sequence. -/
theorem claim_C2_witness :
    ([some (Component.Color "g"), none] : List (Option Component)) ≠ [] ∧
      into_groups [some (Component.Color "g"), none] =
        intoGroupsSpec [some (Component.Color "g"), none] :=
  ⟨by decide, claim_C2_amended _ (by decide)⟩

theorem keep_elem_iff (c : Option Component) :
    ((match c with
      | some (Component.Color _) | some (Component.ColorReset _)
      | some (Component.Static _) => true
      | _ => false) = true) ↔
      ((∃ s, c = some (Component.Static s)) ∨ (∃ s, c = some (Component.Color s)) ∨
        (∃ s, c = some (Component.ColorReset s))) := by
  match c with
  | none => simp
  | some (Component.Static s) => simp
  | some (Component.Color s) => simp
  | some (Component.ColorReset s) => simp
  | some (Component.Computed s) => simp

theorem computed_elem_iff (c : Option Component) :
    ((match c with
      | some (Component.Computed _) => true
      | _ => false) = true) ↔ (∃ s, c = some (Component.Computed s)) := by
  match c with
  | none => simp
  | some (Component.Static s) => simp
  | some (Component.Color s) => simp
  | some (Component.ColorReset s) => simp
  | some (Component.Computed s) => simp

theorem should_keep_group_iff (group : List (Option Component)) :
    should_keep_group group = true ↔ (SpecAllDecorative group ∨ SpecHasValue group) := by
  unfold should_keep_group SpecAllDecorative SpecHasValue
  rw [Bool.or_eq_true, List.all_eq_true, List.any_eq_true]
  constructor
  · rintro (h | ⟨c, hc, hmatch⟩)
    · exact Or.inl fun c hc => (keep_elem_iff c).mp (h c hc)
    · obtain ⟨s, hs⟩ := (computed_elem_iff c).mp hmatch
      refine Or.inr ⟨s, ?_⟩
      rw [← hs]
      exact hc
  · rintro (h | ⟨s, hs⟩)
    · exact Or.inl fun c hc => (keep_elem_iff c).mpr (h c hc)
    · exact Or.inr ⟨some (Component.Computed s), hs, (computed_elem_iff _).mpr ⟨s, rfl⟩⟩

/-- C1: a segment produced by the grouping step is kept by the squash pass iff
(a) every slot in it is a present `Static` (literal), `ColorStart` or
`ColorReset` fragment, or (b) it contains at least one present computed
`Value`; `squash` emits exactly the kept segments, flattened, with absent
slots removed; and in particular a `ColorStart`, absent, `ColorReset` segment
squashes to empty output, its color fragments included. -/
theorem claim_C1 :
    (∀ group : List (Option Component),
      should_keep_group group = true ↔ (SpecAllDecorative group ∨ SpecHasValue group)) ∧
    (∀ components : List (Option Component),
      squash components =
        ((into_groups components).filter (fun g => should_keep_group g)).flatten.filterMap id) ∧
    (∀ c r : String,
      squash [some (Component.Color c), none, some (Component.ColorReset r)] = []) := by
  refine ⟨should_keep_group_iff, fun _ => rfl, fun c r => ?_⟩
  unfold squash
  rw [intoGroups_eq_go]
  rfl

theorem intoGroupsGo_flatten (cs : List (Option Component)) :
    ∀ (done : List (List (Option Component))) (cur : List (Option Component)),
      (intoGroupsGo done cur cs).flatten = done.flatten ++ cur ++ cs := by
  induction cs with
  | nil =>
    intro done cur
    simp only [intoGroupsGo]
    by_cases hcur : cur.isEmpty && !done.isEmpty
    · rw [if_pos hcur]
      simp only [Bool.and_eq_true, Bool.not_eq_true', List.isEmpty_eq_true] at hcur
      simp [hcur.1]
    · rw [if_neg hcur]
      simp
  | cons c rest ih =>
    intro done cur
    match c with
    | some (Component.Color s) =>
      simp only [intoGroupsGo]
      by_cases hcur : cur.isEmpty
      · rw [if_pos hcur, ih]
        simp
      · rw [if_neg hcur, ih]
        simp
    | some (Component.ColorReset s) =>
      simp only [intoGroupsGo]
      rw [ih]
      simp
    | some (Component.Static s) =>
      simp only [intoGroupsGo]
      rw [ih]
      simp
    | some (Component.Computed s) =>
      simp only [intoGroupsGo]
      rw [ih]
      simp
    | none =>
      simp only [intoGroupsGo]
      rw [ih]
      simp

theorem into_groups_flatten (components : List (Option Component)) :
    (into_groups components).flatten = components := by
  rw [intoGroups_eq_go, intoGroupsGo_flatten]
  rfl

theorem all_present_keeps {group : List (Option Component)}
    (h : ∀ c ∈ group, ∃ x, c = some x) : should_keep_group group = true := by
  unfold should_keep_group
  rw [Bool.or_eq_true, List.all_eq_true, List.any_eq_true]
  by_cases hany : ∃ c ∈ group, ∃ s, c = some (Component.Computed s)
  · obtain ⟨c, hc, s, hs⟩ := hany
    exact Or.inr ⟨c, hc, (computed_elem_iff c).mpr ⟨s, hs⟩⟩
  · push_neg at hany
    refine Or.inl fun c hc => (keep_elem_iff c).mpr ?_
    obtain ⟨x, hx⟩ := h c hc
    match x, hx with
    | Component.Static s, hx => exact Or.inl ⟨s, hx⟩
    | Component.Color s, hx => exact Or.inr (Or.inl ⟨s, hx⟩)
    | Component.ColorReset s, hx => exact Or.inr (Or.inr ⟨s, hx⟩)
    | Component.Computed s, hx => exact absurd hx (hany c hc s)

theorem squash_map_some (out : List Component) : squash (out.map some) = out := by
  unfold squash
  have hkeep : ∀ g ∈ into_groups (out.map some), should_keep_group g = true := by
    intro g hg
    refine all_present_keeps fun c hc => ?_
    have hmem : c ∈ (into_groups (out.map some)).flatten :=
      List.mem_flatten.mpr ⟨g, hg, hc⟩
    rw [into_groups_flatten] at hmem
    obtain ⟨x, _, hx⟩ := List.mem_map.mp hmem
    exact ⟨x, hx.symm⟩
  rw [List.filter_eq_self.mpr (fun g hg => hkeep g hg), into_groups_flatten]
  rw [List.filterMap_map]
  simp

/-- C5: squash is idempotent — wrapping the squash output as a sequence of
present fragments and running the grouping/squash pass again returns the same
sequence unchanged. -/
theorem claim_C5 (components : List (Option Component)) :
    squash ((squash components).map some) = squash components :=
  squash_map_some (squash components)

/-- C7, counterexample to the claim as stated: the same leftover option map,
enumerated in two orders the `HashMap` may legitimately produce on different
runs, yields two different `InvalidOptions` messages — the join order is not
stable and reproducible across runs (the map is a hash map, not an ordered
one). -/
theorem claim_C7_counterexample :
    ([("baz", "qux"), ("foo", "bar")] : List (String × String)).Perm
        [("foo", "bar"), ("baz", "qux")] ∧
      evalJobsComponentToken none [("baz", "qux"), ("foo", "bar")] =
        Except.error "error: invalid options: baz=qux, foo=bar" ∧
      evalJobsComponentToken none [("foo", "bar"), ("baz", "qux")] =
        Except.error "error: invalid options: foo=bar, baz=qux" ∧
      ("error: invalid options: baz=qux, foo=bar" : String) ≠
        "error: invalid options: foo=bar, baz=qux" :=
  ⟨List.Perm.swap _ _ _, rfl, rfl, by decide⟩

/-- C7, amended: whenever a component's handler (here `jobs`, which consumes
no options) leaves the options map nonempty, evaluation fails with an
`InvalidOptions` error whose message enumerates exactly the remaining
`key=value` pairs — in the hash map's unspecified iteration order — and
leftover options are never silently ignored; with no leftover options the
handler's fragment is produced. -/
theorem claim_C7_amended (jobs : Option String) (options : List (String × String))
    (h : options ≠ []) :
    evalJobsComponentToken jobs options = Except.error (invalid_options_message options) ∧
      (∀ result, evalJobsComponentToken jobs options ≠ Except.ok result) ∧
      evalJobsComponentToken jobs [] = Except.ok [jobs_display jobs] := by
  have herr : evalJobsComponentToken jobs options =
      Except.error (invalid_options_message options) := by
    unfold evalJobsComponentToken
    rw [if_neg (by simpa using h)]
  exact ⟨herr, fun result hok => by rw [herr] at hok; exact Except.noConfusion hok, rfl⟩

/-- C7, witness: evaluating `\x7bjobs foo=bar\x7d` fails with a message naming
exactly `foo=bar` (the message the repository's own test asserts). -/
theorem claim_C7_witness :
    ([("foo", "bar")] : List (String × String)) ≠ [] ∧
      evalJobsComponentToken none [("foo", "bar")] =
        Except.error "error: invalid options: foo=bar" := by
  refine ⟨by decide, ?_⟩
  rw [(claim_C7_amended none [("foo", "bar")] (by decide)).1]
  rfl

theorem pMap_eq_some {α β : Type} {p : Parser α} {f : α → β} {input rest : List Char}
    {b : β} (h : pMap p f input = some (rest, b)) :
    ∃ a, p input = some (rest, a) ∧ b = f a := by
  unfold pMap at h
  match hp : p input with
  | some (rest1, a) =>
    rw [hp] at h
    dsimp only at h
    simp only [Option.some.injEq, Prod.mk.injEq] at h
    obtain ⟨hr, hb⟩ := h
    subst hr
    exact ⟨a, rfl, hb.symm⟩
  | none =>
    rw [hp] at h
    dsimp only at h
    exact absurd h (by simp)

theorem many1_ne_nil {α : Type} {p : Parser α} {input rest : List Char} {as : List α}
    (h : many1 p input = some (rest, as)) : as ≠ [] := by
  unfold many1 at h
  match hp : p input with
  | none =>
    rw [hp] at h
    dsimp only at h
    exact absurd h (by simp)
  | some (rest1, a) =>
    rw [hp] at h
    dsimp only at h
    by_cases hlen : rest1.length < input.length
    · rw [if_pos hlen] at h
      match hm : many0 p rest1 with
      | some (rest2, as2) =>
        rw [hm] at h
        dsimp only at h
        injection h with h1
        injection h1 with h2 h3
        rw [← h3]
        simp
      | none =>
        rw [hm] at h
        dsimp only at h
        exact absurd h (by simp)
    · rw [if_neg hlen] at h
      exact absurd h (by simp)

theorem tokensF_ne_nil {fuel : Nat} {input rest : List Char} {ts : List Token}
    (h : tokensF fuel input = some (rest, ts)) : ts ≠ [] := by
  match fuel with
  | 0 => exact absurd h (by simp [tokensF])
  | fuel + 1 => exact many1_ne_nil h

/-- C10: `parse` applied to the empty template fails with a parse error, and a
successful parse always returns a nonempty token sequence (the grammar is a
`many1`) — the empty template is never accepted as zero tokens. -/
theorem claim_C10 :
    parse "" = Except.error "parse error: " ∧
      ∀ (input : String) (ts : List Token), parse input = Except.ok ts → ts ≠ [] := by
  refine ⟨rfl, fun input ts h => ?_⟩
  unfold parse at h
  match htok : tokens input.toList with
  | none =>
    rw [htok] at h
    dsimp only at h
    exact absurd h (by simp)
  | some (rest, ts1) =>
    rw [htok] at h
    dsimp only at h
    by_cases hrest : rest.isEmpty
    · rw [if_pos hrest] at h
      injection h with h1
      rw [← h1]
      exact tokensF_ne_nil htok
    · rw [if_neg hrest] at h
      exact absurd h (by simp)

/-- C10, witness: a one-character template parses to one (nonempty) token
list. -/
theorem claim_C10_witness :
    parse "x" = Except.ok [Token.Static "x"] ∧ ([Token.Static "x"] : List Token) ≠ [] :=
  ⟨rfl, claim_C10.2 "x" [Token.Static "x"] rfl⟩

/-- C3: `parse` succeeds exactly when the grammar consumes the entire input;
when `tokens` succeeds on a proper prefix leaving a nonempty remainder,
`parse` fails, and a partial token sequence is never surfaced. -/
theorem claim_C3 :
    (∀ (input : String) (ts : List Token),
      parse input = Except.ok ts ↔ tokens input.toList = some ([], ts)) ∧
      ∀ (input : String) (rest : List Char) (ts : List Token),
        tokens input.toList = some (rest, ts) → rest ≠ [] →
          parse input = Except.error ("parse error: " ++ input) := by
  constructor
  · intro input ts
    constructor
    · intro h
      unfold parse at h
      match htok : tokens input.toList with
      | none =>
        rw [htok] at h
        dsimp only at h
        exact absurd h (by simp)
      | some (rest, ts1) =>
        rw [htok] at h
        dsimp only at h
        by_cases hrest : rest.isEmpty
        · rw [if_pos hrest] at h
          injection h with h1
          rw [List.isEmpty_iff] at hrest
          rw [hrest, h1]
        · rw [if_neg hrest] at h
          exact absurd h (by simp)
    · intro h
      unfold parse
      rw [h]
      rfl
  · intro input rest ts htok hrest
    unfold parse
    rw [htok]
    dsimp only
    rw [if_neg (by simpa [List.isEmpty_iff] using hrest)]

/-- C3, witness: on `a\x7b` the grammar consumes the prefix `a` leaving
`\x7b`, and `parse` reports an error rather than the partial sequence. -/
theorem claim_C3_witness :
    tokens "a\x7b".toList = some (['\x7b'], [Token.Static "a"]) ∧
      (['\x7b'] : List Char) ≠ [] ∧
      parse "a\x7b" = Except.error ("parse error: " ++ "a\x7b") :=
  ⟨rfl, by decide, claim_C3.2 "a\x7b" ['\x7b'] [Token.Static "a"] rfl (by decide)⟩

/-- C8, counterexample to the claim as stated: on `a\x7b` the prefix `a`
parses and the unconsumed suffix is `\x7b`, but the reported error carries the
whole original input (`parse error: a\x7b`), not the suffix (`parse error:
\x7b`): in `parse`, the rebinding of `input` in the `if let` only scopes over
its body, so the error message always formats the original argument. -/
theorem claim_C8_counterexample :
    tokens "a\x7b".toList = some (['\x7b'], [Token.Static "a"]) ∧
      parse "a\x7b" = Except.error "parse error: a\x7b" ∧
      ("parse error: a\x7b" : String) ≠ "parse error: \x7b" :=
  ⟨rfl, rfl, by decide⟩

/-- C8, amended: whenever `parse` fails, the reported error is `parse error: `
followed by the entire original input — which coincides with the first
unconsumed suffix only when nothing was consumed at all. -/
theorem claim_C8_amended (input : String)
    (h : ∀ ts : List Token, parse input ≠ Except.ok ts) :
    parse input = Except.error ("parse error: " ++ input) := by
  unfold parse at h ⊢
  match htok : tokens input.toList with
  | none => rfl
  | some (rest, ts) =>
    rw [htok] at h
    dsimp only at h ⊢
    by_cases hrest : rest.isEmpty
    · rw [if_pos hrest] at h
      exact absurd rfl (h ts)
    · rw [if_neg hrest]

/-- C8, witness: the amended statement applied to the failing input
`a\x7b`. -/
theorem claim_C8_witness :
    (∀ ts : List Token, parse "a\x7b" ≠ Except.ok ts) ∧
      parse "a\x7b" = Except.error ("parse error: " ++ "a\x7b") := by
  have hfail : ∀ ts : List Token, parse "a\x7b" ≠ Except.ok ts := by
    intro ts h
    rw [show parse "a\x7b" = Except.error "parse error: a\x7b" from rfl] at h
    exact Except.noConfusion h
  exact ⟨hfail, claim_C8_amended "a\x7b" hfail⟩

/-- C9, counterexample to the claim as stated: `\x7bcyan\x7d` parses to the
`cyan` style token, but `\x7b cyan \x7d` — the same directive with whitespace
around the identifier — fails to parse entirely: `start_identifier_end` allows
no whitespace (and the whitespace-tolerant component/conditional paths reject
`cyan`). -/
theorem claim_C9_counterexample :
    parse "\x7bcyan\x7d" = Except.ok [Token.Style StyleToken.Cyan] ∧
      parse "\x7b cyan \x7d" = Except.error "parse error: \x7b cyan \x7d" :=
  ⟨rfl, rfl⟩

/-- C9, amended: a style marker parses as `\x7b` + identifier resolving to a
known style keyword + `\x7d` with **no** whitespace permitted around the
identifier: every known style keyword parses bare, and the whitespace-padded
form of every known style keyword is a parse error. -/
theorem claim_C9_amended (st : StyleToken) :
    parse ("\x7b" ++ st.str ++ "\x7d") = Except.ok [Token.Style st] ∧
      parse ("\x7b " ++ st.str ++ " \x7d") =
        Except.error ("parse error: " ++ ("\x7b " ++ st.str ++ " \x7d")) := by
  cases st <;> exact ⟨rfl, rfl⟩

theorem many0F_fuel {α : Type} (p : Parser α) :
    ∀ (n : Nat) (input : List Char) (m : Nat), input.length < n → input.length < m →
      many0F n p input = many0F m p input := by
  intro n
  induction n with
  | zero => intro input m h1 h2; omega
  | succ n ih =>
    intro input m h1 h2
    match m with
    | 0 => omega
    | m + 1 =>
      show many0F (n + 1) p input = many0F (m + 1) p input
      unfold many0F
      match hp : p input with
      | none => rfl
      | some (rest, a) =>
        dsimp only
        by_cases hlen : rest.length < input.length
        · rw [if_pos hlen, if_pos hlen, ih rest m (by omega) (by omega)]
        · rw [if_neg hlen, if_neg hlen]

theorem many0_unfold {α : Type} (p : Parser α) (input : List Char) :
    many0 p input =
      match p input with
      | none => some (input, [])
      | some (rest, a) =>
        if rest.length < input.length then
          match many0 p rest with
          | some (rest2, as) => some (rest2, a :: as)
          | none => none
        else none := by
  show many0F (input.length + 1) p input = _
  unfold many0F
  match hp : p input with
  | none => rfl
  | some (rest, a) =>
    dsimp only
    by_cases hlen : rest.length < input.length
    · rw [if_pos hlen, if_pos hlen,
        many0F_fuel p input.length rest (rest.length + 1) (by omega) (by omega)]
      rfl
    · rw [if_neg hlen, if_neg hlen]

theorem all_takeWhile {p : Char → Bool} :
    ∀ (xs : List Char), ∀ c ∈ xs.takeWhile p, p c = true := by
  intro xs
  induction xs with
  | nil => intro c hc; simp [List.takeWhile] at hc
  | cons x xs ih =>
    intro c hc
    by_cases hx : p x
    · rw [List.takeWhile_cons_of_pos hx] at hc
      rcases List.mem_cons.mp hc with h | h
      · rw [h]; exact hx
      · exact ih c h
    · rw [List.takeWhile_cons_of_neg hx] at hc
      simp at hc

theorem head_dropWhile_false {p : Char → Bool} :
    ∀ (xs : List Char) {c : Char}, (xs.dropWhile p).head? = some c → p c = false := by
  intro xs
  induction xs with
  | nil => intro c hc; simp [List.dropWhile] at hc
  | cons x xs ih =>
    intro c hc
    by_cases hx : p x
    · rw [List.dropWhile_cons_of_pos hx] at hc
      exact ih hc
    · rw [List.dropWhile_cons_of_neg hx] at hc
      simp only [List.head?_cons, Option.some.injEq] at hc
      rw [← hc]
      simpa using hx

theorem takeWhile_append_all {p : Char → Bool} :
    ∀ (xs ys : List Char), (∀ c ∈ xs, p c = true) →
      (∀ c, ys.head? = some c → p c = false) →
      (xs ++ ys).takeWhile p = xs ∧ (xs ++ ys).dropWhile p = ys := by
  intro xs
  induction xs with
  | nil =>
    intro ys hxs hys
    match ys with
    | [] => exact ⟨rfl, rfl⟩
    | y :: ys2 =>
      have hy : p y = false := hys y rfl
      simp only [List.nil_append]
      rw [List.takeWhile_cons_of_neg (by simp [hy]), List.dropWhile_cons_of_neg (by simp [hy])]
      exact ⟨rfl, rfl⟩
  | cons x xs ih =>
    intro ys hxs hys
    have hx : p x = true := hxs x (by simp)
    obtain ⟨h1, h2⟩ := ih ys (fun c hc => hxs c (by simp [hc])) hys
    simp only [List.cons_append]
    rw [List.takeWhile_cons_of_pos hx, List.dropWhile_cons_of_pos hx, h1, h2]
    exact ⟨rfl, rfl⟩

theorem identStep (cs rest : List Char) (hne : cs ≠ [])
    (hall : ∀ c ∈ cs, isIdentChar c = true)
    (hrest : ∀ c, rest.head? = some c → isIdentChar c = false) :
    ∃ chunk cs2, alt alpha1 underscore (cs ++ rest) = some (cs2 ++ rest, chunk) ∧
      chunk ≠ [] ∧ chunk ++ cs2 = cs ∧ (∀ c ∈ cs2, isIdentChar c = true) := by
  match cs with
  | c :: cs1 =>
    have hsub : ∀ ch ∈ cs1.dropWhile Char.isAlpha, isIdentChar ch = true := fun ch hch =>
      hall ch (List.mem_cons.mpr (Or.inr ((List.dropWhile_sublist Char.isAlpha).subset hch)))
    by_cases hc : c.isAlpha
    · -- alpha1 eats the maximal alphabetic prefix
      have hhead : ∀ ch, ((cs1.dropWhile Char.isAlpha) ++ rest).head? = some ch →
          Char.isAlpha ch = false := by
        intro ch hch
        match hd : cs1.dropWhile Char.isAlpha with
        | [] =>
          rw [hd, List.nil_append] at hch
          have := hrest ch hch
          unfold isIdentChar at this
          simp only [Bool.or_eq_false_iff] at this
          exact this.1
        | d :: ds =>
          rw [hd, List.cons_append, List.head?_cons, Option.some.injEq] at hch
          rw [← hch]
          exact head_dropWhile_false cs1 (by rw [hd]; rfl)
      have h0 := takeWhile_append_all (p := Char.isAlpha)
        (c :: cs1.takeWhile Char.isAlpha) ((cs1.dropWhile Char.isAlpha) ++ rest)
        (by
          intro ch hch
          rcases List.mem_cons.mp hch with h | h
          · rw [h]; exact hc
          · exact all_takeWhile cs1 ch h)
        hhead
      have heq : (c :: cs1.takeWhile Char.isAlpha) ++
          ((cs1.dropWhile Char.isAlpha) ++ rest) = (c :: cs1) ++ rest := by
        rw [List.cons_append, List.cons_append, ← List.append_assoc,
          List.takeWhile_append_dropWhile]
      rw [heq] at h0
      refine ⟨c :: cs1.takeWhile Char.isAlpha, cs1.dropWhile Char.isAlpha, ?_,
        by simp, ?_, hsub⟩
      · unfold alt alpha1
        rw [h0.1, h0.2]
        rfl
      · rw [List.cons_append, List.cons.injEq]
        exact ⟨rfl, List.takeWhile_append_dropWhile Char.isAlpha cs1⟩
    · -- not alphabetic, so it is an underscore
      have hu : c = '_' := by
        have := hall c (List.mem_cons.mpr (Or.inl rfl))
        unfold isIdentChar at this
        simp only [Bool.or_eq_true] at this
        rcases this with h | h
        · exact absurd h (by simpa using hc)
        · simpa using h
      refine ⟨['_'], cs1, ?_, by simp, by rw [hu]; rfl, fun ch hch =>
        hall ch (List.mem_cons.mpr (Or.inr hch))⟩
      have ha : alpha1 ((c :: cs1) ++ rest) = none := by
        unfold alpha1
        rw [List.cons_append, List.takeWhile_cons_of_neg (by rw [hu]; decide)]
        rfl
      unfold alt
      rw [ha]
      unfold underscore tag
      rw [hu]
      rw [if_pos (by simp [List.isPrefixOf_cons₂])]
      rfl

theorem identRun : ∀ (n : Nat) (cs rest : List Char), cs.length ≤ n →
    (∀ c ∈ cs, isIdentChar c = true) →
    (∀ c, rest.head? = some c → isIdentChar c = false) →
    ∃ chunks : List (List Char),
      many0 (alt alpha1 underscore) (cs ++ rest) = some (rest, chunks) ∧
        chunks.flatten = cs := by
  intro n
  induction n with
  | zero =>
    intro cs rest hlen hall hrest
    match cs, hlen with
    | [], _ =>
      refine ⟨[], ?_, rfl⟩
      rw [many0_unfold]
      have hfail : alt alpha1 underscore rest = none := by
        unfold alt alpha1 underscore tag
        match rest with
        | [] => rfl
        | r :: rest2 =>
          have hr := hrest r rfl
          unfold isIdentChar at hr
          simp only [Bool.or_eq_false_iff] at hr
          rw [List.takeWhile_cons_of_neg (by simp [hr.1])]
          simp only [List.isEmpty_nil, if_true]
          rw [if_neg (by
            simp only [List.isPrefixOf_cons₂]
            simp only [List.isPrefixOf]
            intro hcontra
            simp only [Bool.and_eq_true, beq_iff_eq] at hcontra
            exact absurd hcontra.1.symm (by simpa using hr.2))]
      simp only [List.nil_append]
      rw [hfail]
  | succ n ih =>
    intro cs rest hlen hall hrest
    match cs with
    | [] => exact ih [] rest (by simp) hall hrest
    | c :: cs1 =>
      obtain ⟨chunk, cs2, hstep, hchunk, happ, hcs2⟩ :=
        identStep (c :: cs1) rest (by simp) hall hrest
      have hlen2 : cs2.length ≤ n := by
        have h1 : chunk.length + cs2.length = cs1.length + 1 := by
          have := congrArg List.length happ
          simpa using this
        have hc1 : 1 ≤ chunk.length := by
          match chunk, hchunk with
          | _ :: _, _ => simp
        simp only [List.length_cons] at hlen
        omega
      obtain ⟨chunks, hrec, hflat⟩ := ih cs2 rest hlen2 hcs2 hrest
      refine ⟨chunk :: chunks, ?_, by rw [List.flatten_cons, hflat, happ]⟩
      rw [many0_unfold, hstep]
      dsimp only
      rw [if_pos (by
        simp only [List.length_append]
        have h1 : chunk.length + cs2.length = cs1.length + 1 := by
          have := congrArg List.length happ
          simpa using this
        have hc1 : 1 ≤ chunk.length := by
          match chunk, hchunk with
          | _ :: _, _ => simp
        simp only [List.length_cons]
        omega)]
      rw [hrec]

theorem identifier_run (cs rest : List Char) (hne : cs ≠ [])
    (hall : ∀ c ∈ cs, isIdentChar c = true)
    (hrest : ∀ c, rest.head? = some c → isIdentChar c = false) :
    identifier (cs ++ rest) =
      if RESERVED_KEYWORDS.contains (String.mk cs) then none
      else some (rest, String.mk cs) := by
  obtain ⟨chunk, cs2, hstep, hchunk, happ, hcs2⟩ := identStep cs rest hne hall hrest
  have hlen2 : cs2.length + 1 ≤ cs.length := by
    have : chunk.length + cs2.length = cs.length := by
      have := congrArg List.length happ
      simpa using this
    have hc1 : 1 ≤ chunk.length := by
      match chunk, hchunk with
      | _ :: _, _ => simp
    omega
  obtain ⟨chunks, hrec, hflat⟩ := identRun cs2.length cs2 rest (Nat.le_refl _) hcs2 hrest
  have hm1 : many1 (alt alpha1 underscore) (cs ++ rest) = some (rest, chunk :: chunks) := by
    unfold many1
    rw [hstep]
    dsimp only
    rw [if_pos (by simp only [List.length_append]; omega), hrec]
  unfold identifier pVerify pMap
  rw [hm1]
  dsimp only
  rw [show (chunk :: chunks).flatten = cs from by rw [List.flatten_cons, hflat, happ]]
  by_cases hres : RESERVED_KEYWORDS.contains (String.mk cs)
  · rw [if_pos hres, if_neg (by rw [hres]; decide)]
  · rw [if_neg hres, if_pos (by rw [Bool.eq_false_iff.mpr hres]; decide)]

theorem tokensF_succ (fuel : Nat) : tokensF (fuel + 1) = many1 (tokensStepF fuel) := rfl

theorem pMapRes_eq_some {α β : Type} {p : Parser α} {f : α → Option β}
    {input rest : List Char} {b : β} (h : pMapRes p f input = some (rest, b)) :
    ∃ a, p input = some (rest, a) ∧ f a = some b := by
  unfold pMapRes at h
  match hp : p input with
  | some (rest1, a) =>
    rw [hp] at h
    dsimp only at h
    match hf : f a with
    | some b1 =>
      rw [hf] at h
      dsimp only at h
      simp only [Option.some.injEq, Prod.mk.injEq] at h
      obtain ⟨hr, hb⟩ := h
      subst hr
      exact ⟨a, rfl, by rw [hf, hb]⟩
    | none =>
      rw [hf] at h
      exact absurd h (by simp)
  | none =>
    rw [hp] at h
    exact absurd h (by simp)

theorem pVerify_eq_some {α : Type} {p : Parser α} {f : α → Bool}
    {input rest : List Char} {a : α} (h : pVerify p f input = some (rest, a)) :
    p input = some (rest, a) ∧ f a = true := by
  unfold pVerify at h
  match hp : p input with
  | some (rest1, a1) =>
    rw [hp] at h
    dsimp only at h
    by_cases hf : f a1
    · rw [if_pos hf] at h
      simp only [Option.some.injEq, Prod.mk.injEq] at h
      obtain ⟨hr, ha⟩ := h
      subst hr
      subst ha
      exact ⟨rfl, hf⟩
    · rw [if_neg hf] at h
      exact absurd h (by simp)
  | none =>
    rw [hp] at h
    exact absurd h (by simp)

theorem pOpt_eq_some {α : Type} {p : Parser α} {input rest : List Char}
    {o : Option α} (h : pOpt p input = some (rest, o)) :
    (o = none ∧ rest = input) ∨ ∃ a, o = some a ∧ p input = some (rest, a) := by
  unfold pOpt at h
  match hp : p input with
  | some (rest1, a) =>
    rw [hp] at h
    dsimp only at h
    simp only [Option.some.injEq, Prod.mk.injEq] at h
    obtain ⟨hr, ho⟩ := h
    subst hr
    exact Or.inr ⟨a, ho.symm, rfl⟩
  | none =>
    rw [hp] at h
    dsimp only at h
    simp only [Option.some.injEq, Prod.mk.injEq] at h
    exact Or.inl ⟨h.2.symm, h.1.symm⟩

theorem alt_eq_some {α : Type} {p q : Parser α} {input : List Char}
    {r : List Char × α} (h : alt p q input = some r) :
    p input = some r ∨ (p input = none ∧ q input = some r) := by
  unfold alt at h
  match hp : p input with
  | some r1 =>
    rw [hp] at h
    dsimp only at h
    exact Or.inl h
  | none =>
    rw [hp] at h
    dsimp only at h
    exact Or.inr ⟨rfl, h⟩

theorem preceded_eq_some {α β : Type} {p : Parser α} {q : Parser β}
    {input rest : List Char} {b : β} (h : preceded p q input = some (rest, b)) :
    ∃ mid a, p input = some (mid, a) ∧ q mid = some (rest, b) := by
  unfold preceded at h
  match hp : p input with
  | some (mid, a) =>
    rw [hp] at h
    exact ⟨mid, a, rfl, h⟩
  | none =>
    rw [hp] at h
    exact absurd h (by simp)

theorem terminated_eq_some {α β : Type} {p : Parser α} {q : Parser β}
    {input rest : List Char} {a : α} (h : terminated p q input = some (rest, a)) :
    ∃ mid b, p input = some (mid, a) ∧ q mid = some (rest, b) := by
  unfold terminated at h
  match hp : p input with
  | some (mid, a1) =>
    rw [hp] at h
    dsimp only at h
    match hq : q mid with
    | some (rest2, b) =>
      rw [hq] at h
      dsimp only at h
      simp only [Option.some.injEq, Prod.mk.injEq] at h
      obtain ⟨hr, ha⟩ := h
      subst hr
      subst ha
      exact ⟨mid, b, rfl, hq⟩
    | none =>
      rw [hq] at h
      exact absurd h (by simp)
  | none =>
    rw [hp] at h
    exact absurd h (by simp)

theorem pPair_eq_some {α β : Type} {p : Parser α} {q : Parser β}
    {input rest : List Char} {ab : α × β} (h : pPair p q input = some (rest, ab)) :
    ∃ mid, p input = some (mid, ab.1) ∧ q mid = some (rest, ab.2) := by
  unfold pPair at h
  match hp : p input with
  | some (mid, a) =>
    rw [hp] at h
    dsimp only at h
    match hq : q mid with
    | some (rest2, b) =>
      rw [hq] at h
      dsimp only at h
      simp only [Option.some.injEq, Prod.mk.injEq] at h
      obtain ⟨hr, hab⟩ := h
      subst hr
      rw [← hab]
      exact ⟨mid, rfl, hq⟩
    | none =>
      rw [hq] at h
      exact absurd h (by simp)
  | none =>
    rw [hp] at h
    exact absurd h (by simp)

theorem many0F_mem {α : Type} :
    ∀ (fuel : Nat) (p : Parser α) (input rest : List Char) (as : List α),
      many0F fuel p input = some (rest, as) → ∀ a ∈ as, ∃ s r, p s = some (r, a) := by
  intro fuel
  induction fuel with
  | zero => intro p input rest as h; exact absurd h (by simp [many0F])
  | succ fuel ih =>
    intro p input rest as h
    unfold many0F at h
    match hp : p input with
    | none =>
      rw [hp] at h
      dsimp only at h
      simp only [Option.some.injEq, Prod.mk.injEq] at h
      intro a ha
      rw [← h.2] at ha
      simp at ha
    | some (rest1, a1) =>
      rw [hp] at h
      dsimp only at h
      by_cases hlen : rest1.length < input.length
      · rw [if_pos hlen] at h
        match hm : many0F fuel p rest1 with
        | some (rest2, as2) =>
          rw [hm] at h
          dsimp only at h
          simp only [Option.some.injEq, Prod.mk.injEq] at h
          intro a ha
          rw [← h.2] at ha
          rcases List.mem_cons.mp ha with h1 | h1
          · exact ⟨input, rest1, by rw [hp, h1]⟩
          · exact ih p rest1 rest2 as2 hm a h1
        | none =>
          rw [hm] at h
          exact absurd h (by simp)
      · rw [if_neg hlen] at h
        exact absurd h (by simp)

theorem many1_mem {α : Type} {p : Parser α} {input rest : List Char} {as : List α}
    (h : many1 p input = some (rest, as)) : ∀ a ∈ as, ∃ s r, p s = some (r, a) := by
  unfold many1 at h
  match hp : p input with
  | none =>
    rw [hp] at h
    exact absurd h (by simp)
  | some (rest1, a1) =>
    rw [hp] at h
    dsimp only at h
    by_cases hlen : rest1.length < input.length
    · rw [if_pos hlen] at h
      match hm : many0 p rest1 with
      | some (rest2, as2) =>
        rw [hm] at h
        dsimp only at h
        simp only [Option.some.injEq, Prod.mk.injEq] at h
        intro a ha
        rw [← h.2] at ha
        rcases List.mem_cons.mp ha with h1 | h1
        · exact ⟨input, rest1, by rw [hp, h1]⟩
        · exact many0F_mem (rest1.length + 1) p rest1 rest2 as2 hm a h1
      | none =>
        rw [hm] at h
        exact absurd h (by simp)
    · rw [if_neg hlen] at h
      exact absurd h (by simp)

theorem identifier_not_reserved {input rest : List Char} {s : String}
    (h : identifier input = some (rest, s)) :
    RESERVED_KEYWORDS.contains s = false := by
  obtain ⟨_, hver⟩ := pVerify_eq_some h
  simpa using hver

theorem conditionFromStr_cases {s : String} {c : Condition}
    (h : Condition.fromStr s = some c) :
    c = Condition.LastCommandStatus ∨ c = Condition.EnvironmentVariable s := by
  unfold Condition.fromStr at h
  by_cases hs : s = "last_command_status"
  · rw [if_pos hs] at h
    injection h with h1
    exact Or.inl h1.symm
  · rw [if_neg hs] at h
    injection h with h1
    exact Or.inr h1.symm

theorem tcomponent_str_not_reserved (n : TComponent) :
    RESERVED_KEYWORDS.contains n.str = false := by
  cases n <;> decide

theorem reservedFreeList_of_forall : ∀ {ts : List Token},
    (∀ t ∈ ts, reservedFreeTok t = true) → reservedFreeList ts = true := by
  intro ts
  induction ts with
  | nil => intro _; rfl
  | cons t ts ih =>
    intro h
    unfold reservedFreeList
    rw [h t (by simp), ih fun t2 ht2 => h t2 (by simp [ht2])]
    rfl

theorem if_condition_eq_some {input rest : List Char} {c : Condition}
    (h : if_condition input = some (rest, c)) :
    ∃ s : String, RESERVED_KEYWORDS.contains s = false ∧
      Condition.fromStr s = some c := by
  unfold if_condition at h
  obtain ⟨mid, _, hpre, _⟩ := terminated_eq_some h
  obtain ⟨mid2, _, _, hmapres⟩ := preceded_eq_some hpre
  obtain ⟨s, hident, hfrom⟩ := pMapRes_eq_some hmapres
  exact ⟨s, identifier_not_reserved hident, hfrom⟩

theorem tokensF_reservedFree :
    ∀ (fuel : Nat) (input rest : List Char) (ts : List Token),
      tokensF fuel input = some (rest, ts) → reservedFreeList ts = true := by
  intro fuel
  induction fuel with
  | zero => intro input rest ts h; exact absurd h (by simp [tokensF])
  | succ fuel ih =>
    intro input rest ts h
    rw [tokensF_succ] at h
    apply reservedFreeList_of_forall
    intro t ht
    obtain ⟨s, r, hstep⟩ := many1_mem h t ht
    unfold tokensStepF at hstep
    rcases alt_eq_some hstep with h1 | ⟨_, h1⟩
    · -- static run
      obtain ⟨cs, _, hteq⟩ := pMap_eq_some h1
      rw [hteq]
      rfl
    rcases alt_eq_some h1 with h2 | ⟨_, h2⟩
    · -- escaped brace
      obtain ⟨cs, _, hteq⟩ := pMap_eq_some h2
      rw [hteq]
      rfl
    rcases alt_eq_some h2 with h3 | ⟨_, h3⟩
    · -- style
      obtain ⟨st, _, hteq⟩ := pMap_eq_some h3
      rw [hteq]
      rfl
    rcases alt_eq_some h3 with h4 | ⟨_, h4⟩
    · -- conditional
      unfold conditionalF at h4
      obtain ⟨x, hpair, hteq⟩ := pMap_eq_some h4
      obtain ⟨mid, hP1, hP23⟩ := pPair_eq_some hpair
      obtain ⟨mid2, hleft, hP3⟩ := pPair_eq_some hP23
      obtain ⟨_, _, _, hcond⟩ := preceded_eq_some hP1
      obtain ⟨sid, hsid, hfrom⟩ := if_condition_eq_some hcond
      obtain ⟨mid3, _, hopt, _⟩ := terminated_eq_some hP3
      rw [hteq]
      unfold reservedFreeTok
      have hcondfree : (match x.1 with
          | Condition.LastCommandStatus => true
          | Condition.EnvironmentVariable n => !(RESERVED_KEYWORDS.contains n)) = true := by
        rcases conditionFromStr_cases hfrom with hc | hc
        · rw [hc]
        · rw [hc]
          dsimp only
          unfold Condition.fromStr at hfrom
          by_cases hs : sid = "last_command_status"
          · rw [if_pos hs] at hfrom
            injection hfrom with h5
            rw [← h5] at hc
            exact absurd hc (by simp)
          · rw [if_neg hs] at hfrom
            injection hfrom with h5
            rw [← h5] at hc
            injection hc with h6
            rw [h6] at hsid
            rw [hsid]
            rfl
      have hlfree : reservedFreeList x.2.1 = true := ih _ _ _ hleft
      have hrfree : (match x.2.2 with
          | none => true
          | some rr => reservedFreeList rr) = true := by
        rcases pOpt_eq_some hopt with ⟨ho, _⟩ | ⟨rr, ho, hrr⟩
        · rw [ho]
        · rw [ho]
          dsimp only
          obtain ⟨_, _, _, hrr2⟩ := preceded_eq_some hrr
          exact ih _ _ _ hrr2
      rw [hcondfree, hlfree, hrfree]
      rfl
    · -- component
      obtain ⟨nv, hpair, hteq⟩ := pMap_eq_some h4
      rw [hteq]
      unfold reservedFreeTok
      rw [tcomponent_str_not_reserved nv.1]
      rfl

theorem parse_ok_tokens {input : String} {ts : List Token}
    (h : parse input = Except.ok ts) : tokens input.toList = some ([], ts) := by
  unfold parse at h
  match htok : tokens input.toList with
  | none =>
    rw [htok] at h
    dsimp only at h
    exact absurd h (by simp)
  | some (rest, ts1) =>
    rw [htok] at h
    dsimp only at h
    by_cases hrest : rest.isEmpty
    · rw [if_pos hrest] at h
      injection h with h1
      rw [List.isEmpty_iff] at hrest
      rw [hrest, h1]
    · rw [if_neg hrest] at h
      exact absurd h (by simp)

/-- C6: the identifier parser fails on exactly the reserved strings — an
identifier whose full token is `end` or `else` (nothing identifier-like
follows) fails to parse in every identifier position, any successfully parsed
identifier is non-reserved, and reserved identifiers never appear as parsed
component or condition names in the output of a successful `parse`. -/
theorem claim_C6 :
    (∀ rest : List Char, (∀ c, rest.head? = some c → isIdentChar c = false) →
      identifier ("end".toList ++ rest) = none ∧
        identifier ("else".toList ++ rest) = none) ∧
      (∀ (input rest : List Char) (s : String),
        identifier input = some (rest, s) → RESERVED_KEYWORDS.contains s = false) ∧
      ∀ (input : String) (ts : List Token),
        parse input = Except.ok ts → reservedFreeList ts = true := by
  refine ⟨fun rest hrest => ⟨?_, ?_⟩, fun input rest s h => identifier_not_reserved h,
    fun input ts h => ?_⟩
  · rw [identifier_run "end".toList rest (by decide) (by decide) hrest]
    rw [if_pos (by decide)]
  · rw [identifier_run "else".toList rest (by decide) (by decide) hrest]
    rw [if_pos (by decide)]
  · exact tokensF_reservedFree (input.toList.length + 1) input.toList [] ts
      (parse_ok_tokens h)

/-- C6, witness: `end` alone is rejected as an identifier, and a successful
parse of a conditional (`\x7bif x\x7da\x7bend\x7d`) contains no reserved
component or condition name. -/
theorem claim_C6_witness :
    identifier ("end".toList ++ []) = none ∧
      parse "\x7bif x\x7da\x7bend\x7d" = Except.ok
        [Token.Conditional (Condition.EnvironmentVariable "x") [Token.Static "a"] none] ∧
      reservedFreeList
        [Token.Conditional (Condition.EnvironmentVariable "x") [Token.Static "a"] none] =
        true :=
  ⟨(claim_C6.1 [] (by simp)).1, rfl, claim_C6.2.2 "\x7bif x\x7da\x7bend\x7d" _ rfl⟩

theorem eqSig_cons_eq (rest : List Char) :
    eqSig ('=' :: rest) =
      match rest with
      | [] => Sig.endEq
      | d :: _ => if deadChar d then Sig.dead else Sig.live := rfl

theorem eqSig_cons_ne {c : Char} (h : c ≠ '=') (rest : List Char) :
    eqSig (c :: rest) = eqSig rest := by
  conv_lhs => unfold eqSig
  rw [if_neg h]

theorem eqSig_append (a b : List Char) :
    eqSig (a ++ b) =
      match eqSig a with
      | Sig.noEq => eqSig b
      | Sig.live => Sig.live
      | Sig.dead => Sig.dead
      | Sig.endEq =>
        match b with
        | [] => Sig.endEq
        | d :: _ => if deadChar d then Sig.dead else Sig.live := by
  induction a with
  | nil => rfl
  | cons c a ih =>
    by_cases hc : c = '='
    · subst hc
      rw [List.cons_append, eqSig_cons_eq, eqSig_cons_eq]
      match a with
      | [] =>
        rw [List.nil_append]
      | e :: as =>
        rw [List.cons_append]
        dsimp only
        by_cases hd : deadChar e
        · rw [if_pos hd]
        · rw [if_neg hd]
    · rw [List.cons_append, eqSig_cons_ne hc, eqSig_cons_ne hc, ih]

theorem eqSig_noEq_of_forall {cs : List Char} (h : ∀ c ∈ cs, c ≠ '=') :
    eqSig cs = Sig.noEq := by
  induction cs with
  | nil => rfl
  | cons c rest ih =>
    rw [eqSig_cons_ne (h c (by simp)) rest]
    exact ih fun d hd => h d (by simp [hd])

theorem headq_append (a b : List Char) :
    (a ++ b).head? = match a with | [] => b.head? | c :: _ => some c := by
  match a with
  | [] => rfl
  | c :: as => rfl

theorem chunkRel_refl (a : List Char) : ChunkRel a a := ⟨rfl, rfl⟩

theorem chunkRel_nil_iff {a b : List Char} (h : ChunkRel a b) : a = [] ↔ b = [] := by
  obtain ⟨_, hh⟩ := h
  constructor
  · intro ha
    subst ha
    match b with
    | [] => rfl
    | c :: bs => exact absurd hh.symm (by simp)
  · intro hb
    subst hb
    match a with
    | [] => rfl
    | c :: as => exact absurd hh (by simp)

theorem chunkRel_append {a b a2 b2 : List Char} (h1 : ChunkRel a a2)
    (h2 : ChunkRel b b2) : ChunkRel (a ++ b) (a2 ++ b2) := by
  obtain ⟨hs1, hh1⟩ := h1
  obtain ⟨hs2, hh2⟩ := h2
  constructor
  · rw [eqSig_append, eqSig_append, hs1]
    match eqSig a2 with
    | Sig.noEq => exact hs2
    | Sig.live => rfl
    | Sig.dead => rfl
    | Sig.endEq =>
      dsimp only
      match hb : b, hb2 : b2 with
      | [], [] => rfl
      | [], d :: bs => exact absurd hh2 (by simp)
      | d :: bs, [] => exact absurd hh2 (by simp)
      | d :: bs, e :: bs2 =>
        simp only [List.head?_cons, Option.some.injEq] at hh2
        rw [hh2]
  · rw [headq_append, headq_append]
    match ha : a, ha2 : a2 with
    | [], [] => exact hh2
    | [], c :: as => exact absurd hh1 (by simp)
    | c :: as, [] => exact absurd hh1 (by simp)
    | c :: as, d :: as2 => exact hh1

theorem tag_run (s rest : List Char) : tag s (s ++ rest) = some (rest, s) := by
  unfold tag
  rw [if_pos (List.isPrefixOf_iff_prefix.mpr (List.prefix_append s rest))]
  rw [List.drop_left]

theorem tag_inv {s input rest out : List Char} (h : tag s input = some (rest, out)) :
    out = s ∧ input = s ++ rest := by
  unfold tag at h
  by_cases hp : s.isPrefixOf input
  · rw [if_pos hp] at h
    simp only [Option.some.injEq, Prod.mk.injEq] at h
    obtain ⟨hr, ho⟩ := h
    obtain ⟨t, ht⟩ := List.isPrefixOf_iff_prefix.mp hp
    refine ⟨ho.symm, ?_⟩
    rw [← ht] at hr ⊢
    rw [List.drop_left] at hr
    rw [hr]
  · rw [if_neg hp] at h
    exact absurd h (by simp)

theorem many0_stop {α : Type} {p : Parser α} :
    ∀ (n : Nat) (input rest : List Char) (as : List α), input.length ≤ n →
      many0 p input = some (rest, as) → p rest = none := by
  intro n
  induction n with
  | zero =>
    intro input rest as hlen h
    match input, hlen with
    | [], _ =>
      rw [many0_unfold] at h
      match hp : p [] with
      | none =>
        rw [hp] at h
        dsimp only at h
        simp only [Option.some.injEq, Prod.mk.injEq] at h
        rw [← h.1]
        exact hp
      | some (rest1, a) =>
        rw [hp] at h
        dsimp only at h
        rw [if_neg (by simp)] at h
        exact absurd h (by simp)
  | succ n ih =>
    intro input rest as hlen h
    rw [many0_unfold] at h
    match hp : p input with
    | none =>
      rw [hp] at h
      dsimp only at h
      simp only [Option.some.injEq, Prod.mk.injEq] at h
      rw [← h.1]
      exact hp
    | some (rest1, a) =>
      rw [hp] at h
      dsimp only at h
      by_cases hl : rest1.length < input.length
      · rw [if_pos hl] at h
        match hm : many0 p rest1 with
        | some (rest2, as2) =>
          rw [hm] at h
          dsimp only at h
          simp only [Option.some.injEq, Prod.mk.injEq] at h
          rw [← h.1]
          exact ih rest1 rest2 as2 (by omega) hm
        | none =>
          rw [hm] at h
          exact absurd h (by simp)
      · rw [if_neg hl] at h
        exact absurd h (by simp)

theorem ms0_run (ws rest : List Char) (hws : ∀ c ∈ ws, isMultispace c = true)
    (hrest : ∀ c, rest.head? = some c → isMultispace c = false) :
    multispace0 (ws ++ rest) = some (rest, ws) := by
  unfold multispace0
  obtain ⟨h1, h2⟩ := takeWhile_append_all ws rest hws hrest
  rw [h1, h2]

theorem ms0_inv {input rest ws : List Char} (h : multispace0 input = some (rest, ws)) :
    input = ws ++ rest ∧ (∀ c ∈ ws, isMultispace c = true) ∧
      (∀ c, rest.head? = some c → isMultispace c = false) := by
  unfold multispace0 at h
  simp only [Option.some.injEq, Prod.mk.injEq] at h
  obtain ⟨hr, hw⟩ := h
  subst hr
  subst hw
  refine ⟨(List.takeWhile_append_dropWhile _ _).symm, all_takeWhile input, ?_⟩
  intro c hc
  exact head_dropWhile_false input hc

theorem none_of_cons_mem {bad : List Char} {c : Char} (h : c ∈ bad) (rest : List Char) :
    none_of bad (c :: rest) = none := by
  unfold none_of
  dsimp only
  rw [if_pos h]

theorem none_of_cons_not_mem {bad : List Char} {c : Char} (h : c ∉ bad) (rest : List Char) :
    none_of bad (c :: rest) = some (rest, c) := by
  unfold none_of
  dsimp only
  rw [if_neg h]

theorem none_of_fail {bad : List Char} {input : List Char}
    (h : input = [] ∨ ∃ d ds, input = d :: ds ∧ d ∈ bad) : none_of bad input = none := by
  rcases h with h | ⟨d, ds, hd, hmem⟩
  · rw [h]
    rfl
  · rw [hd]
    exact none_of_cons_mem hmem ds

theorem many0_none_of_run (bad : List Char) :
    ∀ (n : Nat) (cs rest : List Char), cs.length ≤ n → (∀ c ∈ cs, c ∉ bad) →
      (rest = [] ∨ ∃ d ds, rest = d :: ds ∧ d ∈ bad) →
      many0 (none_of bad) (cs ++ rest) = some (rest, cs) := by
  intro n
  induction n with
  | zero =>
    intro cs rest hlen hcs hrest
    match cs, hlen with
    | [], _ =>
      rw [List.nil_append, many0_unfold, none_of_fail hrest]
  | succ n ih =>
    intro cs rest hlen hcs hrest
    match cs with
    | [] => rw [List.nil_append, many0_unfold, none_of_fail hrest]
    | c :: cs1 =>
      rw [List.cons_append, many0_unfold,
        none_of_cons_not_mem (hcs c (by simp)) (cs1 ++ rest)]
      dsimp only
      rw [if_pos (by simp)]
      rw [ih cs1 rest (by simp only [List.length_cons] at hlen; omega)
        (fun d hd => hcs d (by simp [hd])) hrest]

theorem many0_none_of_inv (bad : List Char) :
    ∀ (n : Nat) (input rest cs : List Char), input.length ≤ n →
      many0 (none_of bad) input = some (rest, cs) →
      input = cs ++ rest ∧ (∀ c ∈ cs, c ∉ bad) ∧
        (rest = [] ∨ ∃ d ds, rest = d :: ds ∧ d ∈ bad) := by
  intro n
  induction n with
  | zero =>
    intro input rest cs hlen h
    match input, hlen with
    | [], _ =>
      rw [many0_unfold] at h
      have hn : none_of bad [] = none := rfl
      rw [hn] at h
      dsimp only at h
      simp only [Option.some.injEq, Prod.mk.injEq] at h
      rw [← h.1, ← h.2]
      exact ⟨rfl, by simp, Or.inl rfl⟩
  | succ n ih =>
    intro input rest cs hlen h
    rw [many0_unfold] at h
    match input with
    | [] =>
      have hn : none_of bad [] = none := rfl
      rw [hn] at h
      dsimp only at h
      simp only [Option.some.injEq, Prod.mk.injEq] at h
      rw [← h.1, ← h.2]
      exact ⟨rfl, by simp, Or.inl rfl⟩
    | c :: input1 =>
      by_cases hc : c ∈ bad
      · rw [none_of_cons_mem hc input1] at h
        dsimp only at h
        simp only [Option.some.injEq, Prod.mk.injEq] at h
        rw [← h.1, ← h.2]
        exact ⟨rfl, by simp, Or.inr ⟨c, input1, rfl, hc⟩⟩
      · rw [none_of_cons_not_mem hc input1] at h
        dsimp only at h
        rw [if_pos (by simp)] at h
        match hm : many0 (none_of bad) input1 with
        | some (rest2, cs2) =>
          rw [hm] at h
          dsimp only at h
          simp only [Option.some.injEq, Prod.mk.injEq] at h
          obtain ⟨hr, hcs⟩ := h
          obtain ⟨hi, hall, hstop⟩ := ih input1 rest2 cs2 (by simpa using hlen) hm
          subst hr
          rw [← hcs]
          refine ⟨by rw [List.cons_append, ← hi], ?_, hstop⟩
          intro d hd
          rcases List.mem_cons.mp hd with h1 | h1
          · rw [h1]; exact hc
          · exact hall d h1
        | none =>
          rw [hm] at h
          exact absurd h (by simp)

theorem many1_none_of_run (bad : List Char) (cs rest : List Char) (hne : cs ≠ [])
    (hcs : ∀ c ∈ cs, c ∉ bad)
    (hrest : rest = [] ∨ ∃ d ds, rest = d :: ds ∧ d ∈ bad) :
    many1 (none_of bad) (cs ++ rest) = some (rest, cs) := by
  match cs with
  | c :: cs1 =>
    unfold many1
    rw [List.cons_append, none_of_cons_not_mem (hcs c (by simp)) (cs1 ++ rest)]
    dsimp only
    rw [if_pos (by simp)]
    rw [many0_none_of_run bad cs1.length cs1 rest (Nat.le_refl _)
      (fun d hd => hcs d (by simp [hd])) hrest]

theorem many1_none_of_inv {bad input rest cs : List Char}
    (h : many1 (none_of bad) input = some (rest, cs)) :
    input = cs ++ rest ∧ cs ≠ [] ∧ (∀ c ∈ cs, c ∉ bad) ∧
      (rest = [] ∨ ∃ d ds, rest = d :: ds ∧ d ∈ bad) := by
  unfold many1 at h
  match input with
  | [] =>
    have hn : none_of bad [] = none := rfl
    rw [hn] at h
    exact absurd h (by simp)
  | c :: input1 =>
    by_cases hc : c ∈ bad
    · rw [none_of_cons_mem hc input1] at h
      exact absurd h (by simp)
    · rw [none_of_cons_not_mem hc input1] at h
      dsimp only at h
      rw [if_pos (by simp)] at h
      match hm : many0 (none_of bad) input1 with
      | some (rest2, cs2) =>
        rw [hm] at h
        dsimp only at h
        simp only [Option.some.injEq, Prod.mk.injEq] at h
        obtain ⟨hr, hcs2⟩ := h
        obtain ⟨hi, hall, hstop⟩ := many0_none_of_inv bad input1.length input1 rest2 cs2
          (Nat.le_refl _) hm
        subst hr
        rw [← hcs2]
        refine ⟨by rw [List.cons_append, ← hi], by simp, ?_, hstop⟩
        intro d hd
        rcases List.mem_cons.mp hd with h1 | h1
        · rw [h1]; exact hc
        · exact hall d h1
      | none =>
        rw [hm] at h
        exact absurd h (by simp)

theorem pMap_some {α β : Type} {p : Parser α} {f : α → β} {input rest : List Char}
    {a : α} (h : p input = some (rest, a)) : pMap p f input = some (rest, f a) := by
  unfold pMap
  rw [h]

theorem pMap_none {α β : Type} {p : Parser α} {f : α → β} {input : List Char}
    (h : p input = none) : pMap p f input = none := by
  unfold pMap
  rw [h]

theorem pMapRes_some {α β : Type} {p : Parser α} {f : α → Option β}
    {input rest : List Char} {a : α} {b : β} (h : p input = some (rest, a))
    (hf : f a = some b) : pMapRes p f input = some (rest, b) := by
  unfold pMapRes
  rw [h]
  dsimp only
  rw [hf]

theorem pMapRes_none {α β : Type} {p : Parser α} {f : α → Option β}
    {input : List Char} (h : p input = none) : pMapRes p f input = none := by
  unfold pMapRes
  rw [h]

theorem pMapRes_some_none {α β : Type} {p : Parser α} {f : α → Option β}
    {input rest : List Char} {a : α} (h : p input = some (rest, a))
    (hf : f a = none) : pMapRes p f input = none := by
  unfold pMapRes
  rw [h]
  dsimp only
  rw [hf]

theorem pVerify_some_true {α : Type} {p : Parser α} {f : α → Bool}
    {input rest : List Char} {a : α} (h : p input = some (rest, a))
    (hf : f a = true) : pVerify p f input = some (rest, a) := by
  unfold pVerify
  rw [h]
  dsimp only
  rw [hf]
  rfl

theorem pVerify_some_false {α : Type} {p : Parser α} {f : α → Bool}
    {input rest : List Char} {a : α} (h : p input = some (rest, a))
    (hf : f a = false) : pVerify p f input = none := by
  unfold pVerify
  rw [h]
  dsimp only
  rw [hf]
  rfl

theorem pVerify_none {α : Type} {p : Parser α} {f : α → Bool} {input : List Char}
    (h : p input = none) : pVerify p f input = none := by
  unfold pVerify
  rw [h]

theorem preceded_some {α β : Type} {p : Parser α} {q : Parser β}
    {input mid : List Char} {a : α} (h : p input = some (mid, a)) :
    preceded p q input = q mid := by
  unfold preceded
  rw [h]

theorem preceded_none {α β : Type} {p : Parser α} {q : Parser β} {input : List Char}
    (h : p input = none) : preceded p q input = none := by
  unfold preceded
  rw [h]

theorem terminated_some {α β : Type} {p : Parser α} {q : Parser β}
    {input mid rest : List Char} {a : α} {b : β} (h : p input = some (mid, a))
    (hq : q mid = some (rest, b)) : terminated p q input = some (rest, a) := by
  unfold terminated
  rw [h]
  dsimp only
  rw [hq]

theorem terminated_none {α β : Type} {p : Parser α} {q : Parser β} {input : List Char}
    (h : p input = none) : terminated p q input = none := by
  unfold terminated
  rw [h]

theorem terminated_some_none {α β : Type} {p : Parser α} {q : Parser β}
    {input mid : List Char} {a : α} (h : p input = some (mid, a))
    (hq : q mid = none) : terminated p q input = none := by
  unfold terminated
  rw [h]
  dsimp only
  rw [hq]

theorem pPair_some {α β : Type} {p : Parser α} {q : Parser β}
    {input mid rest : List Char} {a : α} {b : β} (h : p input = some (mid, a))
    (hq : q mid = some (rest, b)) : pPair p q input = some (rest, (a, b)) := by
  unfold pPair
  rw [h]
  dsimp only
  rw [hq]

theorem pPair_none {α β : Type} {p : Parser α} {q : Parser β} {input : List Char}
    (h : p input = none) : pPair p q input = none := by
  unfold pPair
  rw [h]

theorem pPair_some_none {α β : Type} {p : Parser α} {q : Parser β}
    {input mid : List Char} {a : α} (h : p input = some (mid, a))
    (hq : q mid = none) : pPair p q input = none := by
  unfold pPair
  rw [h]
  dsimp only
  rw [hq]

theorem pOpt_some {α : Type} {p : Parser α} {input rest : List Char} {a : α}
    (h : p input = some (rest, a)) : pOpt p input = some (rest, some a) := by
  unfold pOpt
  rw [h]

theorem pOpt_none {α : Type} {p : Parser α} {input : List Char}
    (h : p input = none) : pOpt p input = some (input, none) := by
  unfold pOpt
  rw [h]

theorem alt_first {α : Type} {p q : Parser α} {input : List Char}
    {r : List Char × α} (h : p input = some r) : alt p q input = some r := by
  unfold alt
  rw [h]

theorem alt_second {α : Type} {p q : Parser α} {input : List Char}
    (h : p input = none) : alt p q input = q input := by
  unfold alt
  rw [h]

theorem many1_build {α : Type} {p : Parser α} {input rest1 rest : List Char}
    {a : α} {as : List α} (h : p input = some (rest1, a))
    (hlen : rest1.length < input.length) (hm : many0 p rest1 = some (rest, as)) :
    many1 p input = some (rest, a :: as) := by
  unfold many1
  rw [h]
  dsimp only
  rw [if_pos hlen, hm]

theorem many1_none {α : Type} {p : Parser α} {input : List Char}
    (h : p input = none) : many1 p input = none := by
  unfold many1
  rw [h]

theorem many1_inv {α : Type} {p : Parser α} {input rest : List Char} {as : List α}
    (h : many1 p input = some (rest, as)) :
    ∃ rest1 a as2, p input = some (rest1, a) ∧ rest1.length < input.length ∧
      many0 p rest1 = some (rest, as2) ∧ as = a :: as2 := by
  unfold many1 at h
  match hp : p input with
  | none =>
    rw [hp] at h
    exact absurd h (by simp)
  | some (rest1, a) =>
    rw [hp] at h
    dsimp only at h
    by_cases hlen : rest1.length < input.length
    · rw [if_pos hlen] at h
      match hm : many0 p rest1 with
      | some (rest2, as2) =>
        rw [hm] at h
        dsimp only at h
        simp only [Option.some.injEq, Prod.mk.injEq] at h
        exact ⟨rest1, a, as2, rfl, hlen, by rw [hm, h.1], h.2.symm⟩
      | none =>
        rw [hm] at h
        exact absurd h (by simp)
    · rw [if_neg hlen] at h
      exact absurd h (by simp)

theorem many0_cons_build {α : Type} {p : Parser α} {input rest1 rest : List Char}
    {a : α} {as : List α} (h : p input = some (rest1, a))
    (hlen : rest1.length < input.length) (hm : many0 p rest1 = some (rest, as)) :
    many0 p input = some (rest, a :: as) := by
  rw [many0_unfold, h]
  dsimp only
  rw [if_pos hlen, hm]

theorem many0_nil_build {α : Type} {p : Parser α} {input : List Char}
    (h : p input = none) : many0 p input = some (input, []) := by
  rw [many0_unfold, h]

theorem alpha1_inv {input rest pre : List Char} (h : alpha1 input = some (rest, pre)) :
    input = pre ++ rest ∧ pre ≠ [] ∧ (∀ c ∈ pre, isIdentChar c = true) := by
  unfold alpha1 at h
  by_cases he : (input.takeWhile Char.isAlpha).isEmpty
  · rw [if_pos he] at h
    exact absurd h (by simp)
  · rw [if_neg he] at h
    simp only [Option.some.injEq, Prod.mk.injEq] at h
    obtain ⟨hr, hp⟩ := h
    subst hr
    subst hp
    refine ⟨(List.takeWhile_append_dropWhile _ _).symm, by simpa using he, ?_⟩
    intro c hc
    have := all_takeWhile input c hc
    unfold isIdentChar
    rw [this]
    rfl

theorem identAlt_inv {input rest chunk : List Char}
    (h : alt alpha1 underscore input = some (rest, chunk)) :
    input = chunk ++ rest ∧ chunk ≠ [] ∧ ∀ c ∈ chunk, isIdentChar c = true := by
  rcases alt_eq_some h with h1 | ⟨_, h1⟩
  · exact alpha1_inv h1
  · obtain ⟨ho, hi⟩ := tag_inv h1
    subst ho
    exact ⟨hi, by simp, by decide⟩

theorem identMany0_inv :
    ∀ (n : Nat) (input rest : List Char) (chunks : List (List Char)),
      input.length ≤ n → many0 (alt alpha1 underscore) input = some (rest, chunks) →
      input = chunks.flatten ++ rest ∧ ∀ c ∈ chunks.flatten, isIdentChar c = true := by
  intro n
  induction n with
  | zero =>
    intro input rest chunks hlen h
    match input, hlen with
    | [], _ =>
      rw [many0_unfold] at h
      have hfail : alt alpha1 underscore [] = none := rfl
      rw [hfail] at h
      dsimp only at h
      simp only [Option.some.injEq, Prod.mk.injEq] at h
      rw [← h.1, ← h.2]
      exact ⟨rfl, by simp⟩
  | succ n ih =>
    intro input rest chunks hlen h
    rw [many0_unfold] at h
    match hp : alt alpha1 underscore input with
    | none =>
      rw [hp] at h
      dsimp only at h
      simp only [Option.some.injEq, Prod.mk.injEq] at h
      rw [← h.1, ← h.2]
      exact ⟨rfl, by simp⟩
    | some (rest1, chunk) =>
      rw [hp] at h
      dsimp only at h
      by_cases hl : rest1.length < input.length
      · rw [if_pos hl] at h
        match hm : many0 (alt alpha1 underscore) rest1 with
        | some (rest2, chunks2) =>
          rw [hm] at h
          dsimp only at h
          simp only [Option.some.injEq, Prod.mk.injEq] at h
          obtain ⟨hi1, hne, hall1⟩ := identAlt_inv hp
          obtain ⟨hi2, hall2⟩ := ih rest1 rest2 chunks2 (by omega) hm
          obtain ⟨hr, hc⟩ := h
          subst hr
          rw [← hc]
          constructor
          · rw [List.flatten_cons, List.append_assoc, ← hi2, ← hi1]
          · intro c hc2
            rw [List.flatten_cons, List.mem_append] at hc2
            rcases hc2 with h2 | h2
            · exact hall1 c h2
            · exact hall2 c h2
        | none =>
          rw [hm] at h
          exact absurd h (by simp)
      · rw [if_neg hl] at h
        exact absurd h (by simp)

theorem identifier_inv {input rest : List Char} {s : String}
    (h : identifier input = some (rest, s)) :
    input = s.toList ++ rest ∧ s.toList ≠ [] ∧
      (∀ c ∈ s.toList, isIdentChar c = true) ∧
      RESERVED_KEYWORDS.contains s = false := by
  obtain ⟨hmap, hver⟩ := pVerify_eq_some h
  obtain ⟨chunks, hmany, hs⟩ := pMap_eq_some hmap
  obtain ⟨rest1, chunk, chunks2, hp, hlen, hm, hchunks⟩ := many1_inv hmany
  obtain ⟨hi1, hne, hall1⟩ := identAlt_inv hp
  obtain ⟨hi2, hall2⟩ := identMany0_inv rest1.length rest1 rest chunks2 (Nat.le_refl _) hm
  have hsl : s.toList = chunks.flatten := by
    rw [hs]
    rfl
  subst hchunks
  rw [List.flatten_cons] at hsl
  refine ⟨?_, ?_, ?_, by simpa using hver⟩
  · rw [hsl, List.append_assoc, ← hi2, ← hi1]
  · rw [hsl]
    intro hcontra
    match chunk, hne, hcontra with
    | [], hne, _ => exact hne rfl
  · intro c hc
    rw [hsl, List.mem_append] at hc
    rcases hc with h2 | h2
    · exact hall1 c h2
    · exact hall2 c h2

theorem serTokL_ne_nil {t : Token} (h : canonTok t = true) : serTokL t ≠ [] := by
  cases t with
  | Static s =>
    have h1 : s.toList ≠ [] := by
      simp only [canonTok, canonStatic, Bool.and_eq_true] at h
      have h2 := h.1
      intro hc
      rw [hc] at h2
      simp at h2
    simp only [serTokL]
    exact h1
  | Style st =>
    simp only [serTokL]
    intro hc
    exact List.noConfusion hc
  | Component n opts =>
    simp only [serTokL]
    intro hc
    exact List.noConfusion hc
  | Conditional c l r =>
    cases r with
    | none =>
      simp only [serTokL]
      intro hc
      have hlen := congrArg List.length hc
      simp only [List.length_append, List.length_nil] at hlen
      have h4 : ("\x7bif ".toList).length = 4 := rfl
      omega
    | some rr =>
      simp only [serTokL]
      intro hc
      have hlen := congrArg List.length hc
      simp only [List.length_append, List.length_nil] at hlen
      have h4 : ("\x7bif ".toList).length = 4 := rfl
      omega

theorem styleStr_fromStr (st : StyleToken) : StyleToken.fromStr st.str = some st := by
  cases st <;> rfl

theorem styleFromStr_inj {s : String} {st : StyleToken}
    (h : StyleToken.fromStr s = some st) : s = st.str := by
  unfold StyleToken.fromStr at h
  split_ifs at h <;> injection h with he <;>
    (subst he; simp only [StyleToken.str]; assumption)

theorem tcompStr_fromStr (n : TComponent) : TComponent.fromStr n.str = some n := by
  cases n <;> rfl

theorem tcompFromStr_inj {s : String} {n : TComponent}
    (h : TComponent.fromStr s = some n) : s = n.str := by
  unfold TComponent.fromStr at h
  split_ifs at h <;> injection h with he <;>
    (subst he; simp only [TComponent.str]; assumption)

theorem component_not_style (n : TComponent) : StyleToken.fromStr n.str = none := by
  cases n <;> rfl

theorem styleStr_ident (st : StyleToken) : identString st.str = true := by
  cases st <;> decide

theorem styleStr_not_reserved (st : StyleToken) :
    RESERVED_KEYWORDS.contains st.str = false := by
  cases st <;> decide

theorem tcompStr_ident (n : TComponent) : identString n.str = true := by
  cases n <;> decide
theorem ident_not_eq {c : Char} (h : isIdentChar c = true) : c ≠ '=' := by
  intro hc
  subst hc
  exact absurd h (by decide)

theorem ident_not_obrace {c : Char} (h : isIdentChar c = true) : c ≠ '\x7b' := by
  intro hc
  subst hc
  exact absurd h (by decide)

theorem ident_not_cbrace {c : Char} (h : isIdentChar c = true) : c ≠ '\x7d' := by
  intro hc
  subst hc
  exact absurd h (by decide)

theorem ident_not_ms {c : Char} (h : isIdentChar c = true) : isMultispace c = false := by
  by_cases hm : isMultispace c = true
  · unfold isMultispace at hm
    simp only [Bool.or_eq_true, decide_eq_true_eq] at hm
    rcases hm with ((h1 | h1) | h1) | h1 <;> (subst h1; exact absurd h (by decide))
  · exact Bool.eq_false_iff.mpr hm

theorem ms_not_eq {c : Char} (h : isMultispace c = true) : c ≠ '=' := by
  intro hc
  subst hc
  exact absurd h (by decide)

theorem eqSig_append_noEq {a : List Char} (b : List Char) (h : ∀ c ∈ a, c ≠ '=') :
    eqSig (a ++ b) = eqSig b := by
  rw [eqSig_append, eqSig_noEq_of_forall h]

theorem eqSig_live_prefix {a : List Char} {d : Char} (ds : List Char)
    (ha : ∀ c ∈ a, c ≠ '=') (hd : deadChar d = false) :
    eqSig (a ++ '=' :: d :: ds) = Sig.live := by
  rw [eqSig_append_noEq _ ha, eqSig_cons_eq]
  dsimp only
  rw [hd]
  rfl

theorem serListL_nil : serListL [] = [] := rfl

theorem serListL_cons (t : Token) (ts : List Token) :
    serListL (t :: ts) = serTokL t ++ serListL ts := by
  simp only [serListL]

theorem serOptsL_nil : serOptsL [] = [] := rfl

theorem serOptsL_cons (kv : String × String) (opts : List (String × String)) :
    serOptsL (kv :: opts) =
      ' ' :: kv.1.toList ++ '=' :: kv.2.toList ++ serOptsL opts := by
  unfold serOptsL
  rw [List.map_cons, List.flatten_cons]

theorem endsBf_nil : endsBf [] = false := rfl

theorem endsBf_single (t : Token) : endsBf [t] = bfStatic t := rfl

theorem endsBf_cons_cons (t t2 : Token) (ts : List Token) :
    endsBf (t :: t2 :: ts) = endsBf (t2 :: ts) := by
  unfold endsBf
  rw [List.getLast?_cons_cons]

theorem canonList_cons_cons {t t2 : Token} {ts : List Token} :
    canonList (t :: t2 :: ts) =
      (canonTok t && !(bfStatic t && bfStatic t2) && canonList (t2 :: ts)) := by
  simp only [canonList]

theorem canonList_single (t : Token) : canonList [t] = canonTok t := by
  simp only [canonList]

theorem canonList_of_cons {t : Token} {ts : List Token}
    (h : canonList (t :: ts) = true) : canonTok t = true ∧ canonList ts = true := by
  match ts with
  | [] => exact ⟨by rw [canonList_single] at h; exact h, rfl⟩
  | t2 :: rest =>
    rw [canonList_cons_cons] at h
    simp only [Bool.and_eq_true] at h
    exact ⟨h.1.1, h.2⟩

theorem serTokL_style (st : StyleToken) :
    serTokL (Token.Style st) = '\x7b' :: st.str.toList ++ ['\x7d'] := by
  simp only [serTokL]

theorem serTokL_static (s : String) : serTokL (Token.Static s) = s.toList := by
  simp only [serTokL]

theorem serTokL_component (n : TComponent) (opts : List (String × String)) :
    serTokL (Token.Component n opts) =
      '\x7b' :: n.str.toList ++ serOptsL opts ++ ['\x7d'] := by
  simp only [serTokL]

theorem serTokL_cond_none (c : Condition) (l : List Token) :
    serTokL (Token.Conditional c l none) =
      "\x7bif ".toList ++ (condStr c).toList ++ ['\x7d'] ++ serListL l ++
        "\x7bend\x7d".toList := by
  simp only [serTokL]

theorem serTokL_cond_some (c : Condition) (l rr : List Token) :
    serTokL (Token.Conditional c l (some rr)) =
      "\x7bif ".toList ++ (condStr c).toList ++ ['\x7d'] ++ serListL l ++
        "\x7belse\x7d".toList ++ serListL rr ++ "\x7bend\x7d".toList := by
  simp only [serTokL]

theorem serListL_ne_nil {ts : List Token} (hne : ts ≠ [])
    (h : canonList ts = true) : serListL ts ≠ [] := by
  match ts with
  | t :: rest =>
    rw [serListL_cons]
    intro hc
    rcases List.append_eq_nil.mp hc with ⟨h1, _⟩
    exact serTokL_ne_nil (canonList_of_cons h).1 h1

theorem bf_head {t : Token} (hbf : bfStatic t = true) (hc : canonTok t = true) :
    ∃ c, (serTokL t).head? = some c ∧ c ≠ '\x7b' := by
  cases t with
  | Static s =>
    rw [serTokL_static]
    simp only [bfStatic] at hbf
    simp only [canonTok, canonStatic, Bool.and_eq_true] at hc
    match hs : s.toList with
    | [] => rw [hs] at hc; exact absurd hc.1 (by simp)
    | c :: rest =>
      rw [hs] at hbf
      refine ⟨c, rfl, ?_⟩
      have := List.all_eq_true.mp hbf c (by simp)
      simpa using this
  | Style st => simp [bfStatic] at hbf
  | Component n opts => simp [bfStatic] at hbf
  | Conditional c l r => simp [bfStatic] at hbf
theorem eqSig_cases (u : List Char) :
    (∀ c ∈ u, c ≠ '=') ∨ ∃ A B, u = A ++ '=' :: B ∧ ∀ c ∈ A, c ≠ '=' := by
  induction u with
  | nil => exact Or.inl (by simp)
  | cons c rest ih =>
    by_cases hc : c = '='
    · subst hc
      exact Or.inr ⟨[], rest, rfl, by simp⟩
    · rcases ih with h | ⟨A, B, hab, hA⟩
      · refine Or.inl ?_
        intro d hd
        rcases List.mem_cons.mp hd with h1 | h1
        · rw [h1]; exact hc
        · exact h d h1
      · refine Or.inr ⟨c :: A, B, ?_, ?_⟩
        · rw [hab, List.cons_append]
        · intro d hd
          rcases List.mem_cons.mp hd with h1 | h1
          · rw [h1]; exact hc
          · exact hA d h1

theorem eqSig_live_decomp {u : List Char} (h : eqSig u = Sig.live) :
    ∃ A d ds, u = A ++ '=' :: d :: ds ∧ (∀ c ∈ A, c ≠ '=') ∧ deadChar d = false := by
  rcases eqSig_cases u with hall | ⟨A, B, hab, hA⟩
  · rw [eqSig_noEq_of_forall hall] at h
    exact absurd h (by simp)
  · subst hab
    rw [eqSig_append_noEq _ hA, eqSig_cons_eq] at h
    match B, h with
    | [], h => exact absurd h (by simp)
    | d :: ds, h =>
      dsimp only at h
      by_cases hd : deadChar d = true
      · rw [if_pos hd] at h
        exact absurd h (by simp)
      · exact ⟨A, d, ds, rfl, hA, Bool.eq_false_iff.mpr hd⟩

theorem dead_of_mem {c : Char} (h : c ∈ ['\x7d', ' ']) : deadChar c = true := by
  simp only [List.mem_cons, List.not_mem_nil, or_false] at h
  rcases h with h1 | h1 <;> (subst h1; rfl)

theorem dead_not_mem {c : Char} (h : deadChar c = false) : c ∉ ['\x7d', ' '] := by
  intro hc
  rw [dead_of_mem hc] at h
  exact Bool.noConfusion h

theorem mem_of_dead {c : Char} (h : deadChar c = true) : c ∈ ['\x7d', ' '] := by
  unfold deadChar at h
  simp only [Bool.or_eq_true, decide_eq_true_eq] at h
  rcases h with h1 | h1 <;> simp [h1]

theorem canonKey_props {k : String} (h : canonKey k = true) :
    k.toList ≠ [] ∧ (∀ c, k.toList.head? = some c → isMultispace c = false) ∧
      ∀ c ∈ k.toList, c ≠ '=' := by
  unfold canonKey at h
  match hk : k.toList with
  | [] => rw [hk] at h; exact absurd h (by simp)
  | c :: rest =>
    rw [hk] at h
    simp only [Bool.and_eq_true] at h
    refine ⟨by simp, ?_, ?_⟩
    · intro c2 hc2
      simp only [List.head?_cons, Option.some.injEq] at hc2
      rw [← hc2]
      simpa using h.1
    · intro d hd
      have := List.all_eq_true.mp h.2 d hd
      simpa using this

theorem canonVal_props {v : String} (h : canonVal v = true) :
    v.toList ≠ [] ∧ ∀ c ∈ v.toList, deadChar c = false := by
  unfold canonVal at h
  simp only [Bool.and_eq_true] at h
  refine ⟨by simpa using h.1, ?_⟩
  intro c hc
  have h2 := List.all_eq_true.mp h.2 c hc
  simp only [Bool.and_eq_true, decide_eq_true_eq] at h2
  unfold deadChar
  rw [Bool.or_eq_false_iff]
  constructor <;> simp [h2.1, h2.2]

theorem key_run {u A rest : List Char} (hsplit : u = A ++ rest) (hne : A ≠ [])
    (hA : ∀ c ∈ A, c ≠ '=') (hhead : ∀ c, u.head? = some c → isMultispace c = false)
    (hrest : rest = [] ∨ ∃ ds, rest = '=' :: ds) :
    key u = some (rest, String.mk A) := by
  subst hsplit
  have hms0 : multispace0 (A ++ rest) = some (A ++ rest, []) := by
    have := ms0_run [] (A ++ rest) (by simp) hhead
    rwa [List.nil_append] at this
  have hrun := many1_none_of_run ['='] A rest hne
    (fun c hc => by simpa using hA c hc)
    (by
      rcases hrest with h | ⟨ds, h⟩
      · exact Or.inl h
      · exact Or.inr ⟨'=', ds, h, by simp⟩)
  unfold key pMap preceded
  dsimp only
  rw [hms0]
  dsimp only
  rw [hrun]

theorem key_fail {u : List Char}
    (h : u.dropWhile isMultispace = [] ∨
      ∃ ds, u.dropWhile isMultispace = '=' :: ds) :
    key u = none := by
  have hms0 : multispace0 u = some (u.dropWhile isMultispace, u.takeWhile isMultispace) :=
    rfl
  have hfail : many1 (none_of ['=']) (u.dropWhile isMultispace) = none := by
    apply many1_none
    apply none_of_fail
    rcases h with h1 | ⟨ds, h1⟩
    · exact Or.inl h1
    · exact Or.inr ⟨'=', ds, h1, by simp⟩
  unfold key pMap preceded
  dsimp only
  rw [hms0]
  dsimp only
  rw [hfail]

theorem value_run {u cs rest : List Char} (hsplit : u = cs ++ rest) (hne : cs ≠ [])
    (hcs : ∀ c ∈ cs, deadChar c = false)
    (hrest : rest = [] ∨ ∃ d ds, rest = d :: ds ∧ deadChar d = true) :
    value u = some (rest, String.mk cs) := by
  subst hsplit
  have hrun := many1_none_of_run ['\x7d', ' '] cs rest hne
    (fun c hc => dead_not_mem (hcs c hc))
    (by
      rcases hrest with h | ⟨d, ds, h1, h2⟩
      · exact Or.inl h
      · exact Or.inr ⟨d, ds, h1, mem_of_dead h2⟩)
  unfold value pMap
  rw [hrun]

theorem value_fail {u : List Char}
    (h : u = [] ∨ ∃ d ds, u = d :: ds ∧ deadChar d = true) : value u = none := by
  unfold value pMap
  rw [many1_none (none_of_fail (by
    rcases h with h1 | ⟨d, ds, h1, h2⟩
    · exact Or.inl h1
    · exact Or.inr ⟨d, ds, h1, mem_of_dead h2⟩))]

theorem kv_unfold (u : List Char) :
    key_value u =
      match key u with
      | none => none
      | some (mid, k) =>
        match preceded (tag ['=']) value mid with
        | none => none
        | some (r, v) => some (r, (k, v)) := by
  unfold key_value separated_pair pPair
  match hk : key u with
  | none => rfl
  | some (mid, k) =>
    dsimp only
    match hp : preceded (tag ['=']) value mid with
    | none => rfl
    | some (r, v) => rfl
theorem many1_none_of_total {bad : List Char} {d : Char} (ds : List Char)
    (hd : d ∉ bad) :
    ∃ rest cs, many1 (none_of bad) (d :: ds) = some (rest, cs) ∧ cs ≠ [] := by
  refine ⟨List.dropWhile (fun c => decide (c ∉ bad)) (d :: ds),
    List.takeWhile (fun c => decide (c ∉ bad)) (d :: ds), ?_, ?_⟩
  · have hrun := many1_none_of_run bad
      (List.takeWhile (fun c => decide (c ∉ bad)) (d :: ds))
      (List.dropWhile (fun c => decide (c ∉ bad)) (d :: ds))
      (by rw [List.takeWhile_cons, if_pos (by simp [hd])]; simp)
      (fun c hc => by simpa using all_takeWhile _ c hc)
      (by
        match hdrop : List.dropWhile (fun c => decide (c ∉ bad)) (d :: ds) with
        | [] => exact Or.inl rfl
        | e :: es =>
          refine Or.inr ⟨e, es, rfl, ?_⟩
          have := head_dropWhile_false (d :: ds) (c := e) (by rw [hdrop]; rfl)
          simpa using this)
    rwa [List.takeWhile_append_dropWhile] at hrun
  · rw [List.takeWhile_cons, if_pos (by simp [hd])]
    simp

theorem key_value_fail {u : List Char}
    (hu : ∀ c, u.head? = some c → isMultispace c = false ∧ c ≠ '=')
    (hsig : eqSig u ≠ Sig.live) : key_value u = none := by
  rw [kv_unfold]
  rcases eqSig_cases u with hall | ⟨A, B, hab, hA⟩
  · match u, hu, hall with
    | [], _, _ => rfl
    | c0 :: u1, hu, hall =>
      rw [@key_run (c0 :: u1) (c0 :: u1) [] (by simp) (by simp) hall
        (fun c hc => (hu c hc).1) (Or.inl rfl)]
      rfl
  · subst hab
    match A, hA, hu, hsig with
    | [], _, hu, _ => exact absurd ((hu '=' rfl).2) (by simp)
    | a :: A1, hA, hu, hsig =>
      rw [@key_run (a :: A1 ++ '=' :: B) (a :: A1) ('=' :: B) rfl (by simp) hA
        (fun c hc => (hu c hc).1) (Or.inr ⟨B, rfl⟩)]
      dsimp only
      unfold preceded
      have ht : tag ['='] ('=' :: B) = some (B, ['=']) := tag_run ['='] B
      rw [ht]
      dsimp only
      rw [eqSig_append_noEq _ hA, eqSig_cons_eq] at hsig
      match B, hsig with
      | [], _ =>
        rw [value_fail (Or.inl rfl)]
      | d :: ds, hsig =>
        dsimp only at hsig
        by_cases hd : deadChar d = true
        · rw [value_fail (Or.inr ⟨d, ds, rfl, hd⟩)]
        · rw [if_neg hd] at hsig
          exact absurd rfl hsig

theorem key_value_succ_of_live {u : List Char}
    (hu : ∀ c, u.head? = some c → isMultispace c = false ∧ c ≠ '=')
    (hsig : eqSig u = Sig.live) : ∃ r kv, key_value u = some (r, kv) := by
  obtain ⟨A, d, ds, hab, hA, hd⟩ := eqSig_live_decomp hsig
  subst hab
  match A, hA, hu with
  | [], _, hu => exact absurd ((hu '=' rfl).2) (by simp)
  | a :: A1, hA, hu =>
    obtain ⟨rest, cs, hval, hcs⟩ := @many1_none_of_total ['\x7d', ' '] d ds
      (dead_not_mem hd)
    refine ⟨rest, (String.mk (a :: A1), String.mk cs), ?_⟩
    rw [kv_unfold]
    rw [@key_run (a :: A1 ++ '=' :: d :: ds) (a :: A1) ('=' :: d :: ds) rfl
      (by simp) hA (fun c hc => (hu c hc).1) (Or.inr ⟨d :: ds, rfl⟩)]
    try dsimp only
    unfold preceded
    have ht : tag ['='] ('=' :: d :: ds) = some (d :: ds, ['=']) :=
      tag_run ['='] (d :: ds)
    rw [ht]
    try dsimp only
    have hv : value (d :: ds) = some (rest, String.mk cs) := by
      unfold value pMap
      rw [hval]
    rw [hv]

theorem canonKey_build {cs : List Char} (hne : cs ≠ [])
    (hhead : ∀ c, cs.head? = some c → isMultispace c = false)
    (hnoeq : ∀ c ∈ cs, c ≠ '=') : canonKey (String.mk cs) = true := by
  match cs, hne, hhead, hnoeq with
  | c :: rest, _, hhead, hnoeq =>
    unfold canonKey
    rw [show (String.mk (c :: rest)).toList = c :: rest from rfl]
    dsimp only
    rw [Bool.and_eq_true]
    constructor
    · rw [hhead c rfl]
      rfl
    · rw [List.all_eq_true]
      intro d hd
      simpa using hnoeq d hd

theorem canonVal_build {cs : List Char} (hne : cs ≠ [])
    (hnobad : ∀ c ∈ cs, c ∉ ['\x7d', ' ']) : canonVal (String.mk cs) = true := by
  unfold canonVal
  rw [Bool.and_eq_true]
  constructor
  · simpa using hne
  · rw [List.all_eq_true]
    intro d hd
    have := hnobad d hd
    simp only [List.mem_cons, List.not_mem_nil, or_false, not_or] at this
    simp [this.1, this.2]

theorem kv_inv {u rest1 : List Char} {kv : String × String}
    (h : key_value u = some (rest1, kv)) :
    canonKey kv.1 = true ∧ canonVal kv.2 = true ∧
      ∃ wsK, u = wsK ++ (kv.1.toList ++ '=' :: (kv.2.toList ++ rest1)) ∧
        ∀ c ∈ wsK, isMultispace c = true := by
  rw [kv_unfold] at h
  match hk : key u with
  | none => rw [hk] at h; exact absurd h (by simp)
  | some (mid, k) =>
    rw [hk] at h
    dsimp only at h
    match hp : preceded (tag ['=']) value mid with
    | none => rw [hp] at h; exact absurd h (by simp)
    | some (r, v) =>
      rw [hp] at h
      dsimp only at h
      simp only [Option.some.injEq, Prod.mk.injEq] at h
      obtain ⟨hr, hkv⟩ := h
      subst hr
      subst hkv
      obtain ⟨kchars, hkp, hkstr⟩ := pMap_eq_some hk
      obtain ⟨mid0, ws, hms, hmany⟩ := preceded_eq_some hkp
      obtain ⟨hu_eq, hws_all, hmid0_head⟩ := ms0_inv hms
      obtain ⟨hmid0_eq, hkne, hknoeq, _⟩ := many1_none_of_inv hmany
      obtain ⟨mid2, tg, htag, hval⟩ := preceded_eq_some hp
      obtain ⟨htg_eq, hmid_eq⟩ := tag_inv htag
      obtain ⟨vchars, hvp, hvstr⟩ := pMap_eq_some hval
      obtain ⟨hmid2_eq, hvne, hvnobad, _⟩ := many1_none_of_inv hvp
      subst hkstr
      subst hvstr
      dsimp only
      have hkl : (String.mk kchars).toList = kchars := rfl
      have hvl : (String.mk vchars).toList = vchars := rfl
      refine ⟨?_, ?_, ws, ?_, hws_all⟩
      · refine canonKey_build hkne ?_ ?_
        · intro c hc
          apply hmid0_head
          rw [hmid0_eq, headq_append]
          match kchars, hkne, hc with
          | k0 :: krest, _, hc => exact hc
        · intro c hc
          simpa using hknoeq c hc
      · refine canonVal_build hvne ?_
        intro c hc
        exact hvnobad c hc
      · rw [hkl, hvl, hu_eq, hmid0_eq, hmid_eq, hmid2_eq]
        simp [List.append_assoc]

theorem key_strip (ws u : List Char) (hws : ∀ c ∈ ws, isMultispace c = true)
    (hu : ∀ c, u.head? = some c → isMultispace c = false) :
    key (ws ++ u) = key u := by
  have h2 := ms0_run [] u (by simp) hu
  rw [List.nil_append] at h2
  unfold key pMap preceded
  dsimp only
  rw [ms0_run ws u hws hu, h2]

theorem kv_congr {u1 u2 : List Char} (h : key u1 = key u2) :
    key_value u1 = key_value u2 := by
  unfold key_value separated_pair pPair
  rw [h]

theorem kv_strip (ws u : List Char) (hws : ∀ c ∈ ws, isMultispace c = true)
    (hu : ∀ c, u.head? = some c → isMultispace c = false) :
    key_value (ws ++ u) = key_value u :=
  kv_congr (key_strip ws u hws hu)

theorem kv_run (k v : String) (REST : List Char) (hk : canonKey k = true)
    (hv : canonVal v = true)
    (hrest : REST = [] ∨ ∃ d ds, REST = d :: ds ∧ deadChar d = true) :
    key_value (' ' :: (k.toList ++ '=' :: (v.toList ++ REST))) =
      some (REST, (k, v)) := by
  obtain ⟨hkne, hkhead, hknoeq⟩ := canonKey_props hk
  obtain ⟨hvne, hvdead⟩ := canonVal_props hv
  have hstrip : key_value (' ' :: (k.toList ++ '=' :: (v.toList ++ REST))) =
      key_value (k.toList ++ '=' :: (v.toList ++ REST)) := by
    have := kv_strip [' '] (k.toList ++ '=' :: (v.toList ++ REST)) (by decide)
      (by
        intro c hc
        rw [headq_append] at hc
        match hkl : k.toList, hkne, hc with
        | k0 :: krest, _, hc =>
          simp only [Option.some.injEq] at hc
          subst hc
          exact hkhead k0 (by rw [hkl]; rfl))
    exact this
  rw [hstrip, kv_unfold]
  rw [@key_run (k.toList ++ '=' :: (v.toList ++ REST)) k.toList
    ('=' :: (v.toList ++ REST)) rfl hkne hknoeq
    (by
      intro c hc
      rw [headq_append] at hc
      match hkl : k.toList, hkne, hc with
      | k0 :: krest, _, hc =>
        simp only [Option.some.injEq] at hc
        subst hc
        exact hkhead k0 (by rw [hkl]; rfl))
    (Or.inr ⟨v.toList ++ REST, rfl⟩)]
  try dsimp only
  unfold preceded
  have ht : tag ['='] ('=' :: (v.toList ++ REST)) = some (v.toList ++ REST, ['=']) :=
    tag_run ['='] (v.toList ++ REST)
  rw [ht]
  try dsimp only
  rw [@value_run (v.toList ++ REST) v.toList REST rfl hvne hvdead hrest]
  rfl

theorem kv_many0_inv :
    ∀ (n : Nat) (input rest : List Char) (pairs : List (String × String)),
      input.length ≤ n → many0 key_value input = some (rest, pairs) →
      (∀ p ∈ pairs, canonKey p.1 = true ∧ canonVal p.2 = true) ∧
      ∃ pre, input = pre ++ rest ∧ (pairs = [] → pre = []) ∧
        (pairs ≠ [] → ∃ A d ds, pre = A ++ '=' :: d :: ds ∧
          (∀ c ∈ A, c ≠ '=') ∧ deadChar d = false) := by
  intro n
  induction n with
  | zero =>
    intro input rest pairs hlen h
    match input, hlen with
    | [], _ =>
      rw [many0_unfold] at h
      have hfail : key_value [] = none := rfl
      rw [hfail] at h
      dsimp only at h
      simp only [Option.some.injEq, Prod.mk.injEq] at h
      refine ⟨?_, [], by rw [List.nil_append]; exact h.1, fun _ => rfl, ?_⟩
      · intro p hp2; rw [← h.2] at hp2; simp at hp2
      · intro hne; rw [← h.2] at hne; simp at hne
  | succ n ih =>
    intro input rest pairs hlen h
    rw [many0_unfold] at h
    match hp : key_value input with
    | none =>
      rw [hp] at h
      dsimp only at h
      simp only [Option.some.injEq, Prod.mk.injEq] at h
      refine ⟨?_, [], by rw [List.nil_append]; exact h.1, fun _ => rfl, ?_⟩
      · intro p hp2; rw [← h.2] at hp2; simp at hp2
      · intro hne; rw [← h.2] at hne; simp at hne
    | some (rest1, kv1) =>
      rw [hp] at h
      dsimp only at h
      by_cases hl : rest1.length < input.length
      · rw [if_pos hl] at h
        match hm : many0 key_value rest1 with
        | some (rest2, pairs2) =>
          rw [hm] at h
          dsimp only at h
          simp only [Option.some.injEq, Prod.mk.injEq] at h
          obtain ⟨hr, hpairs⟩ := h
          subst hr
          obtain ⟨hck, hcv, wsK, hu, hws⟩ := kv_inv hp
          obtain ⟨hall2, pre2, hin2, hnil2, hcons2⟩ := ih rest1 rest2 pairs2
            (by omega) hm
          refine ⟨?_, (wsK ++ kv1.1.toList ++ '=' :: kv1.2.toList) ++ pre2, ?_, ?_, ?_⟩
          · intro p hp2
            rw [← hpairs] at hp2
            rcases List.mem_cons.mp hp2 with h1 | h1
            · rw [h1]; exact ⟨hck, hcv⟩
            · exact hall2 p h1
          · rw [hu, hin2]
            simp [List.append_assoc]
          · intro hne; rw [← hpairs] at hne; simp at hne
          · intro _
            obtain ⟨hvne, hvdead⟩ := canonVal_props hcv
            match hvl : kv1.2.toList, hvne with
            | vh :: vt, _ =>
              refine ⟨wsK ++ kv1.1.toList, vh, vt ++ pre2, ?_, ?_, ?_⟩
              · simp [List.append_assoc]
              · intro c hc
                rcases List.mem_append.mp hc with h1 | h1
                · exact ms_not_eq (hws c h1)
                · exact (canonKey_props hck).2.2 c h1
              · exact hvdead vh (by rw [hvl]; simp)
        | none => rw [hm] at h; exact absurd h (by simp)
      · rw [if_neg hl] at h; exact absurd h (by simp)

theorem kv_many0_run :
    ∀ (opts : List (String × String)) (X : List Char),
      (∀ p ∈ opts, canonKey p.1 = true ∧ canonVal p.2 = true) →
      (∀ c, X.head? = some c → deadChar c = true) →
      key_value X = none →
      many0 key_value (serOptsL opts ++ X) = some (X, opts) := by
  intro opts
  induction opts with
  | nil =>
    intro X hcanon hX hfail
    rw [serOptsL_nil, List.nil_append]
    exact many0_nil_build hfail
  | cons kv rest ih =>
    intro X hcanon hX hfail
    rw [serOptsL_cons]
    have hckv := hcanon kv (by simp)
    have hshape :
        (' ' :: kv.1.toList ++ '=' :: kv.2.toList ++ serOptsL rest) ++ X =
          ' ' :: (kv.1.toList ++ '=' :: (kv.2.toList ++ (serOptsL rest ++ X))) := by
      simp [List.append_assoc]
    rw [hshape]
    have hstep := kv_run kv.1 kv.2 (serOptsL rest ++ X) hckv.1 hckv.2 ?hrest
    case hrest =>
      match rest with
      | [] =>
        rw [serOptsL_nil, List.nil_append]
        match X with
        | [] => exact Or.inl rfl
        | x :: xs => exact Or.inr ⟨x, xs, rfl, hX x rfl⟩
      | kv2 :: rest2 =>
        rw [serOptsL_cons]
        exact Or.inr ⟨' ', _, rfl, rfl⟩
    · refine many0_cons_build hstep ?_ (ih X
        (fun p hp => hcanon p (by simp [hp])) hX hfail)
      simp only [List.length_cons, List.length_append]
      omega
theorem insertOption_ne_nil (m : List (String × String)) (k v : String) :
    insertOption m k v ≠ [] := by
  match m with
  | [] => simp [insertOption]
  | (k1, v1) :: rest =>
    unfold insertOption
    by_cases h1 : k = k1
    · rw [if_pos h1]; simp
    · rw [if_neg h1]
      by_cases h2 : k < k1
      · rw [if_pos h2]; simp
      · rw [if_neg h2]; simp

theorem insertOption_head (m : List (String × String)) (k v : String) :
    ∃ p rest2, insertOption m k v = p :: rest2 ∧
      (p.1 = k ∨ ∃ q qs, m = q :: qs ∧ p = q) := by
  match m with
  | [] => exact ⟨(k, v), [], rfl, Or.inl rfl⟩
  | (k1, v1) :: rest =>
    unfold insertOption
    by_cases h1 : k = k1
    · rw [if_pos h1]
      exact ⟨(k, v), rest, rfl, Or.inl rfl⟩
    · rw [if_neg h1]
      by_cases h2 : k < k1
      · rw [if_pos h2]
        exact ⟨(k, v), (k1, v1) :: rest, rfl, Or.inl rfl⟩
      · rw [if_neg h2]
        exact ⟨(k1, v1), insertOption rest k v, rfl,
          Or.inr ⟨(k1, v1), rest, rfl, rfl⟩⟩

theorem strictSorted_tail {p : String × String} {rest : List (String × String)}
    (h : strictSorted (p :: rest) = true) : strictSorted rest = true := by
  match p, rest with
  | _, [] => rfl
  | (k1, v1), (k2, v2) :: rest2 =>
    simp only [strictSorted, Bool.and_eq_true] at h
    exact h.2

theorem strictSorted_head_lt {k1 v1 : String} {rest : List (String × String)}
    (h : strictSorted ((k1, v1) :: rest) = true) : ∀ q ∈ rest, k1 < q.1 := by
  induction rest generalizing k1 v1 with
  | nil => intro q hq; simp at hq
  | cons p2 rest2 ih =>
    intro q hq
    match p2, h, hq with
    | (k2, v2), h, hq =>
      simp only [strictSorted, Bool.and_eq_true, decide_eq_true_eq] at h
      rcases List.mem_cons.mp hq with h1 | h1
      · rw [h1]; exact h.1
      · exact lt_trans h.1 (ih h.2 q h1)

theorem insertOption_sorted {m : List (String × String)} (k v : String)
    (h : strictSorted m = true) : strictSorted (insertOption m k v) = true := by
  induction m with
  | nil => rfl
  | cons p rest ih =>
    obtain ⟨k1, v1⟩ := p
    unfold insertOption
    by_cases h1 : k = k1
    · rw [if_pos h1]
      subst h1
      match rest, h with
      | [], _ => rfl
      | (k2, v2) :: rest2, h =>
        simp only [strictSorted, Bool.and_eq_true] at h ⊢
        exact h
    · rw [if_neg h1]
      by_cases h2 : k < k1
      · rw [if_pos h2]
        simp only [strictSorted, Bool.and_eq_true, decide_eq_true_eq]
        exact ⟨h2, h⟩
      · rw [if_neg h2]
        have hlt : k1 < k := lt_of_le_of_ne (le_of_not_lt h2) (Ne.symm h1)
        have hrest := strictSorted_tail h
        have hins := ih hrest
        obtain ⟨p2, rest2, heq, hp2⟩ := insertOption_head rest k v
        rw [heq] at hins ⊢
        match p2, hins, hp2 with
        | (kp, vp), hins, hp2 =>
          simp only [strictSorted, Bool.and_eq_true, decide_eq_true_eq]
          refine ⟨?_, hins⟩
          rcases hp2 with hL | ⟨q, qs, hm, hpq⟩
          · rw [show kp = k from hL]
            exact hlt
          · have hq : k1 < q.1 := strictSorted_head_lt h q (by rw [hm]; simp)
            rw [← hpq] at hq
            exact hq

theorem insertOption_all {P : String × String → Prop} {m : List (String × String)}
    {k v : String} (hm : ∀ p ∈ m, P p) (hkv : P (k, v)) :
    ∀ p ∈ insertOption m k v, P p := by
  induction m with
  | nil =>
    intro p hp
    simp only [insertOption, List.mem_singleton] at hp
    rw [hp]; exact hkv
  | cons q rest ih =>
    obtain ⟨k1, v1⟩ := q
    unfold insertOption
    by_cases h1 : k = k1
    · rw [if_pos h1]
      intro p hp
      rcases List.mem_cons.mp hp with h2 | h2
      · rw [h2]; exact hkv
      · exact hm p (by simp [h2])
    · rw [if_neg h1]
      by_cases h2 : k < k1
      · rw [if_pos h2]
        intro p hp
        rcases List.mem_cons.mp hp with h3 | h3
        · rw [h3]; exact hkv
        · exact hm p h3
      · rw [if_neg h2]
        intro p hp
        rcases List.mem_cons.mp hp with h3 | h3
        · rw [h3]; exact hm (k1, v1) (by simp)
        · exact ih (fun p2 hp2 => hm p2 (by simp [hp2])) p h3

theorem collect_fold_inv (P : String × String → Prop) :
    ∀ (pairs acc : List (String × String)), strictSorted acc = true →
      (∀ p ∈ acc, P p) → (∀ p ∈ pairs, P p) →
      strictSorted (pairs.foldl (fun m kv => insertOption m kv.1 kv.2) acc) = true ∧
      ∀ p ∈ pairs.foldl (fun m kv => insertOption m kv.1 kv.2) acc, P p := by
  intro pairs
  induction pairs with
  | nil => intro acc hs ha _; exact ⟨hs, ha⟩
  | cons q rest ih =>
    intro acc hs ha hp
    rw [List.foldl_cons]
    exact ih _ (insertOption_sorted q.1 q.2 hs)
      (insertOption_all ha (hp q (by simp)))
      (fun p hp2 => hp p (by simp [hp2]))

theorem canonOpts_collect {pairs : List (String × String)}
    (h : ∀ p ∈ pairs, canonKey p.1 = true ∧ canonVal p.2 = true) :
    canonOpts (collectOptions pairs) = true := by
  have hinv := collect_fold_inv
    (fun p => canonKey p.1 = true ∧ canonVal p.2 = true) pairs [] rfl (by simp) h
  unfold canonOpts collectOptions
  rw [Bool.and_eq_true]
  refine ⟨hinv.1, ?_⟩
  rw [List.all_eq_true]
  intro p hp
  have h2 := hinv.2 p hp
  simp [h2.1, h2.2]

theorem collect_ne_nil {pairs : List (String × String)} (h : pairs ≠ []) :
    collectOptions pairs ≠ [] := by
  match pairs, h with
  | q :: rest, _ =>
    unfold collectOptions
    rw [List.foldl_cons]
    have hgo : ∀ (rest2 acc : List (String × String)), acc ≠ [] →
        rest2.foldl (fun m kv => insertOption m kv.1 kv.2) acc ≠ [] := by
      intro rest2
      induction rest2 with
      | nil => intro acc ha; simpa using ha
      | cons q2 rest3 ih =>
        intro acc ha
        rw [List.foldl_cons]
        exact ih _ (insertOption_ne_nil acc q2.1 q2.2)
    exact hgo rest _ (insertOption_ne_nil [] q.1 q.2)

theorem insert_append_larger : ∀ (m : List (String × String)) (k v : String),
    (∀ p ∈ m, p.1 < k) → insertOption m k v = m ++ [(k, v)] := by
  intro m
  induction m with
  | nil => intro k v _; rfl
  | cons q rest ih =>
    intro k v h
    obtain ⟨k1, v1⟩ := q
    have hlt : k1 < k := h (k1, v1) (by simp)
    unfold insertOption
    rw [if_neg (by intro hc; subst hc; exact absurd hlt (lt_irrefl k)),
      if_neg (by intro hc; exact absurd (lt_trans hc hlt) (lt_irrefl k)),
      ih k v (fun p hp => h p (by simp [hp]))]
    rfl

theorem collect_go_sorted : ∀ (opts acc : List (String × String)),
    (∀ p ∈ acc, ∀ q ∈ opts, p.1 < q.1) → strictSorted opts = true →
    opts.foldl (fun m kv => insertOption m kv.1 kv.2) acc = acc ++ opts := by
  intro opts
  induction opts with
  | nil => intro acc _ _; simp
  | cons q rest ih =>
    intro acc hcross hsorted
    obtain ⟨k, v⟩ := q
    rw [List.foldl_cons]
    rw [show insertOption acc k v = acc ++ [(k, v)] from
      insert_append_larger acc k v (fun p hp => hcross p hp (k, v) (by simp))]
    rw [ih (acc ++ [(k, v)]) ?_ (strictSorted_tail hsorted)]
    · rw [List.append_assoc]
      rfl
    · intro p hp q2 hq2
      rcases List.mem_append.mp hp with h1 | h1
      · exact hcross p h1 q2 (by simp [hq2])
      · simp only [List.mem_singleton] at h1
        rw [h1]
        exact strictSorted_head_lt hsorted q2 hq2

theorem canonOpts_props {opts : List (String × String)} (h : canonOpts opts = true) :
    strictSorted opts = true ∧
      ∀ p ∈ opts, canonKey p.1 = true ∧ canonVal p.2 = true := by
  unfold canonOpts at h
  rw [Bool.and_eq_true] at h
  refine ⟨h.1, ?_⟩
  intro p hp
  have := List.all_eq_true.mp h.2 p hp
  simp only [Bool.and_eq_true] at this
  exact this

theorem collect_fixpoint {opts : List (String × String)}
    (h : canonOpts opts = true) : collectOptions opts = opts := by
  unfold collectOptions
  rw [collect_go_sorted opts [] (by simp) (canonOpts_props h).1]
  rw [List.nil_append]
theorem alt_none {α : Type} {p q : Parser α} {input : List Char}
    (hp : p input = none) (hq : q input = none) : alt p q input = none := by
  unfold alt
  rw [hp]
  exact hq

theorem preceded_some_none {α β : Type} {p : Parser α} {q : Parser β}
    {input rest : List Char} {a : α} (hp : p input = some (rest, a))
    (hq : q rest = none) : preceded p q input = none := by
  unfold preceded
  rw [hp]
  exact hq

theorem tag_cons_fail {a c : Char} {s Z : List Char} (h : c ≠ a) :
    tag (a :: s) (c :: Z) = none := by
  unfold tag
  rw [if_neg]
  intro hp
  simp only [List.isPrefixOf, Bool.and_eq_true, beq_iff_eq] at hp
  exact h hp.1.symm

theorem tag_cons2_fail {a b c : Char} {s Z : List Char} (h : c ≠ b) :
    tag (a :: b :: s) (a :: c :: Z) = none := by
  unfold tag
  rw [if_neg]
  intro hp
  simp only [List.isPrefixOf, Bool.and_eq_true, beq_iff_eq] at hp
  exact h hp.2.1.symm

theorem tag_cons3_fail {a b c d : Char} {s Z : List Char} (h : d ≠ c) :
    tag (a :: b :: c :: s) (a :: b :: d :: Z) = none := by
  unfold tag
  rw [if_neg]
  intro hp
  simp only [List.isPrefixOf, Bool.and_eq_true, beq_iff_eq] at hp
  exact h hp.2.2.1.symm

theorem tag_nil_fail {a : Char} {s : List Char} : tag (a :: s) [] = none := rfl

theorem A_fail_brace (Z : List Char) :
    any_char_except_opening_brace ('\x7b' :: Z) = none := by
  unfold any_char_except_opening_brace
  exact pMap_none (many1_none (none_of_cons_mem (by simp) Z))

theorem A_fail_nil : any_char_except_opening_brace [] = none := rfl

theorem escaped_fail_head {c : Char} (h : c ≠ '\x7b') (Z : List Char) :
    escaped_opening_brace (c :: Z) = none := by
  unfold escaped_opening_brace
  exact pMap_none (tag_cons_fail h)

theorem escaped_fail_second {c : Char} (h : c ≠ '\x7b') (Z : List Char) :
    escaped_opening_brace ('\x7b' :: c :: Z) = none := by
  unfold escaped_opening_brace
  exact pMap_none (tag_cons2_fail h)

theorem style_fail_ident_none {rest0 : List Char} (h : identifier rest0 = none) :
    style ('\x7b' :: rest0) = none := by
  have h1 : preceded (tag ['\x7b']) identifier ('\x7b' :: rest0) = none :=
    preceded_some_none (tag_run ['\x7b'] rest0) h
  exact pMap_none (pMapRes_none (terminated_none h1))

theorem style_fail_tag_end {rest0 rest1 : List Char} {s : String}
    (hident : identifier rest0 = some (rest1, s))
    (htag : tag ['\x7d'] rest1 = none) : style ('\x7b' :: rest0) = none := by
  have h1 : preceded (tag ['\x7b']) identifier ('\x7b' :: rest0) = some (rest1, s) :=
    (preceded_some (tag_run ['\x7b'] rest0)).trans hident
  exact pMap_none (pMapRes_none (terminated_some_none h1 htag))

theorem style_fail_fromStr {rest0 rest1 rest2 : List Char} {s : String}
    {tg : List Char} (hident : identifier rest0 = some (rest1, s))
    (htag : tag ['\x7d'] rest1 = some (rest2, tg))
    (hfrom : StyleToken.fromStr s = none) : style ('\x7b' :: rest0) = none := by
  have h1 : preceded (tag ['\x7b']) identifier ('\x7b' :: rest0) = some (rest1, s) :=
    (preceded_some (tag_run ['\x7b'] rest0)).trans hident
  exact pMap_none (pMapRes_some_none (terminated_some h1 htag) hfrom)

theorem cond_fail_if (fuel : Nat) {rest0 : List Char}
    (h : tag "if".toList (rest0.dropWhile isMultispace) = none) :
    conditionalF fuel ('\x7b' :: rest0) = none := by
  have hms : multispace0 rest0 =
      some (rest0.dropWhile isMultispace, rest0.takeWhile isMultispace) := rfl
  have h1 : if_start ('\x7b' :: rest0) = none := by
    unfold if_start
    exact pMap_none (pPair_some_none (tag_run ['\x7b'] rest0)
      (preceded_some_none hms h))
  unfold conditionalF
  exact pMap_none (pPair_none (preceded_none h1))

theorem comp_fail_ident {rest0 : List Char}
    (h : pMapRes identifier TComponent.fromStr (rest0.dropWhile isMultispace) = none) :
    component ('\x7b' :: rest0) = none := by
  have hms : multispace0 rest0 =
      some (rest0.dropWhile isMultispace, rest0.takeWhile isMultispace) := rfl
  unfold component
  exact pMap_none (pPair_none (preceded_some_none (tag_run ['\x7b'] rest0)
    (preceded_some_none hms h)))

theorem stepF_none {fuel : Nat} {input : List Char}
    (hA : any_char_except_opening_brace input = none)
    (hE : escaped_opening_brace input = none)
    (hS : style input = none)
    (hC : conditionalF fuel input = none)
    (hP : component input = none) : tokensStepF fuel input = none := by
  unfold tokensStepF
  exact alt_none hA (alt_none hE (alt_none hS (alt_none hC hP)))

theorem stepFail_nil (m : Nat) : tokensStepF m [] = none := rfl

theorem ident_else_fail (ys : List Char) :
    identifier ('e' :: 'l' :: 's' :: 'e' :: '\x7d' :: ys) = none := by
  have hrun := identifier_run ['e', 'l', 's', 'e'] ('\x7d' :: ys) (by simp) (by decide)
    (fun c hc => by
      simp only [List.head?_cons, Option.some.injEq] at hc
      rw [← hc]
      decide)
  rw [if_pos (by decide)] at hrun
  exact hrun

theorem ident_end_fail (ys : List Char) :
    identifier ('e' :: 'n' :: 'd' :: '\x7d' :: ys) = none := by
  have hrun := identifier_run ['e', 'n', 'd'] ('\x7d' :: ys) (by simp) (by decide)
    (fun c hc => by
      simp only [List.head?_cons, Option.some.injEq] at hc
      rw [← hc]
      decide)
  rw [if_pos (by decide)] at hrun
  exact hrun

theorem stepFail_else (m : Nat) (ys : List Char) :
    tokensStepF m ('\x7b' :: 'e' :: 'l' :: 's' :: 'e' :: '\x7d' :: ys) = none := by
  apply stepF_none
  · exact A_fail_brace _
  · exact escaped_fail_second (by decide) _
  · exact style_fail_ident_none (ident_else_fail ys)
  · exact cond_fail_if m (tag_cons_fail (by decide))
  · exact comp_fail_ident (pMapRes_none (ident_else_fail ys))

theorem stepFail_end (m : Nat) (ys : List Char) :
    tokensStepF m ('\x7b' :: 'e' :: 'n' :: 'd' :: '\x7d' :: ys) = none := by
  apply stepF_none
  · exact A_fail_brace _
  · exact escaped_fail_second (by decide) _
  · exact style_fail_ident_none (ident_end_fail ys)
  · exact cond_fail_if m (tag_cons_fail (by decide))
  · exact comp_fail_ident (pMapRes_none (ident_end_fail ys))

theorem tcomp_not_if (n : TComponent) (Z : List Char) :
    tag "if".toList (n.str.toList ++ Z) = none := by
  cases n <;> exact tag_cons_fail (by decide)

theorem identString_props {s : String} (h : identString s = true) :
    s.toList ≠ [] ∧ ∀ c ∈ s.toList, isIdentChar c = true := by
  unfold identString at h
  rw [Bool.and_eq_true] at h
  refine ⟨by simpa using h.1, ?_⟩
  intro c hc
  exact List.all_eq_true.mp h.2 c hc

theorem identString_build {s : String} (hne : s.toList ≠ [])
    (hall : ∀ c ∈ s.toList, isIdentChar c = true) : identString s = true := by
  unfold identString
  rw [Bool.and_eq_true]
  refine ⟨by simpa using hne, ?_⟩
  rw [List.all_eq_true]
  exact hall

theorem canonCond_build {s : String} {c : Condition}
    (hfrom : Condition.fromStr s = some c) (hident : identString s = true)
    (hres : RESERVED_KEYWORDS.contains s = false) : canonCond c = true := by
  unfold Condition.fromStr at hfrom
  by_cases hs : s = "last_command_status"
  · rw [if_pos hs] at hfrom
    injection hfrom with h1
    rw [← h1]
    rfl
  · rw [if_neg hs] at hfrom
    injection hfrom with h1
    rw [← h1]
    unfold canonCond
    dsimp only
    rw [hident, hres]
    simp [hs]

theorem condStr_ident {c : Condition} (h : canonCond c = true) :
    identString (condStr c) = true := by
  cases c with
  | LastCommandStatus => decide
  | EnvironmentVariable n =>
    unfold canonCond at h
    simp only [Bool.and_eq_true] at h
    exact h.1.1

theorem condStr_not_reserved {c : Condition} (h : canonCond c = true) :
    RESERVED_KEYWORDS.contains (condStr c) = false := by
  cases c with
  | LastCommandStatus => decide
  | EnvironmentVariable n =>
    unfold canonCond at h
    simp only [Bool.and_eq_true, Bool.not_eq_true'] at h
    exact h.2

theorem condStr_fromStr {c : Condition} (h : canonCond c = true) :
    Condition.fromStr (condStr c) = some c := by
  cases c with
  | LastCommandStatus => rfl
  | EnvironmentVariable n =>
    unfold canonCond at h
    simp only [Bool.and_eq_true, Bool.not_eq_true', decide_eq_false_iff_not] at h
    unfold condStr Condition.fromStr
    rw [if_neg h.1.2]
theorem dropWhile_id {p : Char → Bool} {u : List Char}
    (h : ∀ c, u.head? = some c → p c = false) : u.dropWhile p = u := by
  match u with
  | [] => rfl
  | c :: rest =>
    rw [List.dropWhile_cons, if_neg (by rw [h c rfl]; simp)]

theorem ms0_id {u : List Char} (h : ∀ c, u.head? = some c → isMultispace c = false) :
    multispace0 u = some (u, []) := by
  have := ms0_run [] u (by simp) h
  rwa [List.nil_append] at this

theorem identList_head_not_ms {s : String} {Z : List Char} (hne : s.toList ≠ [])
    (hall : ∀ c ∈ s.toList, isIdentChar c = true) :
    ∀ c, (s.toList ++ Z).head? = some c → isMultispace c = false := by
  intro c hc
  rw [headq_append] at hc
  match hsl : s.toList, hne, hc with
  | c0 :: cs0, _, hc =>
    simp only [Option.some.injEq] at hc
    rw [← hc]
    exact ident_not_ms (hall c0 (by rw [hsl]; simp))

theorem serOpts_brace_head {opts : List (String × String)} {X : List Char} :
    ∀ c, (serOptsL opts ++ ('\x7d' :: X)).head? = some c →
      isIdentChar c = false := by
  intro c hc
  match opts, hc with
  | [], hc =>
    have h0 : (serOptsL [] ++ ('\x7d' :: X)).head? = some '\x7d' := rfl
    rw [h0] at hc
    simp only [Option.some.injEq] at hc
    rw [← hc]
    decide
  | kv :: os, hc =>
    have h0 : (serOptsL (kv :: os) ++ ('\x7d' :: X)).head? = some ' ' := by
      rw [serOptsL_cons]
      rfl
    rw [h0] at hc
    simp only [Option.some.injEq] at hc
    rw [← hc]
    decide

theorem stepF_static_run {m : Nat} {cs X : List Char} (hne : cs ≠ [])
    (hnb : ∀ c ∈ cs, c ∉ ['\x7b'])
    (hX : X = [] ∨ X.head? = some '\x7b') :
    tokensStepF m (cs ++ X) = some (X, Token.Static (String.mk cs)) := by
  have hstop : X = [] ∨ ∃ d ds, X = d :: ds ∧ d ∈ ['\x7b'] := by
    rcases hX with h | h
    · exact Or.inl h
    · match X, h with
      | x :: xs, h =>
        simp only [List.head?_cons, Option.some.injEq] at h
        exact Or.inr ⟨x, xs, rfl, by simp [h]⟩
  have hrun := many1_none_of_run ['\x7b'] cs X hne hnb hstop
  unfold tokensStepF
  apply alt_first
  unfold any_char_except_opening_brace
  exact pMap_some hrun

theorem stepF_escaped_run (m : Nat) (X : List Char) :
    tokensStepF m ('\x7b' :: '\x7b' :: X) =
      some (X, Token.Static (String.mk ['\x7b', '\x7b'])) := by
  unfold tokensStepF
  rw [alt_second (A_fail_brace _)]
  apply alt_first
  unfold escaped_opening_brace
  exact pMap_some (tag_run ['\x7b', '\x7b'] X)

theorem style_run (st : StyleToken) (X : List Char) :
    style ('\x7b' :: (st.str.toList ++ ('\x7d' :: X))) = some (X, Token.Style st) := by
  have hid := identString_props (styleStr_ident st)
  have hres : RESERVED_KEYWORDS.contains (String.mk st.str.toList) = false :=
    styleStr_not_reserved st
  have hident := identifier_run st.str.toList ('\x7d' :: X) hid.1 hid.2
    (fun c hc => by
      simp only [List.head?_cons, Option.some.injEq] at hc
      rw [← hc]
      decide)
  rw [if_neg (by rw [hres]; simp)] at hident
  have hident2 : identifier (st.str.toList ++ ('\x7d' :: X)) =
      some ('\x7d' :: X, st.str) := hident
  have h1 : preceded (tag ['\x7b']) identifier
      ('\x7b' :: (st.str.toList ++ ('\x7d' :: X))) = some ('\x7d' :: X, st.str) :=
    (preceded_some (tag_run ['\x7b'] (st.str.toList ++ ('\x7d' :: X)))).trans hident2
  have h2 : start_identifier_end ('\x7b' :: (st.str.toList ++ ('\x7d' :: X))) =
      some (X, st.str) :=
    terminated_some h1 (tag_run ['\x7d'] X)
  exact pMap_some (pMapRes_some h2 (styleStr_fromStr st))

theorem stepF_style_run (m : Nat) (st : StyleToken) (X : List Char) :
    tokensStepF m ('\x7b' :: (st.str.toList ++ ('\x7d' :: X))) =
      some (X, Token.Style st) := by
  have hid := identString_props (styleStr_ident st)
  unfold tokensStepF
  rw [alt_second (A_fail_brace _)]
  rw [alt_second ?hE]
  case hE =>
    match hsl : st.str.toList, hid.1 with
    | c :: rest, _ =>
      exact escaped_fail_second
        (ident_not_obrace (hid.2 c (by rw [hsl]; simp))) _
  apply alt_first
  exact style_run st X

theorem component_run (n : TComponent) (opts : List (String × String)) (X : List Char)
    (hopts : canonOpts opts = true) (hsig : eqSig X ≠ Sig.live) :
    component ('\x7b' :: (n.str.toList ++ (serOptsL opts ++ ('\x7d' :: X)))) =
      some (X, Token.Component n opts) := by
  have hid := identString_props (tcompStr_ident n)
  have hres : RESERVED_KEYWORDS.contains (String.mk n.str.toList) = false :=
    tcomponent_str_not_reserved n
  have hident := identifier_run n.str.toList (serOptsL opts ++ ('\x7d' :: X))
    hid.1 hid.2 (fun c hc => serOpts_brace_head c hc)
  rw [if_neg (by rw [hres]; simp)] at hident
  have hident2 : identifier (n.str.toList ++ (serOptsL opts ++ ('\x7d' :: X))) =
      some (serOptsL opts ++ ('\x7d' :: X), n.str) := hident
  have hP : preceded (tag ['\x7b'])
      (preceded multispace0 (pMapRes identifier TComponent.fromStr))
      ('\x7b' :: (n.str.toList ++ (serOptsL opts ++ ('\x7d' :: X)))) =
      some (serOptsL opts ++ ('\x7d' :: X), n) := by
    have e1 : preceded (tag ['\x7b'])
        (preceded multispace0 (pMapRes identifier TComponent.fromStr))
        ('\x7b' :: (n.str.toList ++ (serOptsL opts ++ ('\x7d' :: X)))) =
        preceded multispace0 (pMapRes identifier TComponent.fromStr)
          (n.str.toList ++ (serOptsL opts ++ ('\x7d' :: X))) :=
      preceded_some (tag_run ['\x7b'] (n.str.toList ++ (serOptsL opts ++ ('\x7d' :: X))))
    have e2 : preceded multispace0 (pMapRes identifier TComponent.fromStr)
        (n.str.toList ++ (serOptsL opts ++ ('\x7d' :: X))) =
        pMapRes identifier TComponent.fromStr
          (n.str.toList ++ (serOptsL opts ++ ('\x7d' :: X))) :=
      preceded_some (ms0_id (identList_head_not_ms hid.1 hid.2))
    rw [e1, e2]
    exact pMapRes_some hident2 (tcompStr_fromStr n)
  have hkvfail : key_value ('\x7d' :: X) = none := by
    apply key_value_fail
    · intro c hc
      simp only [List.head?_cons, Option.some.injEq] at hc
      rw [← hc]
      exact ⟨by decide, by decide⟩
    · rw [eqSig_cons_ne (by decide)]
      exact hsig
  have hcanon := canonOpts_props hopts
  have hmany0 := kv_many0_run opts ('\x7d' :: X) hcanon.2
    (fun c hc => by
      simp only [List.head?_cons, Option.some.injEq] at hc
      rw [← hc]
      rfl)
    hkvfail
  have hkvs : key_values (serOptsL opts ++ ('\x7d' :: X)) =
      some ('\x7d' :: X, opts) := by
    unfold key_values
    rw [pMap_some hmany0, collect_fixpoint hopts]
  have hQ : terminated key_values (preceded multispace0 (tag ['\x7d']))
      (serOptsL opts ++ ('\x7d' :: X)) = some (X, opts) := by
    have hEnd : preceded multispace0 (tag ['\x7d']) ('\x7d' :: X) =
        some (X, ['\x7d']) := by
      have e3 : preceded multispace0 (tag ['\x7d']) ('\x7d' :: X) =
          tag ['\x7d'] ('\x7d' :: X) :=
        preceded_some (ms0_id (fun c hc => by
          simp only [List.head?_cons, Option.some.injEq] at hc
          rw [← hc]
          rfl))
      rw [e3]
      exact tag_run ['\x7d'] X
    exact terminated_some hkvs hEnd
  unfold component
  exact pMap_some (pPair_some hP hQ)

theorem stepF_component_run (m : Nat) (n : TComponent) (opts : List (String × String))
    (X : List Char) (hopts : canonOpts opts = true) (hsig : eqSig X ≠ Sig.live) :
    tokensStepF m ('\x7b' :: (n.str.toList ++ (serOptsL opts ++ ('\x7d' :: X)))) =
      some (X, Token.Component n opts) := by
  have hid := identString_props (tcompStr_ident n)
  have hres : RESERVED_KEYWORDS.contains (String.mk n.str.toList) = false :=
    tcomponent_str_not_reserved n
  unfold tokensStepF
  rw [alt_second (A_fail_brace _)]
  rw [alt_second ?hE]
  case hE =>
    match hnl : n.str.toList, hid.1 with
    | c :: rest, _ =>
      exact escaped_fail_second (ident_not_obrace (hid.2 c (by rw [hnl]; simp))) _
  rw [alt_second ?hS]
  case hS =>
    have hident := identifier_run n.str.toList (serOptsL opts ++ ('\x7d' :: X))
      hid.1 hid.2 (fun c hc => serOpts_brace_head c hc)
    rw [if_neg (by rw [hres]; simp)] at hident
    match opts, hident with
    | [], hident =>
      rw [serOptsL_nil, List.nil_append] at hident ⊢
      exact style_fail_fromStr hident (tag_run ['\x7d'] X) (component_not_style n)
    | kv :: os, hident =>
      rw [serOptsL_cons] at hident ⊢
      exact style_fail_tag_end hident (tag_cons_fail (by decide))
  rw [alt_second ?hC]
  case hC =>
    apply cond_fail_if
    rw [dropWhile_id (identList_head_not_ms hid.1 hid.2)]
    exact tcomp_not_if n (serOptsL opts ++ ('\x7d' :: X))
  exact component_run n opts X hopts hsig
theorem if_start_run (Z : List Char) :
    if_start ('\x7b' :: 'i' :: 'f' :: Z) = some (Z, ()) := by
  unfold if_start
  have hms : multispace0 ('i' :: 'f' :: Z) = some ('i' :: 'f' :: Z, []) :=
    ms0_id (fun c hc => by
      simp only [List.head?_cons, Option.some.injEq] at hc
      rw [← hc]
      rfl)
  have htag : tag "if".toList ('i' :: 'f' :: Z) = some (Z, "if".toList) :=
    tag_run "if".toList Z
  exact pMap_some (pPair_some (tag_run ['\x7b'] ('i' :: 'f' :: Z))
    ((preceded_some hms).trans htag))

theorem if_condition_run {c : Condition} (hc : canonCond c = true) (Z : List Char) :
    if_condition (' ' :: ((condStr c).toList ++ ('\x7d' :: Z))) = some (Z, c) := by
  have hid := identString_props (condStr_ident hc)
  have hres : RESERVED_KEYWORDS.contains (String.mk (condStr c).toList) = false :=
    condStr_not_reserved hc
  have hms : multispace0 (' ' :: ((condStr c).toList ++ ('\x7d' :: Z))) =
      some ((condStr c).toList ++ ('\x7d' :: Z), [' ']) := by
    have := ms0_run [' '] ((condStr c).toList ++ ('\x7d' :: Z)) (by decide)
      (identList_head_not_ms hid.1 hid.2)
    exact this
  have hident := identifier_run (condStr c).toList ('\x7d' :: Z) hid.1 hid.2
    (fun d hd => by
      simp only [List.head?_cons, Option.some.injEq] at hd
      rw [← hd]
      decide)
  rw [if_neg (by rw [hres]; simp)] at hident
  have hident2 : identifier ((condStr c).toList ++ ('\x7d' :: Z)) =
      some ('\x7d' :: Z, condStr c) := hident
  unfold if_condition
  refine terminated_some ?_ (tag_run ['\x7d'] Z)
  rw [preceded_some hms]
  exact pMapRes_some hident2 (condStr_fromStr hc)

theorem step_static_sound {input rest : List Char} {t : Token}
    (h : any_char_except_opening_brace input = some (rest, t)) :
    StepConc input rest t := by
  unfold any_char_except_opening_brace at h
  obtain ⟨cs, hmany, ht⟩ := pMap_eq_some h
  obtain ⟨hin, hne, hnb, hstop⟩ := many1_none_of_inv hmany
  subst ht
  have hbrfree : cs.all (fun c => c ≠ '\x7b') = true := by
    rw [List.all_eq_true]
    intro d hd
    simpa using (fun hmem => hnb d hd (by simp [hmem]))
  refine ⟨?_, ⟨cs, hin, ?_, hne⟩, ?_, ?_⟩
  · simp only [canonTok]
    unfold canonStatic
    rw [Bool.and_eq_true]
    constructor
    · simpa using hne
    · rw [show (String.mk cs).toList = cs from rfl, hbrfree]
      simp
  · rw [serTokL_static]
    exact chunkRel_refl cs
  · intro _
    rcases hstop with h1 | ⟨d, ds, hd, hmem⟩
    · exact Or.inl h1
    · right
      rw [hd]
      simp only [List.head?_cons]
      simp only [List.mem_singleton] at hmem
      rw [hmem]
  · intro X m hrel _
    rw [serTokL_static]
    apply stepF_static_run hne hnb
    rcases hstop with h1 | ⟨d, ds, hd, hmem⟩
    · left
      exact (chunkRel_nil_iff hrel).mp h1
    · right
      rw [← hrel.2, hd]
      simp only [List.head?_cons]
      simp only [List.mem_singleton] at hmem
      rw [hmem]

theorem step_escaped_sound {input rest : List Char} {t : Token}
    (h : escaped_opening_brace input = some (rest, t)) : StepConc input rest t := by
  unfold escaped_opening_brace at h
  obtain ⟨cs, htag, ht⟩ := pMap_eq_some h
  obtain ⟨hcs, hin⟩ := tag_inv htag
  subst hcs
  subst ht
  refine ⟨?_, ⟨['\x7b', '\x7b'], hin, ?_, by simp⟩, ?_, ?_⟩
  · simp only [canonTok]
    decide
  · rw [serTokL_static]
    exact chunkRel_refl _
  · intro hbf
    simp only [bfStatic] at hbf
    exact absurd hbf (by decide)
  · intro X m hrel _
    rw [serTokL_static]
    exact stepF_escaped_run m X

theorem step_style_sound {input rest : List Char} {t : Token}
    (h : style input = some (rest, t)) : StepConc input rest t := by
  unfold style at h
  obtain ⟨st, hst, ht⟩ := pMap_eq_some h
  subst ht
  obtain ⟨s, hsie, hfrom⟩ := pMapRes_eq_some hst
  unfold start_identifier_end at hsie
  obtain ⟨mid, b, hpre, htagEnd⟩ := terminated_eq_some hsie
  obtain ⟨mid0, a0, htag0, hident⟩ := preceded_eq_some hpre
  obtain ⟨h0, hin0⟩ := tag_inv htag0
  obtain ⟨hb, hmid⟩ := tag_inv htagEnd
  obtain ⟨hin1, hne1, hall1, hres1⟩ := identifier_inv hident
  have hs : s = st.str := styleFromStr_inj hfrom
  subst hs
  refine ⟨by simp only [canonTok],
    ⟨'\x7b' :: (st.str.toList ++ ['\x7d']), ?_, ?_, by simp⟩, ?_, ?_⟩
  · rw [hin0, hin1, hmid]
    simp [List.append_assoc]
  · rw [serTokL_style]
    exact chunkRel_refl _
  · intro hbf
    simp only [bfStatic] at hbf
    exact Bool.noConfusion hbf
  · intro X m hrel hlen
    rw [serTokL_style]
    have hsh : ('\x7b' :: st.str.toList ++ ['\x7d']) ++ X =
        '\x7b' :: (st.str.toList ++ ('\x7d' :: X)) := by
      simp
    rw [hsh]
    exact stepF_style_run m st X

theorem listConc_nil (input : List Char) : ListConc input input [] := by
  refine ⟨rfl, ⟨[], rfl, chunkRel_refl []⟩, ?_, ?_⟩
  · intro hbf
    exact absurd hbf (by rw [endsBf_nil]; simp)
  · intro X m _ hfailX _
    rw [serListL_nil, List.nil_append]
    exact many0_nil_build hfailX

theorem listStep_combine {input rest1 rest : List Char} {t : Token} {ts' : List Token}
    (hstep : StepConc input rest1 t) (htail : ListConc rest1 rest ts') :
    ListConc input rest (t :: ts') := by
  obtain ⟨hcanT, ⟨preT, hinT, hrelT, hneT⟩, hbfT, hcompT⟩ := hstep
  obtain ⟨hcanL, ⟨preL, hinL, hrelL⟩, hbfL, hcompL⟩ := htail
  refine ⟨?_, ⟨preT ++ preL, ?_, ?_⟩, ?_, ?_⟩
  · match ts', hcanL, hrelL, hinL with
    | [], _, _, _ => rw [canonList_single]; exact hcanT
    | t2 :: tl, hcanL, hrelL, hinL =>
      rw [canonList_cons_cons]
      simp only [Bool.and_eq_true]
      refine ⟨⟨hcanT, ?_⟩, hcanL⟩
      by_cases hbt : bfStatic t = true
      · by_cases hbt2 : bfStatic t2 = true
        · exfalso
          have hstop := hbfT hbt
          have hcanT2 := (canonList_of_cons hcanL).1
          obtain ⟨c2, hc2head, hc2ne⟩ := bf_head hbt2 hcanT2
          have hserne : serTokL t2 ≠ [] := serTokL_ne_nil hcanT2
          have hheadSer : (serListL (t2 :: tl)).head? = some c2 := by
            rw [serListL_cons, headq_append]
            match hso : serTokL t2, hserne, hc2head with
            | c0 :: cs0, _, hc2head => simpa using hc2head
          have hpreLne : preL ≠ [] := by
            intro hnil
            have hser : serListL (t2 :: tl) = [] := (chunkRel_nil_iff hrelL).mp hnil
            rw [hser] at hheadSer
            simp at hheadSer
          have hpreLhead : preL.head? = some c2 := by
            rw [hrelL.2]
            exact hheadSer
          have hrest1head : rest1.head? = some c2 := by
            rw [hinL, headq_append]
            match hpl : preL, hpreLne, hpreLhead with
            | p0 :: ps, _, hpreLhead => simpa using hpreLhead
          rcases hstop with h1 | h1
          · rw [h1] at hrest1head
            simp at hrest1head
          · rw [h1] at hrest1head
            simp only [Option.some.injEq] at hrest1head
            exact hc2ne hrest1head.symm
        · simp [hbt, hbt2]
      · simp [hbt]
  · rw [hinT, hinL, List.append_assoc]
  · rw [serListL_cons]
    exact chunkRel_append hrelT hrelL
  · match ts', hcanL, hrelL, hinL, hbfL with
    | [], _, hrelL, hinL, _ =>
      rw [endsBf_single]
      intro hbf
      have hpl : preL = [] := (chunkRel_nil_iff hrelL).mpr rfl
      rw [hpl, List.nil_append] at hinL
      rw [← hinL]
      exact hbfT hbf
    | t2 :: tl, _, _, _, hbfL =>
      rw [endsBf_cons_cons]
      exact hbfL
  · intro X m hrelX hfailX hlen
    rw [serListL_cons] at hlen ⊢
    rw [List.append_assoc] at hlen ⊢
    have hrel1 : ChunkRel rest1 (serListL ts' ++ X) := by
      rw [hinL]
      exact chunkRel_append hrelL hrelX
    have hstepRun := hcompT (serListL ts' ++ X) m hrel1 hlen
    have htailRun := hcompL X m hrelX hfailX (by
      simp only [List.length_append] at hlen ⊢
      omega)
    refine many0_cons_build hstepRun ?_ htailRun
    have hpos : 0 < (serTokL t).length := List.length_pos.mpr (serTokL_ne_nil hcanT)
    simp only [List.length_append]
    omega
theorem step_component_sound {input rest : List Char} {t : Token}
    (h : component input = some (rest, t)) : StepConc input rest t := by
  unfold component at h
  obtain ⟨nv, hpair, ht⟩ := pMap_eq_some h
  subst ht
  obtain ⟨midQ, hP, hQ⟩ := pPair_eq_some hpair
  obtain ⟨rest0, a0, htag0, hP2⟩ := preceded_eq_some hP
  obtain ⟨h0, hin0⟩ := tag_inv htag0
  obtain ⟨rest1, ws1, hms1, hP3⟩ := preceded_eq_some hP2
  obtain ⟨hrest0, hws1, hhead1⟩ := ms0_inv hms1
  obtain ⟨s, hident, hfrom⟩ := pMapRes_eq_some hP3
  obtain ⟨hin1, hne1, hall1, hres1⟩ := identifier_inv hident
  have hsn : s = nv.1.str := tcompFromStr_inj hfrom
  subst hsn
  obtain ⟨mid2, b2, hkvs, hend⟩ := terminated_eq_some hQ
  unfold key_values at hkvs
  obtain ⟨pairs, hmany, hcollect⟩ := pMap_eq_some hkvs
  obtain ⟨hcanonPairs, preKV, hmidQ, hnilKV, hconsKV⟩ :=
    kv_many0_inv midQ.length midQ mid2 pairs (Nat.le_refl _) hmany
  obtain ⟨mid3, ws2, hms2, htagEnd⟩ := preceded_eq_some hend
  obtain ⟨hmid2, hws2, hhead3⟩ := ms0_inv hms2
  obtain ⟨hb2, hmid3⟩ := tag_inv htagEnd
  have hstopKV := many0_stop midQ.length midQ mid2 pairs (Nat.le_refl _) hmany
  have hkvmid3 : key_value mid3 = none := by
    rw [hmid2] at hstopKV
    exact (kv_strip ws2 mid3 hws2 hhead3).symm.trans hstopKV
  have hsigrest : eqSig rest ≠ Sig.live := by
    intro hlive
    have hsucc : ∃ r kv, key_value ('\x7d' :: rest) = some (r, kv) := by
      apply key_value_succ_of_live
      · intro c hcx
        simp only [List.head?_cons, Option.some.injEq] at hcx
        rw [← hcx]
        exact ⟨by decide, by decide⟩
      · rw [eqSig_cons_ne (by decide)]
        exact hlive
    obtain ⟨r, kv, hkv⟩ := hsucc
    have hkvmid3b : key_value ('\x7d' :: rest) = none := by
      have : mid3 = '\x7d' :: rest := hmid3
      rw [← this]
      exact hkvmid3
    rw [hkvmid3b] at hkv
    exact absurd hkv (by simp)
  have hcanonOpts : canonOpts nv.2 = true := by
    rw [hcollect]
    exact canonOpts_collect hcanonPairs
  have hpre_eq : input =
      ('\x7b' :: (ws1 ++ (nv.1.str.toList ++ (preKV ++ (ws2 ++ ['\x7d']))))) ++ rest := by
    rw [hin0, hrest0, hin1, hmidQ, hmid2, hmid3]
    simp [List.append_assoc]
  have hsig_pre_ser : eqSig ('\x7b' :: (ws1 ++ (nv.1.str.toList ++
      (preKV ++ (ws2 ++ ['\x7d']))))) = eqSig (serTokL (Token.Component nv.1 nv.2)) := by
    by_cases hps : pairs = []
    · have hpkv : preKV = [] := hnilKV hps
      have hopts : nv.2 = [] := by rw [hcollect, hps]; rfl
      rw [hpkv, hopts, serTokL_component, serOptsL_nil]
      rw [eqSig_noEq_of_forall ?_, eqSig_noEq_of_forall ?_]
      · intro c hcx
        simp only [List.cons_append, List.append_nil, List.mem_cons,
          List.mem_append, List.mem_singleton, List.not_mem_nil, or_false] at hcx
        rcases hcx with h1 | h1 | h1
        · rw [h1]; decide
        · exact ident_not_eq ((identString_props (tcompStr_ident nv.1)).2 c h1)
        · rw [h1]; decide
      · intro c hcx
        simp only [List.nil_append, List.mem_cons, List.mem_append,
          List.mem_singleton, List.not_mem_nil, or_false] at hcx
        rcases hcx with h1 | h1 | h1 | h1 | h1
        · rw [h1]; decide
        · exact ms_not_eq (hws1 c h1)
        · exact ident_not_eq (hall1 c h1)
        · exact ms_not_eq (hws2 c h1)
        · rw [h1]; decide
    · obtain ⟨A, d, ds, hpkv, hA, hd⟩ := hconsKV hps
      have hopts_ne : nv.2 ≠ [] := by rw [hcollect]; exact collect_ne_nil hps
      have hpre_live : eqSig ('\x7b' :: (ws1 ++ (nv.1.str.toList ++
          (preKV ++ (ws2 ++ ['\x7d']))))) = Sig.live := by
        have hshape : '\x7b' :: (ws1 ++ (nv.1.str.toList ++
            (preKV ++ (ws2 ++ ['\x7d'])))) =
            ('\x7b' :: (ws1 ++ (nv.1.str.toList ++ A))) ++
              '=' :: d :: (ds ++ (ws2 ++ ['\x7d'])) := by
          rw [hpkv]
          simp [List.append_assoc]
        rw [hshape]
        apply eqSig_live_prefix _ ?_ hd
        intro c hcx
        simp only [List.mem_cons, List.mem_append] at hcx
        rcases hcx with h1 | h1 | h1 | h1
        · rw [h1]; decide
        · exact ms_not_eq (hws1 c h1)
        · exact ident_not_eq (hall1 c h1)
        · exact hA c h1
      match hop : nv.2, hopts_ne with
      | (k, v) :: os, _ =>
        have hkv := (canonOpts_props (hop ▸ hcanonOpts)).2 (k, v) (by simp)
        obtain ⟨hvne, hvdead⟩ := canonVal_props hkv.2
        match hvl : v.toList, hvne with
        | vh :: vt, _ =>
          have hser_live : eqSig (serTokL (Token.Component nv.1 ((k, v) :: os))) =
              Sig.live := by
            rw [serTokL_component, serOptsL_cons]
            have hshape2 : '\x7b' :: nv.1.str.toList ++
                (' ' :: k.toList ++ '=' :: v.toList ++ serOptsL os) ++ ['\x7d'] =
                ('\x7b' :: (nv.1.str.toList ++ (' ' :: k.toList))) ++
                  '=' :: vh :: (vt ++ (serOptsL os ++ ['\x7d'])) := by
              rw [hvl]
              simp [List.append_assoc]
            rw [hshape2]
            apply eqSig_live_prefix _ ?_ (hvdead vh (by rw [hvl]; simp))
            intro c hcx
            simp only [List.mem_cons, List.mem_append] at hcx
            rcases hcx with h1 | h1 | h1 | h1
            · rw [h1]; decide
            · exact ident_not_eq ((identString_props (tcompStr_ident nv.1)).2 c h1)
            · rw [h1]; decide
            · exact (canonKey_props hkv.1).2.2 c h1
          rw [hpre_live, hser_live]
  refine ⟨?_, ⟨'\x7b' :: (ws1 ++ (nv.1.str.toList ++ (preKV ++ (ws2 ++ ['\x7d'])))),
    hpre_eq, ⟨hsig_pre_ser, ?_⟩, by simp⟩, ?_, ?_⟩
  · simp only [canonTok]
    exact hcanonOpts
  · rw [serTokL_component]
    rfl
  · intro hbf
    simp only [bfStatic] at hbf
    exact Bool.noConfusion hbf
  · intro X m hrel hlen
    rw [serTokL_component]
    have hsh : ('\x7b' :: nv.1.str.toList ++ serOptsL nv.2 ++ ['\x7d']) ++ X =
        '\x7b' :: (nv.1.str.toList ++ (serOptsL nv.2 ++ ('\x7d' :: X))) := by
      simp
    rw [hsh]
    apply stepF_component_run m nv.1 nv.2 X hcanonOpts
    rw [← hrel.1]
    exact hsigrest
theorem tokensRT {input : List Char} (hS : StepP input.length)
    (hL : ∀ m2, m2 < input.length → ListP m2) {fuel : Nat}
    (hfuel : input.length ≤ fuel) {rest : List Char} {ts : List Token}
    (h : many1 (tokensStepF fuel) input = some (rest, ts)) :
    canonList ts = true ∧ ts ≠ [] ∧
    (∃ pre, input = pre ++ rest ∧ ChunkRel pre (serListL ts) ∧ pre ≠ []) ∧
    (endsBf ts = true → rest = [] ∨ rest.head? = some '\x7b') ∧
    ∀ (X : List Char) (m : Nat), ChunkRel rest X → tokensStepF m X = none →
      (serListL ts ++ X).length ≤ m →
      many1 (tokensStepF m) (serListL ts ++ X) = some (X, ts) := by
  obtain ⟨rest1, t, ts', hstep, hlt, hm0, hts⟩ := many1_inv h
  subst hts
  have hstepC : StepConc input rest1 t :=
    hS input (Nat.le_refl _) fuel hfuel rest1 t hstep
  have htailC : ListConc rest1 rest ts' :=
    hL rest1.length hlt rest1 (Nat.le_refl _) fuel (by omega) rest ts' hm0
  have hcomb := listStep_combine hstepC htailC
  obtain ⟨hcan, ⟨pre, hin, hrel⟩, hbf, _⟩ := hcomb
  refine ⟨hcan, by simp, ⟨pre, hin, hrel, ?_⟩, hbf, ?_⟩
  · intro hnil
    have hser := (chunkRel_nil_iff hrel).mp hnil
    exact serListL_ne_nil (by simp) hcan hser
  · intro X m hrelX hfailX hlen
    obtain ⟨hcanT, ⟨preT, hinT, hrelT, hneT⟩, hbfT, hcompT⟩ := hstepC
    obtain ⟨hcanL, ⟨preL, hinL, hrelL⟩, hbfL, hcompL⟩ := htailC
    rw [serListL_cons] at hlen ⊢
    rw [List.append_assoc] at hlen ⊢
    have hrel1 : ChunkRel rest1 (serListL ts' ++ X) := by
      rw [hinL]
      exact chunkRel_append hrelL hrelX
    have hstepRun := hcompT (serListL ts' ++ X) m hrel1 hlen
    have htailRun := hcompL X m hrelX hfailX (by
      simp only [List.length_append] at hlen ⊢
      omega)
    refine many1_build hstepRun ?_ htailRun
    have hpos : 0 < (serTokL t).length := List.length_pos.mpr (serTokL_ne_nil hcanT)
    simp only [List.length_append]
    omega
theorem step_cond_sound {L : Nat} (IH : ∀ m2, m2 < L → StepP m2 ∧ ListP m2)
    {input rest : List Char} {t : Token} {fuel : Nat}
    (hlenL : input.length ≤ L) (hfuel : input.length ≤ fuel)
    (h : conditionalF fuel input = some (rest, t)) : StepConc input rest t := by
  unfold conditionalF at h
  obtain ⟨⟨c0, l0, r0⟩, hpair, ht⟩ := pMap_eq_some h
  try dsimp only at ht hpair
  subst ht
  obtain ⟨r3, hPC, hRest⟩ := pPair_eq_some hpair
  try dsimp only at hPC hRest
  obtain ⟨r1, u1, hifs, hifc⟩ := preceded_eq_some hPC
  unfold if_start at hifs
  obtain ⟨y, hpair0, _⟩ := pMap_eq_some hifs
  obtain ⟨rb, htagBrace, hpre0⟩ := pPair_eq_some hpair0
  obtain ⟨hy1, hinB⟩ := tag_inv htagBrace
  obtain ⟨rb1, wsA, hmsA, htagIf⟩ := preceded_eq_some hpre0
  obtain ⟨hrb, hwsA, hheadA⟩ := ms0_inv hmsA
  obtain ⟨hy2, hrb1⟩ := tag_inv htagIf
  unfold if_condition at hifc
  obtain ⟨rc2, bc, hmidC, htagC⟩ := terminated_eq_some hifc
  obtain ⟨rc1, wsB, hmsB, hmapC⟩ := preceded_eq_some hmidC
  obtain ⟨hr1eq, hwsB, hheadB⟩ := ms0_inv hmsB
  obtain ⟨sc, hidentC, hfromC⟩ := pMapRes_eq_some hmapC
  obtain ⟨hinC, hneC, hallC, hresC⟩ := identifier_inv hidentC
  obtain ⟨hbc, hrc2⟩ := tag_inv htagC
  obtain ⟨r4, hinner, hTail⟩ := pPair_eq_some hRest
  try dsimp only at hinner hTail
  obtain ⟨r6, u6, hOptRes, hEndTag⟩ := terminated_eq_some hTail
  unfold end_tag at hEndTag
  obtain ⟨e6, htagE, _⟩ := pMap_eq_some hEndTag
  obtain ⟨he6, hr6⟩ := tag_inv htagE
  have hcanonC : canonCond c0 = true :=
    canonCond_build hfromC (identString_build hneC hallC) hresC
  have hCondId := identString_props (condStr_ident hcanonC)
  match fuel, hfuel, hinner with
  | 0, hfuel, hinner => exact absurd hinner (by simp [tokensF])
  | g + 1, hfuel, hinner =>
  rw [tokensF_succ] at hinner
  have hInFull : input = '\x7b' :: (wsA ++ ("if".toList ++ (wsB ++ (sc.toList ++
      ('\x7d' :: r3))))) := by
    rw [hinB, hrb, hrb1, hr1eq, hinC, hrc2]
    simp [List.append_assoc]
  have hscpos : 0 < sc.toList.length := List.length_pos.mpr hneC
  have hlen3 : r3.length + 5 ≤ input.length := by
    have hl := congrArg List.length hInFull
    simp only [List.length_cons, List.length_append] at hl
    have h2 : ("if".toList).length = 2 := rfl
    omega
  have hInner := tokensRT (IH r3.length (by omega)).1
    (fun m2 hm2 => (IH m2 (by omega)).2)
    (show r3.length ≤ g by omega) hinner
  obtain ⟨hcanL0, hneL0, ⟨preL2, hr3eq, hrelL2, hneP2⟩, hbfL0, hcompL0⟩ := hInner
  have hieL0 : l0.isEmpty = false := by
    rw [Bool.eq_false_iff]
    intro hx
    exact hneL0 (List.isEmpty_iff.mp hx)
  have hp1 : ChunkRel ('\x7b' :: (wsA ++ ("if".toList ++ (wsB ++ (sc.toList ++ ['\x7d'])))))
      ("\x7bif ".toList ++ ((condStr c0).toList ++ ['\x7d'])) := by
    constructor
    · rw [eqSig_noEq_of_forall ?_, eqSig_noEq_of_forall ?_]
      · intro c hcx
        simp only [List.mem_append, List.mem_singleton] at hcx
        rcases hcx with h1 | h1 | h1
        · exact (show ∀ c ∈ "\x7bif ".toList, c ≠ '=' by decide) c h1
        · exact ident_not_eq (hCondId.2 c h1)
        · rw [h1]; decide
      · intro c hcx
        simp only [List.mem_cons, List.mem_append, List.mem_singleton,
          List.not_mem_nil, or_false] at hcx
        rcases hcx with h1 | h1 | h1 | h1 | h1 | h1
        · rw [h1]; decide
        · exact ms_not_eq (hwsA c h1)
        · exact (show ∀ c ∈ "if".toList, c ≠ '=' by decide) c h1
        · exact ms_not_eq (hwsB c h1)
        · exact ident_not_eq (hallC c h1)
        · rw [h1]; decide
    · rfl
  rcases pOpt_eq_some hOptRes with ⟨hro, hr6r4⟩ | ⟨rr, hro, helse⟩
  · -- no else branch
    subst hro
    have hr4 : r4 = "\x7bend\x7d".toList ++ rest := hr6r4.symm.trans hr6
    have hcanonTok : canonTok (Token.Conditional c0 l0 none) = true := by
      simp only [canonTok]
      rw [hcanonC, hcanL0, hieL0]
      rfl
    refine ⟨hcanonTok,
      ⟨(('\x7b' :: (wsA ++ ("if".toList ++ (wsB ++ (sc.toList ++ ['\x7d'])))) ++ preL2) ++
        "\x7bend\x7d".toList), ?_, ?_, by simp⟩, ?_, ?_⟩
    · rw [hInFull, hr3eq, hr4]
      simp [List.append_assoc]
    · have hser : serTokL (Token.Conditional c0 l0 none) =
          (("\x7bif ".toList ++ ((condStr c0).toList ++ ['\x7d'])) ++ serListL l0) ++
            "\x7bend\x7d".toList := by
        rw [serTokL_cond_none]
        simp [List.append_assoc]
      rw [hser]
      exact chunkRel_append (chunkRel_append hp1 hrelL2) (chunkRel_refl _)
    · intro hbf
      simp only [bfStatic] at hbf
      exact Bool.noConfusion hbf
    · intro X m hrelX hlen
      obtain ⟨m', rfl⟩ : ∃ m', m = m' + 1 := by
        refine ⟨m - 1, ?_⟩
        have hpos : 0 < (serTokL (Token.Conditional c0 l0 none) ++ X).length := by
          rw [List.length_append]
          have := List.length_pos.mpr (serTokL_ne_nil hcanonTok)
          omega
        omega
      have hshape : serTokL (Token.Conditional c0 l0 none) ++ X =
          '\x7b' :: 'i' :: 'f' :: ' ' :: ((condStr c0).toList ++ ('\x7d' ::
            (serListL l0 ++ ("\x7bend\x7d".toList ++ X)))) := by
        rw [serTokL_cond_none]
        rw [show "\x7bif ".toList = ['\x7b', 'i', 'f', ' '] from rfl]
        simp [List.append_assoc]
      rw [hshape] at hlen ⊢
      unfold tokensStepF
      rw [alt_second (A_fail_brace _)]
      rw [alt_second (escaped_fail_second (by decide) _)]
      rw [alt_second ?hSty]
      case hSty =>
        have hidentIf := identifier_run ['i', 'f']
          (' ' :: ((condStr c0).toList ++ ('\x7d' ::
            (serListL l0 ++ ("\x7bend\x7d".toList ++ X)))))
          (by simp) (by decide)
          (fun c hcx => by
            simp only [List.head?_cons, Option.some.injEq] at hcx
            rw [← hcx]
            decide)
        rw [if_neg (by decide)] at hidentIf
        exact style_fail_tag_end hidentIf (tag_cons_fail (by decide))
      apply alt_first
      unfold conditionalF
      have hPCrun : preceded if_start if_condition
          ('\x7b' :: 'i' :: 'f' :: ' ' :: ((condStr c0).toList ++ ('\x7d' ::
            (serListL l0 ++ ("\x7bend\x7d".toList ++ X))))) =
          some (serListL l0 ++ ("\x7bend\x7d".toList ++ X), c0) := by
        rw [preceded_some (if_start_run _)]
        exact if_condition_run hcanonC _
      have hInnerRun : tokensF (m' + 1) (serListL l0 ++ ("\x7bend\x7d".toList ++ X)) =
          some ("\x7bend\x7d".toList ++ X, l0) := by
        rw [tokensF_succ]
        apply hcompL0 ("\x7bend\x7d".toList ++ X) m' ?_ ?_ ?_
        · rw [hr4]
          exact chunkRel_append (chunkRel_refl _) hrelX
        · exact stepFail_end m' X
        · simp only [List.length_cons, List.length_append] at hlen ⊢
          omega
      have hOptRun : pOpt (preceded if_else_tag (tokensF (m' + 1)))
          ("\x7bend\x7d".toList ++ X) =
          some ("\x7bend\x7d".toList ++ X, (none : Option (List Token))) := by
        apply pOpt_none
        apply preceded_none
        unfold if_else_tag
        exact pMap_none (tag_cons3_fail (by decide))
      have hEndRun : end_tag ("\x7bend\x7d".toList ++ X) = some (X, ()) := by
        unfold end_tag
        exact pMap_some (tag_run "\x7bend\x7d".toList X)
      exact pMap_some (pPair_some hPCrun (pPair_some hInnerRun
        (terminated_some hOptRun hEndRun)))
  · -- with else branch
    subst hro
    obtain ⟨r5, u5, hElseTag, hinnerR⟩ := preceded_eq_some helse
    unfold if_else_tag at hElseTag
    obtain ⟨e5, htagEl, _⟩ := pMap_eq_some hElseTag
    obtain ⟨he5, hr4eq⟩ := tag_inv htagEl
    rw [tokensF_succ] at hinnerR
    have hlen4 : r4.length ≤ r3.length := by
      have hl := congrArg List.length hr3eq
      simp only [List.length_append] at hl
      omega
    have hlen5 : r5.length + 6 ≤ r3.length := by
      have hl := congrArg List.length hr4eq
      simp only [List.length_append] at hl
      have h6 : ("\x7belse\x7d".toList).length = 6 := rfl
      omega
    have hInnerR := tokensRT (IH r5.length (by omega)).1
      (fun m2 hm2 => (IH m2 (by omega)).2)
      (show r5.length ≤ g by omega) hinnerR
    obtain ⟨hcanR0, hneR0, ⟨preR2, hr5eq, hrelR2, hneP5⟩, hbfR0, hcompR0⟩ := hInnerR
    have hieR0 : rr.isEmpty = false := by
      rw [Bool.eq_false_iff]
      intro hx
      exact hneR0 (List.isEmpty_iff.mp hx)
    have hcanonTok : canonTok (Token.Conditional c0 l0 (some rr)) = true := by
      simp only [canonTok]
      rw [hcanonC, hcanL0, hieL0, hcanR0, hieR0]
      rfl
    refine ⟨hcanonTok,
      ⟨'\x7b' :: (wsA ++ ("if".toList ++ (wsB ++ (sc.toList ++ ['\x7d'])))) ++ preL2 ++
        ("\x7belse\x7d".toList ++ preR2) ++ "\x7bend\x7d".toList, ?_, ?_, by simp⟩,
        ?_, ?_⟩
    · rw [hInFull, hr3eq, hr4eq, hr5eq, hr6]
      simp [List.append_assoc]
    · have hser : serTokL (Token.Conditional c0 l0 (some rr)) =
          ((("\x7bif ".toList ++ ((condStr c0).toList ++ ['\x7d'])) ++ serListL l0) ++
            ("\x7belse\x7d".toList ++ serListL rr)) ++ "\x7bend\x7d".toList := by
        rw [serTokL_cond_some]
        simp [List.append_assoc]
      rw [hser]
      exact chunkRel_append (chunkRel_append (chunkRel_append hp1 hrelL2)
        (chunkRel_append (chunkRel_refl _) hrelR2)) (chunkRel_refl _)
    · intro hbf
      simp only [bfStatic] at hbf
      exact Bool.noConfusion hbf
    · intro X m hrelX hlen
      obtain ⟨m', rfl⟩ : ∃ m', m = m' + 1 := by
        refine ⟨m - 1, ?_⟩
        have hpos : 0 < (serTokL (Token.Conditional c0 l0 (some rr)) ++ X).length := by
          rw [List.length_append]
          have := List.length_pos.mpr (serTokL_ne_nil hcanonTok)
          omega
        omega
      have hshape : serTokL (Token.Conditional c0 l0 (some rr)) ++ X =
          '\x7b' :: 'i' :: 'f' :: ' ' :: ((condStr c0).toList ++ ('\x7d' ::
            (serListL l0 ++ ("\x7belse\x7d".toList ++
              (serListL rr ++ ("\x7bend\x7d".toList ++ X)))))) := by
        rw [serTokL_cond_some]
        rw [show "\x7bif ".toList = ['\x7b', 'i', 'f', ' '] from rfl]
        simp [List.append_assoc]
      rw [hshape] at hlen ⊢
      unfold tokensStepF
      rw [alt_second (A_fail_brace _)]
      rw [alt_second (escaped_fail_second (by decide) _)]
      rw [alt_second ?hSty]
      case hSty =>
        have hidentIf := identifier_run ['i', 'f']
          (' ' :: ((condStr c0).toList ++ ('\x7d' ::
            (serListL l0 ++ ("\x7belse\x7d".toList ++
              (serListL rr ++ ("\x7bend\x7d".toList ++ X)))))))
          (by simp) (by decide)
          (fun c hcx => by
            simp only [List.head?_cons, Option.some.injEq] at hcx
            rw [← hcx]
            decide)
        rw [if_neg (by decide)] at hidentIf
        exact style_fail_tag_end hidentIf (tag_cons_fail (by decide))
      apply alt_first
      unfold conditionalF
      have hPCrun : preceded if_start if_condition
          ('\x7b' :: 'i' :: 'f' :: ' ' :: ((condStr c0).toList ++ ('\x7d' ::
            (serListL l0 ++ ("\x7belse\x7d".toList ++
              (serListL rr ++ ("\x7bend\x7d".toList ++ X))))))) =
          some (serListL l0 ++ ("\x7belse\x7d".toList ++
            (serListL rr ++ ("\x7bend\x7d".toList ++ X))), c0) := by
        rw [preceded_some (if_start_run _)]
        exact if_condition_run hcanonC _
      have hInnerRun : tokensF (m' + 1) (serListL l0 ++ ("\x7belse\x7d".toList ++
          (serListL rr ++ ("\x7bend\x7d".toList ++ X)))) =
          some ("\x7belse\x7d".toList ++
            (serListL rr ++ ("\x7bend\x7d".toList ++ X)), l0) := by
        rw [tokensF_succ]
        apply hcompL0 ("\x7belse\x7d".toList ++ (serListL rr ++
          ("\x7bend\x7d".toList ++ X))) m' ?_ ?_ ?_
        · rw [hr4eq, hr5eq, hr6]
          exact chunkRel_append (chunkRel_refl _)
            (chunkRel_append hrelR2 (chunkRel_append (chunkRel_refl _) hrelX))
        · exact stepFail_else m' (serListL rr ++ ("\x7bend\x7d".toList ++ X))
        · simp only [List.length_cons, List.length_append] at hlen ⊢
          omega
      have hRightRun : tokensF (m' + 1) (serListL rr ++ ("\x7bend\x7d".toList ++ X)) =
          some ("\x7bend\x7d".toList ++ X, rr) := by
        rw [tokensF_succ]
        apply hcompR0 ("\x7bend\x7d".toList ++ X) m' ?_ ?_ ?_
        · rw [hr6]
          exact chunkRel_append (chunkRel_refl _) hrelX
        · exact stepFail_end m' X
        · simp only [List.length_cons, List.length_append] at hlen ⊢
          omega
      have hElseRun : preceded if_else_tag (tokensF (m' + 1))
          ("\x7belse\x7d".toList ++ (serListL rr ++ ("\x7bend\x7d".toList ++ X))) =
          some ("\x7bend\x7d".toList ++ X, rr) := by
        have hTagRun : if_else_tag ("\x7belse\x7d".toList ++
            (serListL rr ++ ("\x7bend\x7d".toList ++ X))) =
            some (serListL rr ++ ("\x7bend\x7d".toList ++ X), ()) := by
          unfold if_else_tag
          exact pMap_some (tag_run "\x7belse\x7d".toList
            (serListL rr ++ ("\x7bend\x7d".toList ++ X)))
        exact (preceded_some hTagRun).trans hRightRun
      have hEndRun : end_tag ("\x7bend\x7d".toList ++ X) = some (X, ()) := by
        unfold end_tag
        exact pMap_some (tag_run "\x7bend\x7d".toList X)
      exact pMap_some (pPair_some hPCrun (pPair_some hInnerRun
        (terminated_some (pOpt_some hElseRun) hEndRun)))
theorem stepListP : ∀ L : Nat, StepP L ∧ ListP L := by
  intro L
  induction L using Nat.strong_induction_on with
  | _ L IH =>
    have hstep : StepP L := by
      intro input hlenL fuel hfuel rest t h
      unfold tokensStepF at h
      rcases alt_eq_some h with hA | ⟨hAfail, h2⟩
      · exact step_static_sound hA
      · rcases alt_eq_some h2 with hE | ⟨hEfail, h3⟩
        · exact step_escaped_sound hE
        · rcases alt_eq_some h3 with hSy | ⟨hSfail, h4⟩
          · exact step_style_sound hSy
          · rcases alt_eq_some h4 with hC | ⟨hCfail, hP⟩
            · exact step_cond_sound IH hlenL hfuel hC
            · exact step_component_sound hP
    refine ⟨hstep, ?_⟩
    intro input hlenL fuel hfuel rest ts h
    rw [many0_unfold] at h
    match hp : tokensStepF fuel input with
    | none =>
      rw [hp] at h
      dsimp only at h
      simp only [Option.some.injEq, Prod.mk.injEq] at h
      rw [← h.1, ← h.2]
      exact listConc_nil input
    | some (rest1, t) =>
      rw [hp] at h
      dsimp only at h
      by_cases hl : rest1.length < input.length
      · rw [if_pos hl] at h
        match hm : many0 (tokensStepF fuel) rest1 with
        | some (rest2, ts2) =>
          rw [hm] at h
          dsimp only at h
          simp only [Option.some.injEq, Prod.mk.injEq] at h
          obtain ⟨hr, hts⟩ := h
          have hstepC := hstep input hlenL fuel hfuel rest1 t hp
          have htailC : ListConc rest1 rest2 ts2 :=
            (IH rest1.length (by omega)).2 rest1 (Nat.le_refl _) fuel (by omega)
              rest2 ts2 hm
          rw [← hr, ← hts]
          exact listStep_combine hstepC htailC
        | none => rw [hm] at h; exact absurd h (by simp)
      · rw [if_neg hl] at h; exact absurd h (by simp)

/-- C4: parsing a template and re-serializing the resulting token sequence is
a round trip — whenever `parse` succeeds, re-parsing the re-serialization of
its output yields exactly the same token sequence (whitespace is normalized
away, duplicate options are collapsed, and the options map is emitted in its
canonical order, all of which re-parse to the same tokens). -/
theorem claim_C4 (s : String) (ts : List Token) (h : parse s = Except.ok ts) :
    parse (ser ts) = Except.ok ts := by
  unfold parse at h
  match htok : tokens s.toList with
  | none => rw [htok] at h; exact absurd h (by simp)
  | some (rest, ts2) =>
    rw [htok] at h
    dsimp only at h
    by_cases hre : rest.isEmpty
    · rw [if_pos hre] at h
      simp only [Except.ok.injEq] at h
      subst h
      have hrest : rest = [] := by simpa using hre
      subst hrest
      unfold tokens at htok
      rw [tokensF_succ] at htok
      have hmaster := stepListP s.toList.length
      have hRT := tokensRT hmaster.1 (fun m2 _ => (stepListP m2).2)
        (Nat.le_refl _) htok
      obtain ⟨_, _, _, _, hcomp⟩ := hRT
      unfold parse ser tokens
      have htl : (String.mk (serListL ts2)).toList = serListL ts2 := rfl
      rw [htl, tokensF_succ]
      have hrun := hcomp [] (serListL ts2).length (chunkRel_refl [])
        (stepFail_nil _) (by simp)
      rw [List.append_nil] at hrun
      rw [hrun]
      rfl
    · rw [if_neg hre] at h; exact absurd h (by simp)

/-- C4, witness: the template `\x7bcwd\x7d $` parses to a component plus a
static tail, and re-parsing its re-serialization returns the same tokens. -/
theorem claim_C4_witness :
    parse (ser [Token.Component TComponent.Cwd [], Token.Static " $"]) =
      Except.ok [Token.Component TComponent.Cwd [], Token.Static " $"] :=
  claim_C4 "\x7bcwd\x7d $" [Token.Component TComponent.Cwd [], Token.Static " $"] rfl
